import Mathlib

/-!
# Verification development for `graph_colour_solver.c`

A shallow embedding of the colouring solver: the graph model (dense matrix plus
neighbour lists), the bitset primitives, the partial assignment, the branching
heuristic, the recursive search `expand`, its driver `solve` and the outer loop
`find_colouring_number`.

Conventions of the embedding.

* C `int`s that only ever hold counts or indices are natural numbers, and so
  are their products and sums: the product `g.n * f` of the goal tests, the
  row offsets `v * domain_num_words`, the popcounts and the score sums of
  `choose_branching_vertex`.  Signed overflow is undefined in C, so the
  embedding agrees with the source only while these values are at most
  `INT_MAX`.  The bound `INT_MAX` is kept where the source uses it, and the
  statements about what a run returns carry the range hypotheses that keep
  every such value in range: `k ≤ INT_MAX`, `g.n * k ≤ INT_MAX` for a search
  with `k` colours (a row has at most `k` bits and a score adds fewer than
  `g.n` popcounts), `g.n * f ≤ INT_MAX` for the goal tests, and
  `g.n * (g.n * f) ≤ INT_MAX` for the rounds of `find_colouring_number`, none
  of which has more than `g.n * f` colours.
* The `unsigned long long` counter of `expand` calls and the budget are natural
  numbers as well: they are taken not to wrap around at `2^64`, a value the
  counter reaches only after that many calls of `expand`.
* The library generator is a parameter: `rand seed j` is the `j`-th value of
  `rand()` after `srand(seed)`.  Every statement holds for every such function.
* The loops `while (true)` and `for ( ; ; )` and the recursion of `expand` take
  a bound on their rounds, and yield `Fault.out_of_fuel` when it is used up.
* `std::vector` objects are lists; a read outside the vector (undefined in C)
  yields a default value and a write outside it does nothing.
* A bitset of `num_words` 64-bit words is the natural number whose binary
  digits are the bits of the words, least significant word first.
-/

namespace GraphColour

/-! ## Graph model -/

/-- Modelled from the spec: the type `ColouringGraph` of the header
`graph_colour_solver.h`, which is not part of the sources at hand.  It has the
vertex count `n`, the dense boolean matrix `adj_matrix` and the per-vertex
neighbour lists `adjlist`. -/
structure ColouringGraph where
  n : Nat
  adj_matrix : List (List Bool)
  adjlist : List (List Nat)
deriving DecidableEq, Repr

/-- Modelled from the spec: the constructor `ColouringGraph(n)` of the missing
header, giving `n` vertices, an all-false `n × n` matrix and empty neighbour
lists. -/
def ColouringGraph.create (n : Nat) : ColouringGraph :=
  { n := n
    adj_matrix := List.replicate n (List.replicate n false)
    adjlist := List.replicate n [] }

/-- The read `m[v][w]` of a matrix entry. -/
def entry (m : List (List Bool)) (v w : Nat) : Bool :=
  (m.getD v []).getD w false

/-- The write `m[v][w] = b` of a matrix entry. -/
def setEntry (m : List (List Bool)) (v w : Nat) (b : Bool) : List (List Bool) :=
  m.set v ((m.getD v []).set w b)

/-- Source `add_edge`: when `adj_matrix[v][w]` is not set, set both
`adj_matrix[v][w]` and `adj_matrix[w][v]`. -/
def add_edge (g : ColouringGraph) (v w : Nat) : ColouringGraph :=
  if !entry g.adj_matrix v w then
    { g with adj_matrix := setEntry (setEntry g.adj_matrix v w true) w v true }
  else g

/-- Source `make_adjacency_lists`: for every `i`, for every `j` in ascending
order, `push_back(j)` onto `adjlist[i]` when `adj_matrix[i][j]` holds.  The
lists are appended to, not cleared. -/
def make_adjacency_lists (g : ColouringGraph) : ColouringGraph :=
  (List.range g.n).foldl
    (fun g i =>
      (List.range g.n).foldl
        (fun g j =>
          if entry g.adj_matrix i j then
            { g with adjlist := g.adjlist.set i (g.adjlist.getD i [] ++ [j]) }
          else g)
        g)
    g

/-- Source `induced_subgraph`: a fresh graph on `vv.size()` vertices in which,
for `j < i`, the edge `i - j` is added when `adj_matrix[vv[i]][vv[j]]` holds in
`g`. -/
def induced_subgraph (g : ColouringGraph) (vv : List Nat) : ColouringGraph :=
  (List.range vv.length).foldl
    (fun subg i =>
      (List.range i).foldl
        (fun subg j =>
          if entry g.adj_matrix (vv.getD i 0) (vv.getD j 0) then add_edge subg i j
          else subg)
        subg)
    (ColouringGraph.create vv.length)

/-! ## Bitset primitives -/

/-- The macro `BITS_PER_WORD`: `CHAR_BIT * sizeof(unsigned long long)`. -/
def BITS_PER_WORD : Nat := 64

/-- The read `bitset[i]` of one word of a bitset. -/
def word (bitset : Nat) (i : Nat) : Nat :=
  (bitset >>> (i * BITS_PER_WORD)) % 2 ^ BITS_PER_WORD

/-- The write `bitset[i] = w` of one word of a bitset (`w` a 64-bit value). -/
def set_word (bitset : Nat) (i : Nat) (w : Nat) : Nat :=
  bitset ^^^ ((word bitset i ^^^ w % 2 ^ BITS_PER_WORD) <<< (i * BITS_PER_WORD))

/-- The 64-bit complement `~w`. -/
def complement (w : Nat) : Nat :=
  (2 ^ BITS_PER_WORD - 1) ^^^ (w % 2 ^ BITS_PER_WORD)

/-- Source `test_bit`: `0 != (bitset[bit/64] & (1ull << (bit%64)))`. -/
def test_bit (bitset : Nat) (bit : Nat) : Bool :=
  (word bitset (bit / BITS_PER_WORD) &&& (1 <<< (bit % BITS_PER_WORD))) != 0

/-- Source `set_first_n_bits`: for `bit = 0 .. n-1`,
`bitset[bit/64] |= (1ull << (bit%64))`. -/
def set_first_n_bits (bitset : Nat) (n : Nat) : Nat :=
  (List.range n).foldl
    (fun b bit =>
      set_word b (bit / BITS_PER_WORD)
        (word b (bit / BITS_PER_WORD) ||| (1 <<< (bit % BITS_PER_WORD))))
    bitset

/-- Source `unset_bit`: `bitset[bit/64] &= ~(1ull << (bit%64))`. -/
def unset_bit (bitset : Nat) (bit : Nat) : Nat :=
  set_word bitset (bit / BITS_PER_WORD)
    (word bitset (bit / BITS_PER_WORD) &&& complement (1 <<< (bit % BITS_PER_WORD)))

/-- The number of set bits among the lowest `bits` bits of `w`, counted from
the lowest bit upwards; nothing is left to count once `w` is zero. -/
def count_bits : Nat → Nat → Nat
  | 0, _ => 0
  | bits + 1, w => if w = 0 then 0 else w % 2 + count_bits bits (w / 2)

/-- The builtin `__builtin_popcountll` on one 64-bit word. -/
def popcountll (w : Nat) : Nat :=
  count_bits BITS_PER_WORD w

/-- The builtin `__builtin_ctzll` on a non-zero 64-bit word: the index of the
lowest set bit. -/
def ctzll (w : Nat) : Nat :=
  ((List.range BITS_PER_WORD).find? (fun j => w.testBit j)).getD BITS_PER_WORD

/-- Source `bitset_popcount`: the sum of the popcounts of the words
`num_words-1 .. 0`. -/
def bitset_popcount (bitset : Nat) (num_words : Nat) : Nat :=
  (List.range num_words).reverse.foldl (fun count i => count + popcountll (word bitset i)) 0

/-- Source `bitset_intersection_popcount`: the sum over the words of the
popcount of `bitset1[i] & bitset2[i]`. -/
def bitset_intersection_popcount (bitset1 bitset2 : Nat) (num_words : Nat) : Nat :=
  (List.range num_words).reverse.foldl
    (fun count i => count + popcountll (word bitset1 i &&& word bitset2 i)) 0

/-- Source `bitset_intersect_with`: `bitset1[i] &= bitset2[i]` for every word;
the result is the new value of `bitset1`. -/
def bitset_intersect_with (bitset1 bitset2 : Nat) (num_words : Nat) : Nat :=
  (List.range num_words).reverse.foldl
    (fun b i => set_word b i (word b i &&& word bitset2 i)) bitset1

/-- Source `bitset_empty`: no word among the `num_words` words is non-zero. -/
def bitset_empty (bitset : Nat) (num_words : Nat) : Bool :=
  (List.range num_words).reverse.all (fun i => word bitset i == 0)

/-- Source `clear_bitset`: `bitset[i] = 0ull` for every word. -/
def clear_bitset (bitset : Nat) (num_words : Nat) : Nat :=
  (List.range num_words).reverse.foldl (fun b i => set_word b i 0) bitset

/-- Source `first_set_bit`: for the first non-zero word `i`, the index
`i * 64 + ctz(bitset[i])`; the source's `-1` for an empty bitset is `none`. -/
def first_set_bit (bitset : Nat) (num_words : Nat) : Option Nat :=
  ((List.range num_words).find? (fun i => word bitset i != 0)).map
    (fun i => i * BITS_PER_WORD + ctzll (word bitset i))

/-- Source `copy_bitset`: `dest[i] = src[i]` for every word; the result is the
new value of `dest`. -/
def copy_bitset (src dest : Nat) (num_words : Nat) : Nat :=
  (List.range num_words).foldl (fun d i => set_word d i (word src i)) dest

/-! ## Partial assignment -/

/-- Modelled from the spec: the type `struct Solution` of the missing header,
with the fields the source uses: `size`, `capacity` and the array
`vtx_colour`. -/
structure Solution where
  size : Nat
  capacity : Nat
  vtx_colour : List Nat
deriving DecidableEq, Repr

/-- Source `init_Solution`: size 0 and a fresh array of `capacity` entries (the
source leaves them uninitialised; here they are 0). -/
def init_Solution (capacity : Nat) : Solution :=
  { size := 0, capacity := capacity, vtx_colour := List.replicate capacity 0 }

/-- Source `solution_colour_vtx`: `++size`, `vtx_colour[v] = colour`,
`++num_colours_assigned_to_vertex[v]`, unset `colour` in the row of `v`, and
clear that row when the count of `v` has reached `f`.  The row of vertex `v`,
at `available_classes_bitset + v * domain_num_words`, is entry `v` of the
list of rows. -/
def solution_colour_vtx (solution : Solution) (v colour : Nat)
    (available_classes_bitset : List Nat) (num_colours_assigned_to_vertex : List Nat)
    (domain_num_words f : Nat) : Solution × List Nat × List Nat :=
  let solution := { solution with
    size := solution.size + 1, vtx_colour := solution.vtx_colour.set v colour }
  let num_colours_assigned_to_vertex :=
    num_colours_assigned_to_vertex.set v (num_colours_assigned_to_vertex.getD v 0 + 1)
  let available_classes_bitset :=
    available_classes_bitset.set v (unset_bit (available_classes_bitset.getD v 0) colour)
  if num_colours_assigned_to_vertex.getD v 0 == f then
    (solution, available_classes_bitset.set v
      (clear_bitset (available_classes_bitset.getD v 0) domain_num_words),
     num_colours_assigned_to_vertex)
  else
    (solution, available_classes_bitset, num_colours_assigned_to_vertex)

/-- Source `solution_pop_vtx`: `size--`. -/
def solution_pop_vtx (solution : Solution) : Solution :=
  { solution with size := solution.size - 1 }

/-- Source `solution_resize`: `size = size`. -/
def solution_resize (solution : Solution) (size : Nat) : Solution :=
  { solution with size := size }

/-- Source `copy_Solution`: `dest->size = src->size` and
`dest->vtx_colour[i] = src->vtx_colour[i]` for `i < src->capacity`. -/
def copy_Solution (src dest : Solution) : Solution :=
  { dest with
    size := src.size
    vtx_colour := (List.range src.capacity).foldl
      (fun a i => a.set i (src.vtx_colour.getD i 0)) dest.vtx_colour }

/-! ## Branching heuristic -/

/-- The constant `INT_MAX` of `limits.h`. -/
def INT_MAX : Nat := 2147483647

/-- First loop of `choose_branching_vertex`: the least popcount among the
non-empty rows seen so far, and the vertices that have it, in ascending
order. -/
def best_count_vertices (available_classes_bitset : List Nat) (domain_num_words : Nat)
    (n : Nat) : Nat × List Nat :=
  (List.range n).foldl
    (fun (acc : Nat × List Nat) i =>
      if bitset_empty (available_classes_bitset.getD i 0) domain_num_words then acc
      else
        let available_class_count :=
          bitset_popcount (available_classes_bitset.getD i 0) domain_num_words
        let acc := if available_class_count < acc.1 then (available_class_count, []) else acc
        if available_class_count == acc.1 then (acc.1, acc.2 ++ [i]) else acc)
    (INT_MAX, [])

/-- Second loop of `choose_branching_vertex`: for `j < i` with candidate
`vs[i]` not adjacent to candidate `vs[j]`, the popcount of the intersection of
their rows is added to `scores[i]` and to `scores[j]`.  The scores of the
source are `int`s; the sums here are natural numbers, and agree with the
source while every sum is at most `INT_MAX`. -/
def branching_scores (g : ColouringGraph) (available_classes_bitset : List Nat)
    (domain_num_words : Nat) (vs : List Nat) : List Nat :=
  (List.range vs.length).foldl
    (fun scores i =>
      (List.range i).foldl
        (fun scores j =>
          if !entry g.adj_matrix (vs.getD i 0) (vs.getD j 0) then
            let pc := bitset_intersection_popcount
              (available_classes_bitset.getD (vs.getD i 0) 0)
              (available_classes_bitset.getD (vs.getD j 0) 0) domain_num_words
            let scores := scores.set i (scores.getD i 0 + pc)
            scores.set j (scores.getD j 0 + pc)
          else scores)
        scores)
    (List.replicate vs.length 0)

/-- Third loop of `choose_branching_vertex`: the first candidate with the
largest score, starting from `best_v = -1` (here `none`) and
`best_score = -1`. -/
def best_scoring_vertex (vs : List Nat) (scores : List Nat) : Option Nat :=
  ((List.range vs.length).foldl
    (fun (acc : Option Nat × Int) i =>
      if (scores.getD i 0 : Int) > acc.2 then (some (vs.getD i 0), (scores.getD i 0 : Int))
      else acc)
    ((none : Option Nat), (-1 : Int))).1

/-- Source `choose_branching_vertex`; the source's result `-1` is `none`. -/
def choose_branching_vertex (g : ColouringGraph) (available_classes_bitset : List Nat)
    (domain_num_words : Nat) : Option Nat :=
  let vertices_with_best_available_class_count :=
    (best_count_vertices available_classes_bitset domain_num_words g.n).2
  best_scoring_vertex vertices_with_best_available_class_count
    (branching_scores g available_classes_bitset domain_num_words
      vertices_with_best_available_class_count)

/-! ## The recursive search -/

/-- What can go wrong in an evaluation of the model: the recursion budget of
the model ran out, or the source would index an array with `-1`.  The third
value is not produced by the model of the source: it is the outcome of a failed
test in `expand_asserting`, the search with assertions added. -/
inductive Fault where
  | out_of_fuel
  | bad_index
  | assertion_failed
deriving DecidableEq, Repr

/-- The objects `expand` updates through pointers: the partial assignment `C`,
the `incumbent` and the counter `*expand_call_count`. -/
structure SearchState where
  C : Solution
  incumbent : Solution
  expand_call_count : Nat
deriving DecidableEq, Repr

/-- The loop header shared by the two sweeps of `expand`: `w` runs over the
vertices in `ws` while `i` indexes the neighbour list of `v`; a `w` equal to
`adjlist[v][i]` advances `i` and is skipped, `w == v` is skipped, and every
other `w` reaches the loop body.  The result lists the `w` that reach the
body. -/
def swept (adjlist_v : List Nat) (v : Nat) : List Nat → Nat → List Nat
  | [], _ => []
  | w :: ws, i =>
    if i < adjlist_v.length && adjlist_v.getD i 0 == w then swept adjlist_v v ws (i + 1)
    else if w == v then swept adjlist_v v ws i
    else w :: swept adjlist_v v ws i

/-- The vertices reaching the body of a sweep for `v` in `g`. -/
def non_neighbours (g : ColouringGraph) (v : Nat) : List Nat :=
  swept (g.adjlist.getD v []) v (List.range g.n) 0

/-- First loop of the unit propagation of `expand`: vertices with a non-empty
row whose popcount plus count equals `f` are pushed; a vertex whose popcount
plus count is below `f` makes `expand` return (`none`).  The head of the list
is the back of `unit_v_stack`. -/
def unit_scan (available_classes_bitset num_colours_assigned_to_vertex : List Nat)
    (domain_num_words f : Nat) : List Nat → List Nat → Option (List Nat)
  | [], unit_v_stack => some unit_v_stack
  | i :: rest, unit_v_stack =>
    let pc := bitset_popcount (available_classes_bitset.getD i 0) domain_num_words
    let num_possible_colours := pc + num_colours_assigned_to_vertex.getD i 0
    if pc != 0 && num_possible_colours == f then
      unit_scan available_classes_bitset num_colours_assigned_to_vertex domain_num_words f
        rest (i :: unit_v_stack)
    else if num_possible_colours < f then none
    else
      unit_scan available_classes_bitset num_colours_assigned_to_vertex domain_num_words f
        rest unit_v_stack

/-- Body of the sweep inside the unit propagation, over the vertices `w` that
reach it: when `colour` is in the row of `w` it is unset, and `w` is pushed if
its row is non-empty and exactly saturating, while a row too small for `w`
is a dead end (`none`). -/
def unit_sweep (colour : Nat) (num_colours_assigned_to_vertex : List Nat)
    (domain_num_words f : Nat) :
    List Nat → List Nat → List Nat → Option (List Nat × List Nat)
  | [], available_classes_bitset, unit_v_stack => some (available_classes_bitset, unit_v_stack)
  | w :: ws, available_classes_bitset, unit_v_stack =>
    if test_bit (available_classes_bitset.getD w 0) colour then
      let available_classes_bitset :=
        available_classes_bitset.set w (unset_bit (available_classes_bitset.getD w 0) colour)
      let popcount := bitset_popcount (available_classes_bitset.getD w 0) domain_num_words
      if popcount != 0 && popcount + num_colours_assigned_to_vertex.getD w 0 == f then
        unit_sweep colour num_colours_assigned_to_vertex domain_num_words f ws
          available_classes_bitset (w :: unit_v_stack)
      else if popcount + num_colours_assigned_to_vertex.getD w 0 < f then none
      else
        unit_sweep colour num_colours_assigned_to_vertex domain_num_words f ws
          available_classes_bitset unit_v_stack
    else
      unit_sweep colour num_colours_assigned_to_vertex domain_num_words f ws
        available_classes_bitset unit_v_stack

/-- The `while (!unit_v_stack.empty())` loop of `expand`.  The result holds `C`
and, unless a dead end was met (`none`), the rows and counts after
propagation.  The first argument bounds the number of iterations. -/
def unit_propagation (g : ColouringGraph) (domain_num_words f : Nat) :
    Nat → List Nat → Solution → List Nat → List Nat →
      Except Fault (Solution × Option (List Nat × List Nat))
  | _, [], C, available_classes_bitset, num_colours_assigned_to_vertex =>
    .ok (C, some (available_classes_bitset, num_colours_assigned_to_vertex))
  | 0, _ :: _, _, _, _ => .error Fault.out_of_fuel
  | fuel + 1, v :: unit_v_stack, C, available_classes_bitset, num_colours_assigned_to_vertex =>
    match first_set_bit (available_classes_bitset.getD v 0) domain_num_words with
    | none => .error Fault.bad_index
    | some colour =>
      match solution_colour_vtx C v colour available_classes_bitset
          num_colours_assigned_to_vertex domain_num_words f with
      | (C, available_classes_bitset, num_colours_assigned_to_vertex) =>
        let unit_v_stack :=
          if num_colours_assigned_to_vertex.getD v 0 != f then v :: unit_v_stack
          else unit_v_stack
        match unit_sweep colour num_colours_assigned_to_vertex domain_num_words f
            (non_neighbours g v) available_classes_bitset unit_v_stack with
        | none => .ok (C, none)
        | some (available_classes_bitset, unit_v_stack) =>
          unit_propagation g domain_num_words f fuel unit_v_stack C
            available_classes_bitset num_colours_assigned_to_vertex

/-- The bitset `colours_in_all_domains` of `expand`: all words `~0ull`,
intersected with every non-empty row. -/
def colours_in_all_domains (g : ColouringGraph) (available_classes_bitset : List Nat)
    (domain_num_words : Nat) : Nat :=
  (List.range g.n).foldl
    (fun acc i =>
      if !bitset_empty (available_classes_bitset.getD i 0) domain_num_words then
        bitset_intersect_with acc (available_classes_bitset.getD i 0) domain_num_words
      else acc)
    ((List.range domain_num_words).foldl (fun b i => set_word b i (complement 0)) 0)

/-- The `do ... while` trial loop of `expand`, with the recursive call passed
in as `recurse`.  Each round takes the first colour of `domain_copy`, copies
the rows and counts (the copies are the lists themselves), unsets the colour
in the row of every swept vertex, places the colour on `best_v`, recurses and
pops.  The first argument bounds the number of rounds. -/
def trial_loop (g : ColouringGraph) (domain_num_words f : Nat)
    (recurse : SearchState → List Nat → List Nat → Except Fault SearchState)
    (best_v : Nat) (colours_in_all : Nat)
    (available_classes_bitset num_colours_assigned_to_vertex : List Nat) :
    Nat → Nat → SearchState → Except Fault SearchState
  | 0, _, _ => .error Fault.out_of_fuel
  | fuel + 1, domain_copy, st =>
    match first_set_bit domain_copy domain_num_words with
    | none => .error Fault.bad_index
    | some colour =>
      let domain_copy := unset_bit domain_copy colour
      let colour_is_in_all_domains := test_bit colours_in_all colour
      let new_available_classes_bitset :=
        (non_neighbours g best_v).foldl
          (fun a w => a.set w (unset_bit (a.getD w 0) colour)) available_classes_bitset
      match solution_colour_vtx st.C best_v colour new_available_classes_bitset
          num_colours_assigned_to_vertex domain_num_words f with
      | (C, new_available_classes_bitset, new_num_colours_assigned_to_vertex) =>
        match recurse { st with C := C } new_available_classes_bitset
            new_num_colours_assigned_to_vertex with
        | .error e => .error e
        | .ok st =>
          let st := { st with C := solution_pop_vtx st.C }
          if st.incumbent.size < g.n * f && !colour_is_in_all_domains
              && !bitset_empty domain_copy domain_num_words then
            trial_loop g domain_num_words f recurse best_v colours_in_all
              available_classes_bitset num_colours_assigned_to_vertex fuel domain_copy st
          else .ok st

/-- Source `expand`.  The parameters `level` and `num_colours`, which the body
only passes on, are left out.  The first argument bounds the depth of the
recursion.  The product `g.n * f` of the goal tests is a product of `int`s in
the source and a natural number here: the two agree while `g.n * f` is at most
`INT_MAX`. -/
def expand (g : ColouringGraph) (expand_call_limit : Nat) (domain_num_words f : Nat) :
    Nat → SearchState → List Nat → List Nat → Except Fault SearchState
  | 0, _, _, _ => .error Fault.out_of_fuel
  | fuel + 1, st, available_classes_bitset, num_colours_assigned_to_vertex =>
    let st := { st with expand_call_count := st.expand_call_count + 1 }
    if st.expand_call_count ≥ expand_call_limit then .ok st
    else if st.C.size == g.n * f then
      .ok { st with incumbent := copy_Solution st.C st.incumbent }
    else
      let C_sz_before_unit_prop := st.C.size
      match unit_scan available_classes_bitset num_colours_assigned_to_vertex
          domain_num_words f (List.range g.n) [] with
      | none => .ok st
      | some unit_v_stack =>
        match unit_propagation g domain_num_words f
            (g.n * (BITS_PER_WORD * domain_num_words)) unit_v_stack st.C
            available_classes_bitset num_colours_assigned_to_vertex with
        | .error e => .error e
        | .ok (C, none) => .ok { st with C := solution_resize C C_sz_before_unit_prop }
        | .ok (C, some (available_classes_bitset, num_colours_assigned_to_vertex)) =>
          if C.size == g.n * f then
            .ok { st with
              incumbent := copy_Solution C st.incumbent
              C := solution_resize C C_sz_before_unit_prop }
          else
            match choose_branching_vertex g available_classes_bitset domain_num_words with
            | none => .error Fault.bad_index
            | some best_v =>
              let domain_copy :=
                copy_bitset (available_classes_bitset.getD best_v 0) 0 domain_num_words
              match trial_loop g domain_num_words f
                  (expand g expand_call_limit domain_num_words f fuel) best_v
                  (colours_in_all_domains g available_classes_bitset domain_num_words)
                  available_classes_bitset num_colours_assigned_to_vertex
                  (BITS_PER_WORD * domain_num_words + 1) domain_copy
                  { st with C := C } with
              | .error e => .error e
              | .ok st => .ok { st with C := solution_resize st.C C_sz_before_unit_prop }

/-- Source `solve`: a fresh `C` of capacity `n`, rows with the first
`num_colours` bits set, counts zero, then `expand` at level 0.  The result is
the new value of `*expand_call_count` and of `*incumbent`.  The recursion of
`expand` is given depth `expand_call_limit + 1`, which it never exceeds. -/
def solve (g : ColouringGraph) (expand_call_count expand_call_limit : Nat)
    (incumbent : Solution) (num_colours f : Nat) : Except Fault (Nat × Solution) :=
  let C := init_Solution g.n
  let domain_num_words := (num_colours + BITS_PER_WORD - 1) / BITS_PER_WORD
  let available_classes_bitset :=
    (List.range g.n).foldl
      (fun a i => a.set i (set_first_n_bits (a.getD i 0) num_colours))
      (List.replicate g.n 0)
  let num_colours_assigned_to_vertex := List.replicate g.n 0
  match expand g expand_call_limit domain_num_words f (expand_call_limit + 1)
      { C := C, incumbent := incumbent, expand_call_count := expand_call_count }
      available_classes_bitset num_colours_assigned_to_vertex with
  | .error e => .error e
  | .ok st => .ok (st.expand_call_count, st.incumbent)

/-! ## The outer loop -/

/-- The exchange `std::swap(vv[i], vv[r])`. -/
def swap_entries (vv : List Nat) (i r : Nat) : List Nat :=
  (vv.set i (vv.getD r 0)).set r (vv.getD i 0)

/-- Source `randomised_vertex_order`: the identity order, then for
`i = n-1 .. 1` the exchange of `vv[i]` with `vv[rand() % (i+1)]`.  The library
generator is a parameter: `rand j` is the value of the `j`-th call of `rand()`
after `srand(seed)`. -/
def randomised_vertex_order (g : ColouringGraph) (rand : Nat → Nat) : List Nat :=
  (List.range (g.n - 1)).foldl
    (fun vv j =>
      let i := g.n - 1 - j
      let r := rand j % (i + 1)
      swap_entries vv i r)
    (List.range g.n)

/-- The `while (true)` restart loop of `find_colouring_number`: `solve`, and
while the counter has reached the budget, reset, grow the budget by a tenth,
draw a new order with the next seed and rebuild the sorted graph.  The first
argument bounds the number of rounds. -/
def restart_loop (g : ColouringGraph) (f : Nat) (rand : Nat → Nat → Nat) (num_colours : Nat) :
    Nat → ColouringGraph → Solution → Nat → Nat → Nat →
      Except Fault (ColouringGraph × Solution × Nat × Nat × Nat)
  | 0, _, _, _, _, _ => .error Fault.out_of_fuel
  | fuel + 1, sorted_g, clq, expand_call_count, expand_call_limit, rng_seed =>
    match solve sorted_g expand_call_count expand_call_limit clq num_colours f with
    | .error e => .error e
    | .ok (expand_call_count, clq) =>
      if expand_call_count < expand_call_limit then
        .ok (sorted_g, clq, expand_call_count, expand_call_limit, rng_seed)
      else
        let clq := { clq with size := 0 }
        let expand_call_limit := expand_call_limit + expand_call_limit / 10
        let rng_seed := rng_seed + 1
        let vv := randomised_vertex_order g (rand rng_seed)
        let sorted_g := make_adjacency_lists (induced_subgraph g vv)
        restart_loop g f rand num_colours fuel sorted_g clq 0 expand_call_limit rng_seed

/-- The `for ( ; ; num_colours++)` loop of `find_colouring_number`.  The first
argument bounds the number of rounds (and the rounds of each restart loop).
The product `sorted_g.n * f` of the test that ends the loop is a product of
`int`s in the source and a natural number here: the two agree while it is at
most `INT_MAX`. -/
def colour_loop (g : ColouringGraph) (f : Nat) (rand : Nat → Nat → Nat) :
    Nat → Nat → ColouringGraph → Nat → Nat → Except Fault Nat
  | 0, _, _, _, _ => .error Fault.out_of_fuel
  | fuel + 1, num_colours, sorted_g, expand_call_limit, rng_seed =>
    let clq := init_Solution sorted_g.n
    let sorted_g := make_adjacency_lists sorted_g
    match restart_loop g f rand num_colours (fuel + 1) sorted_g clq 0 expand_call_limit
        rng_seed with
    | .error e => .error e
    | .ok (sorted_g, clq, _, expand_call_limit, rng_seed) =>
      if clq.size == sorted_g.n * f then .ok num_colours
      else colour_loop g f rand fuel (num_colours + 1) sorted_g expand_call_limit rng_seed

/-- Source `find_colouring_number`.  `rand seed j` is the `j`-th value of
`rand()` after `srand(seed)`; the first argument bounds the rounds of the two
loops. -/
def find_colouring_number (fuel : Nat) (g : ColouringGraph) (f : Nat)
    (rand : Nat → Nat → Nat) : Except Fault Nat :=
  let rng_seed := 0
  let vv := randomised_vertex_order g (rand rng_seed)
  let sorted_g := induced_subgraph g vv
  colour_loop g f rand fuel 0 sorted_g 1000 rng_seed

/-! ## Predicates used in the statements -/

/-- The matrix of `g` is `n × n`. -/
def Square (g : ColouringGraph) : Prop :=
  g.adj_matrix.length = g.n ∧ ∀ row ∈ g.adj_matrix, row.length = g.n

/-- The pairs `(a, b)` with `b < a` that `induced_subgraph` has visited when its
outer loop is at `i` and its inner loop at `j`. -/
def Visited (i j a b : Nat) : Prop := b < a ∧ (a < i ∨ (a = i ∧ b < j))

/-- The state of `induced_subgraph` when its outer loop is at `i` and its inner
loop at `j`: the matrix holds exactly the visited pairs that are adjacent in
`g`, in both directions. -/
def SubgraphInv (g : ColouringGraph) (vv : List Nat) (i j : Nat) (s : ColouringGraph) : Prop :=
  s.n = vv.length ∧ Square s ∧ s.adjlist = List.replicate vv.length [] ∧
  ∀ a b, entry s.adj_matrix a b = true ↔
    (Visited i j a b ∧ entry g.adj_matrix (vv.getD a 0) (vv.getD b 0) = true) ∨
    (Visited i j b a ∧ entry g.adj_matrix (vv.getD b 0) (vv.getD a 0) = true)

/-! ## Example graphs -/

/-- The path `0 - 1 - 2`. -/
def path3 : ColouringGraph :=
  add_edge (add_edge (ColouringGraph.create 3) 0 1) 1 2

deriving instance DecidableEq for Except

/-- The graph on `n` vertices with the edges `es`, built by `add_edge`. -/
def graph_of_edges (n : Nat) (es : List (Nat × Nat)) : ColouringGraph :=
  es.foldl (fun g e => add_edge g e.1 e.2) (ColouringGraph.create n)

/-- The complete graph on two vertices. -/
def complete2 : ColouringGraph := graph_of_edges 2 [(0, 1)]

/-- The graph on two vertices without an edge. -/
def edgeless2 : ColouringGraph := ColouringGraph.create 2

/-- The graph on four vertices with the two disjoint edges `0 - 1` and `2 - 3`. -/
def two_edges4 : ColouringGraph := graph_of_edges 4 [(1, 0), (3, 2)]

/-- The 5-cycle `0 - 1 - 2 - 3 - 4 - 0`. -/
def cycle5 : ColouringGraph := graph_of_edges 5 [(0, 1), (1, 2), (2, 3), (3, 4), (4, 0)]

/-- The order `randomised_vertex_order` produces on five vertices when its four
draws, reduced modulo 5, 4, 3 and 2, are `a`, `b`, `c` and `d`. -/
def order5 (a b c d : Nat) : List Nat :=
  swap_entries (swap_entries (swap_entries (swap_entries [0, 1, 2, 3, 4] 4 a) 3 b) 2 c) 1 d

/-- Twelve orders of the vertices of the 5-cycle, one for each relabelling of
the cycle that `induced_subgraph` can produce. -/
def orders5 : List (List Nat) :=
  [[0, 1, 2, 3, 4], [0, 1, 2, 4, 3], [0, 1, 3, 2, 4], [0, 1, 3, 4, 2], [0, 1, 4, 2, 3],
   [0, 1, 4, 3, 2], [0, 2, 1, 3, 4], [0, 2, 1, 4, 3], [0, 2, 3, 1, 4], [0, 2, 3, 4, 1],
   [0, 2, 4, 1, 3], [0, 2, 4, 3, 1]]

/-! ## Neighbour lists -/

/-- The neighbours of `v` in ascending order, as the matrix has them. -/
def neighbours (g : ColouringGraph) (v : Nat) : List Nat :=
  (List.range g.n).filter (fun w => entry g.adj_matrix v w)

/-- The neighbour lists of `g` are built from its matrix: list `v` starts with
the ascending neighbours of `v`, and whatever follows repeats neighbours (as
after further calls of `make_adjacency_lists`). -/
def ListsBuilt (g : ColouringGraph) : Prop :=
  g.adjlist.length = g.n ∧
  ∀ v, v < g.n → ∃ rest, g.adjlist.getD v [] = neighbours g v ++ rest ∧
    ∀ x ∈ rest, x ∈ neighbours g v

/-- The state of `make_adjacency_lists` when its outer loop is at `i` and its
inner loop at `j`. -/
def ListsInv (g : ColouringGraph) (i j : Nat) (s : ColouringGraph) : Prop :=
  s.n = g.n ∧ s.adj_matrix = g.adj_matrix ∧ s.adjlist.length = g.adjlist.length ∧
  ∀ v, s.adjlist.getD v [] = g.adjlist.getD v [] ++
    (if v < i then neighbours g v
     else if v = i then (List.range j).filter (fun w => entry g.adj_matrix v w) else [])

/-! ## Invariants of the search -/

/-- The vertices `v` and `w` of `g` compete for colours: they are distinct and
not adjacent.  These are the pairs for which `expand` removes a colour placed
on one from the row of the other. -/
def Compete (g : ColouringGraph) (v w : Nat) : Prop :=
  v < g.n ∧ w < g.n ∧ v ≠ w ∧ entry g.adj_matrix v w = false

/-- The matrix of `g` is symmetric on the vertices of `g`. -/
def SymmetricMatrix (g : ColouringGraph) : Prop :=
  ∀ v, v < g.n → ∀ w, w < g.n → entry g.adj_matrix v w = entry g.adj_matrix w v

/-- The colour sets `A` give every vertex of `g` exactly `f` distinct colours
from `{0..k-1}`, and two competing vertices (distinct, not adjacent) get
disjoint sets. -/
def ComplementColouring (g : ColouringGraph) (k f : Nat) (A : Nat → Finset Nat) : Prop :=
  (∀ v, v < g.n → (A v).card = f ∧ ∀ c ∈ A v, c < k) ∧
  ∀ v w, Compete g v w → Disjoint (A v) (A w)

/-- The colour sets `A` give every vertex of `g` exactly `f` distinct colours
from `{0..k-1}`, and two adjacent vertices get disjoint sets: an `f`-fold
colouring of `g` with `k` colours. -/
def FoldColouring (g : ColouringGraph) (k f : Nat) (A : Nat → Finset Nat) : Prop :=
  (∀ v, v < g.n → (A v).card = f ∧ ∀ c ∈ A v, c < k) ∧
  ∀ v w, v < g.n → w < g.n → entry g.adj_matrix v w = true → Disjoint (A v) (A w)

/-- The set bits of a bitset of `W` words. -/
def bits (b W : Nat) : Finset Nat :=
  (Finset.range (64 * W)).filter (fun j => b.testBit j = true)

/-- The sweep of the trial loop: `colour` is unset in the row of every vertex of
`ws`. -/
def unset_rows (colour : Nat) (ws : List Nat) (avail : List Nat) : List Nat :=
  ws.foldl (fun a w => a.set w (unset_bit (a.getD w 0) colour)) avail

/-- What holds of the partial assignment `C`, the rows `avail` and the counts
`assigned` at every point of the search between two placements, for the sets
`A` of the colours placed so far on each vertex. -/
structure SearchInv (g : ColouringGraph) (W k f : Nat) (A : Nat → Finset Nat)
    (C : Solution) (avail assigned : List Nat) : Prop where
  avail_len : avail.length = g.n
  assigned_len : assigned.length = g.n
  colour_len : C.vtx_colour.length = g.n
  capacity : C.capacity = g.n
  card : ∀ v, v < g.n → (A v).card = assigned.getD v 0
  palette : ∀ v, v < g.n → ∀ c, (avail.getD v 0).testBit c = true → c < k
  placed_lt : ∀ v, v < g.n → ∀ c ∈ A v, c < k
  own : ∀ v, v < g.n → ∀ c ∈ A v, (avail.getD v 0).testBit c = false
  propagated : ∀ v w, Compete g v w → ∀ c ∈ A v, (avail.getD w 0).testBit c = false
  disjoint : ∀ v w, Compete g v w → Disjoint (A v) (A w)
  size : C.size = assigned.sum
  bounded : ∀ v, v < g.n → assigned.getD v 0 ≤ f
  done_empty : ∀ v, v < g.n → assigned.getD v 0 = f →
    ∀ c, c < 64 * W → (avail.getD v 0).testBit c = false
  recorded : ∀ v, v < g.n → assigned.getD v 0 = f → C.vtx_colour.getD v 0 ∈ A v

/-- The incumbent is sound: it has room for every vertex, and if it is
saturated then its recorded colours come from colour sets that give every
vertex `f` colours below `k` with competing vertices disjoint. -/
def IncumbentOk (g : ColouringGraph) (k f : Nat) (incumbent : Solution) : Prop :=
  incumbent.vtx_colour.length = g.n ∧
  (incumbent.size = g.n * f →
    ∃ A, ComplementColouring g k f A ∧ ∀ v, v < g.n → incumbent.vtx_colour.getD v 0 ∈ A v)

/-- The part of `C` that a call of `expand` leaves as it found it: the size,
the capacity, the length of `vtx_colour`, and the recorded colour of every
vertex that already has its `f` colours. -/
def Framed (g : ColouringGraph) (f : Nat) (assigned : List Nat) (C C' : Solution) : Prop :=
  C'.capacity = C.capacity ∧ C'.vtx_colour.length = C.vtx_colour.length ∧
  ∀ v, v < g.n → assigned.getD v 0 = f → C'.vtx_colour.getD v 0 = C.vtx_colour.getD v 0

/-- Every vertex still has enough colours: the popcount of its row plus its
count is at least `f`. -/
def Enough (g : ColouringGraph) (W f : Nat) (avail assigned : List Nat) : Prop :=
  ∀ v, v < g.n → f ≤ bitset_popcount (avail.getD v 0) W + assigned.getD v 0

/-- The stack of the unit propagation holds distinct vertices, each with a
non-empty row whose popcount plus the count of the vertex is exactly `f`. -/
def StackOk (g : ColouringGraph) (W f : Nat) (stack avail assigned : List Nat) : Prop :=
  stack.Nodup ∧ ∀ v ∈ stack, v < g.n ∧ bitset_popcount (avail.getD v 0) W ≠ 0 ∧
    bitset_popcount (avail.getD v 0) W + assigned.getD v 0 = f

instance (g : ColouringGraph) (v w : Nat) : Decidable (Compete g v w) := by
  unfold Compete; infer_instance

/-- The number of colours still to be placed on `w` and on the vertices that
compete with `w`. -/
def need (g : ColouringGraph) (f : Nat) (assigned : List Nat) (w : Nat) : Nat :=
  ((Finset.range g.n).filter (fun u => u = w ∨ Compete g u w)).sum
    (fun u => f - assigned.getD u 0)

/-- Every vertex that lacks colours has at least as many colours in its row as
it and its competitors still have to receive. -/
def Slack (g : ColouringGraph) (W f : Nat) (avail assigned : List Nat) : Prop :=
  ∀ w, w < g.n → assigned.getD w 0 < f →
    need g f assigned w ≤ bitset_popcount (avail.getD w 0) W

/-- The number of set bits in all the rows. -/
def total_bits (W : Nat) (avail : List Nat) : Nat :=
  (avail.map (fun b => bitset_popcount b W)).sum

/-- A bound on the number of `expand` calls made below a node at which `r`
colours remain to be placed. -/
def call_bound (W : Nat) : Nat → Nat
  | 0 => 1
  | r + 1 => 1 + (64 * W + 1) * call_bound W r

/-- The rows `R` are the rows `avail` after colour `c` has been placed on `v`:
`c` is unset in the row of every swept vertex, the row of `v` loses `c`, and
it loses every colour when `v` thereby has its `f` colours. -/
def RowsAfter (g : ColouringGraph) (W f : Nat) (avail assigned : List Nat) (v c : Nat)
    (R : List Nat) : Prop :=
  R.length = avail.length ∧
  (∀ u, u ≠ v → R.getD u 0
    = if u ∈ non_neighbours g v then unset_bit (avail.getD u 0) c else avail.getD u 0) ∧
  (∀ j, (R.getD v 0).testBit j = true → (unset_bit (avail.getD v 0) c).testBit j = true) ∧
  (assigned.getD v 0 + 1 ≠ f → R.getD v 0 = unset_bit (avail.getD v 0) c) ∧
  (assigned.getD v 0 + 1 = f → ∀ j, j < 64 * W → (R.getD v 0).testBit j = false)

/-- What a call of `expand` guarantees when it returns `st'` from `st`: the
size of `C` is restored and the recorded colours of finished vertices are
kept, the incumbent is sound, the counter has grown by at least one and by at
most the bound for the colours that remained to be placed, it exceeds the
limit by a bounded amount only, and under slack a counter below the limit
means a saturated incumbent. -/
def ExpandPost (g : ColouringGraph) (W k f L : Nat) (avail asg : List Nat)
    (st st' : SearchState) : Prop :=
  st'.C.size = st.C.size ∧ Framed g f asg st.C st'.C ∧ IncumbentOk g k f st'.incumbent ∧
  st.expand_call_count + 1 ≤ st'.expand_call_count ∧
  st'.expand_call_count ≤ st.expand_call_count + call_bound W (g.n * f - st.C.size) ∧
  st'.expand_call_count
    ≤ max (st.expand_call_count + 1) (L + (64 * W + 1) * (g.n * f - st.C.size)) ∧
  (Slack g W f avail asg → st'.expand_call_count < L → st'.incumbent.size = g.n * f)

/-- The function `run` behaves as a call of `expand` with recursion depth
`fuel` should: from a state that satisfies the invariant, what it returns
satisfies `ExpandPost`, and it does return when the depth allows for the calls
the limit leaves. -/
def ExpandSpec (g : ColouringGraph) (W k f L : Nat)
    (run : SearchState → List Nat → List Nat → Except Fault SearchState) (fuel : Nat) : Prop :=
  ∀ st avail asg A, SearchInv g W k f A st.C avail asg → IncumbentOk g k f st.incumbent →
    (∀ st', run st avail asg = .ok st' → ExpandPost g W k f L avail asg st st') ∧
    (k ≤ INT_MAX → 1 ≤ fuel → L < st.expand_call_count + fuel →
      ∃ st', run st avail asg = .ok st')

/-- The pairs of vertices that compete in `dense10`: its non-edges. -/
def conflicts10 : List (Nat × Nat) :=
  [(0, 1), (0, 2), (0, 3), (0, 4), (0, 5), (1, 2), (1, 3), (1, 4), (5, 2), (2, 6), (3, 9),
   (5, 7), (5, 8), (6, 7), (6, 8), (7, 8), (6, 9)]

/-- The graph on ten vertices in which two distinct vertices are adjacent
unless they form one of the pairs of `conflicts10`. -/
def dense10 : ColouringGraph :=
  (List.range 10).foldl
    (fun g a =>
      (List.range a).foldl
        (fun g b =>
          if conflicts10.contains (a, b) || conflicts10.contains (b, a) then g
          else add_edge g a b)
        g)
    (ColouringGraph.create 10)

/-- One colour below 3 for each vertex of `dense10`, different on every pair of
`conflicts10`. -/
def colours10 : List Nat := [0, 1, 2, 2, 2, 1, 1, 0, 2, 0]

/-- The list `vv` is an order of the vertices `0..n-1`: it has `n` entries, each
below `n`, and no two of them are equal. -/
def IsOrder (n : Nat) (vv : List Nat) : Prop :=
  vv.length = n ∧ (∀ i, i < n → vv.getD i 0 < n) ∧
  ∀ i j, i < n → j < n → vv.getD i 0 = vv.getD j 0 → i = j

/-- The graph `s` is a sorted copy of `g`, as `find_colouring_number` holds one
at every point of its loops: it has the matrix of `induced_subgraph g vv` for an
order `vv` of the vertices of `g`, and its neighbour lists are still empty or
are built from its matrix. -/
def SortedCopy (g s : ColouringGraph) : Prop :=
  s.n = g.n ∧
  (∃ vv, IsOrder g.n vv ∧ s.adj_matrix = (induced_subgraph g vv).adj_matrix) ∧
  (s.adjlist = List.replicate s.n [] ∨ ListsBuilt s)

/-- Every two distinct vertices of `g` are adjacent: `g` is a complete graph. -/
def Complete (g : ColouringGraph) : Prop :=
  ∀ v, v < g.n → ∀ w, w < g.n → v ≠ w → entry g.adj_matrix v w = true

/-! ## The search with assertions -/

/-- The search `expand` with two assertions added, as a means to state what
holds at every call.  The test `at_call` is made on the rows and counts with
which the trial loop calls `expand`, and the test `at_branch` on those with
which a call reaches `choose_branching_vertex`; a failed test ends the search
with `Fault.assertion_failed`.  Apart from the two tests this is `expand`,
line by line. -/
def expand_asserting (g : ColouringGraph) (expand_call_limit : Nat) (domain_num_words f : Nat)
    (at_call at_branch : List Nat → List Nat → Bool) :
    Nat → SearchState → List Nat → List Nat → Except Fault SearchState
  | 0, _, _, _ => .error Fault.out_of_fuel
  | fuel + 1, st, available_classes_bitset, num_colours_assigned_to_vertex =>
    let st := { st with expand_call_count := st.expand_call_count + 1 }
    if st.expand_call_count ≥ expand_call_limit then .ok st
    else if st.C.size == g.n * f then
      .ok { st with incumbent := copy_Solution st.C st.incumbent }
    else
      let C_sz_before_unit_prop := st.C.size
      match unit_scan available_classes_bitset num_colours_assigned_to_vertex
          domain_num_words f (List.range g.n) [] with
      | none => .ok st
      | some unit_v_stack =>
        match unit_propagation g domain_num_words f
            (g.n * (BITS_PER_WORD * domain_num_words)) unit_v_stack st.C
            available_classes_bitset num_colours_assigned_to_vertex with
        | .error e => .error e
        | .ok (C, none) => .ok { st with C := solution_resize C C_sz_before_unit_prop }
        | .ok (C, some (available_classes_bitset, num_colours_assigned_to_vertex)) =>
          if C.size == g.n * f then
            .ok { st with
              incumbent := copy_Solution C st.incumbent
              C := solution_resize C C_sz_before_unit_prop }
          else if !at_branch available_classes_bitset num_colours_assigned_to_vertex then
            .error Fault.assertion_failed
          else
            match choose_branching_vertex g available_classes_bitset domain_num_words with
            | none => .error Fault.bad_index
            | some best_v =>
              let domain_copy :=
                copy_bitset (available_classes_bitset.getD best_v 0) 0 domain_num_words
              match trial_loop g domain_num_words f
                  (fun st new_available_classes_bitset new_num_colours_assigned_to_vertex =>
                    if at_call new_available_classes_bitset new_num_colours_assigned_to_vertex
                    then
                      expand_asserting g expand_call_limit domain_num_words f at_call at_branch
                        fuel st new_available_classes_bitset new_num_colours_assigned_to_vertex
                    else .error Fault.assertion_failed)
                  best_v
                  (colours_in_all_domains g available_classes_bitset domain_num_words)
                  available_classes_bitset num_colours_assigned_to_vertex
                  (BITS_PER_WORD * domain_num_words + 1) domain_copy
                  { st with C := C } with
              | .error e => .error e
              | .ok st => .ok { st with C := solution_resize st.C C_sz_before_unit_prop }

/-- The driver `solve` with the search replaced by the search with
assertions. -/
def solve_asserting (g : ColouringGraph) (at_call at_branch : List Nat → List Nat → Bool)
    (expand_call_count expand_call_limit : Nat)
    (incumbent : Solution) (num_colours f : Nat) : Except Fault (Nat × Solution) :=
  let C := init_Solution g.n
  let domain_num_words := (num_colours + BITS_PER_WORD - 1) / BITS_PER_WORD
  let available_classes_bitset :=
    (List.range g.n).foldl
      (fun a i => a.set i (set_first_n_bits (a.getD i 0) num_colours))
      (List.replicate g.n 0)
  let num_colours_assigned_to_vertex := List.replicate g.n 0
  match expand_asserting g expand_call_limit domain_num_words f at_call at_branch
      (expand_call_limit + 1)
      { C := C, incumbent := incumbent, expand_call_count := expand_call_count }
      available_classes_bitset num_colours_assigned_to_vertex with
  | .error e => .error e
  | .ok st => .ok (st.expand_call_count, st.incumbent)

/-- The test that some vertex has a non-empty row: the precondition of
`choose_branching_vertex`. -/
def some_row_non_empty (n domain_num_words : Nat) (available_classes_bitset : List Nat)
    (_num_colours_assigned_to_vertex : List Nat) : Bool :=
  (List.range n).any (fun v => !bitset_empty (available_classes_bitset.getD v 0) domain_num_words)

/-- The test that every vertex has at most `f` colours, and an empty row when it
has `f`. -/
def counts_bounded (n domain_num_words f : Nat)
    (available_classes_bitset num_colours_assigned_to_vertex : List Nat) : Bool :=
  (List.range n).all (fun v =>
    decide (num_colours_assigned_to_vertex.getD v 0 ≤ f) &&
    (num_colours_assigned_to_vertex.getD v 0 != f ||
      bitset_empty (available_classes_bitset.getD v 0) domain_num_words))

/-- The test that for every vertex the colours of its row and the colours it
has are at least `f` together. -/
def rows_suffice (n domain_num_words f : Nat)
    (available_classes_bitset num_colours_assigned_to_vertex : List Nat) : Bool :=
  (List.range n).all (fun v =>
    decide (f ≤ bitset_popcount (available_classes_bitset.getD v 0) domain_num_words
      + num_colours_assigned_to_vertex.getD v 0))

/-- The test that for every vertex with fewer than `f` colours the colours of
its row and the colours it has are more than `f` together. -/
def rows_exceed (n domain_num_words f : Nat)
    (available_classes_bitset num_colours_assigned_to_vertex : List Nat) : Bool :=
  (List.range n).all (fun v =>
    decide (f ≤ num_colours_assigned_to_vertex.getD v 0) ||
    decide (f < bitset_popcount (available_classes_bitset.getD v 0) domain_num_words
      + num_colours_assigned_to_vertex.getD v 0))

/-- Every vertex with a non-empty row whose popcount plus count is exactly `f`
is on the stack of the unit propagation. -/
def UnitsStacked (g : ColouringGraph) (W f : Nat) (stack avail assigned : List Nat) : Prop :=
  ∀ v, v < g.n → bitset_popcount (avail.getD v 0) W ≠ 0 →
    bitset_popcount (avail.getD v 0) W + assigned.getD v 0 = f → v ∈ stack

/-! ## The branching rule of the specification -/

/-- The rule of the specification for the branching vertex, step 1: the least
popcount among the non-empty rows (0 when every row is empty). -/
def rule_least_popcount (n W : Nat) (avail : List Nat) : Nat :=
  ((((List.range n).filter (fun v => !bitset_empty (avail.getD v 0) W)).map
    (fun v => bitset_popcount (avail.getD v 0) W)).min?).getD 0

/-- The rule of the specification, step 2: the candidates, the vertices whose
row has the least popcount, in ascending order. -/
def rule_candidates (n W : Nat) (avail : List Nat) : List Nat :=
  (List.range n).filter
    (fun v => bitset_popcount (avail.getD v 0) W == rule_least_popcount n W avail)

/-- The rule of the specification, step 3: the score of `x`.  For each ordered
pair `(v, w)` of candidates with `v ≠ w` that are not adjacent, the popcount of
the intersection of their rows is added to the score of `v` and to the score
of `w`. -/
def rule_score (g : ColouringGraph) (W : Nat) (avail : List Nat) (S : List Nat) (x : Nat) :
    Nat :=
  (S.map (fun v => (S.map (fun w =>
    if v != w && !entry g.adj_matrix v w then
      (if v = x then bitset_intersection_popcount (avail.getD v 0) (avail.getD w 0) W else 0)
      + (if w = x then bitset_intersection_popcount (avail.getD v 0) (avail.getD w 0) W else 0)
    else 0)).sum)).sum

/-- The rule of the specification, step 4: the candidate with the largest
score, the first one among several. -/
def rule_choice (g : ColouringGraph) (W : Nat) (avail : List Nat) : Option Nat :=
  let S := rule_candidates g.n W avail
  S.find? (fun v => S.all (fun w =>
    decide (rule_score g W avail S w ≤ rule_score g W avail S v)))

/-- The score of `x` with every pair counted once: the sum of the popcounts of
the intersections of the row of `x` with the rows of the candidates `w ≠ x`
not adjacent to `x`. -/
def pair_score (g : ColouringGraph) (W : Nat) (avail : List Nat) (S : List Nat) (x : Nat) :
    Nat :=
  (S.map (fun w =>
    if x != w && !entry g.adj_matrix x w then
      bitset_intersection_popcount (avail.getD x 0) (avail.getD w 0) W
    else 0)).sum

/-- The test that the score sums of `choose_branching_vertex` stay in the range
of `int`: `n` times the popcount of any row is at most `INT_MAX`.  A score is a
sum, over fewer than `n` other candidates, of popcounts of intersections with
the row of the vertex. -/
def scores_in_range (n domain_num_words : Nat) (available_classes_bitset : List Nat)
    (_num_colours_assigned_to_vertex : List Nat) : Bool :=
  (List.range n).all (fun v =>
    decide (n * bitset_popcount (available_classes_bitset.getD v 0) domain_num_words
      ≤ INT_MAX))

/-! # Properties -/

/-! ## Lists and the matrix -/

theorem getD_set_list {α : Type} (l : List α) (i j : Nat) (x d : α) :
    (l.set i x).getD j d = if i = j ∧ i < l.length then x else l.getD j d := by
  simp only [List.getD_eq_getElem?_getD, List.getElem?_set]
  by_cases h : i = j
  · subst h
    by_cases h2 : i < l.length
    · simp [h2]
    · simp [h2]
      have : l.length ≤ i := by omega
      simp [List.getElem?_eq_none this]
  · simp [h]

theorem entry_setEntry (m : List (List Bool)) (v w a c : Nat) (b : Bool) :
    entry (setEntry m v w b) a c =
      if a = v ∧ c = w ∧ v < m.length ∧ w < (m.getD v []).length then b else entry m a c := by
  unfold entry setEntry
  rw [getD_set_list]
  by_cases h : v = a
  · subst h
    by_cases h2 : v < m.length
    · simp only [true_and, h2, if_true]
      rw [getD_set_list]
      by_cases h3 : w = c
      · subst h3; simp
      · have : ¬ c = w := fun e => h3 e.symm
        simp [h3, this]
    · simp [h2]
  · have : ¬ a = v := fun e => h e.symm
    simp [h, this]


theorem length_setEntry (m : List (List Bool)) (v w : Nat) (b : Bool) :
    (setEntry m v w b).length = m.length := by
  simp [setEntry]

theorem rows_setEntry (m : List (List Bool)) (v w : Nat) (b : Bool) (n : Nat)
    (h : ∀ row ∈ m, row.length = n) : ∀ row ∈ setEntry m v w b, row.length = n := by
  intro row hrow
  unfold setEntry at hrow
  by_cases hv : v < m.length
  · rcases List.mem_or_eq_of_mem_set hrow with h1 | h1
    · exact h row h1
    · subst h1
      rw [List.length_set, List.getD_eq_getElem?_getD, List.getElem?_eq_getElem hv]
      exact h _ (List.getElem_mem hv)
  · have hle : m.length ≤ v := by omega
    rw [List.set_eq_of_length_le hle] at hrow
    exact h row hrow

theorem rowlen_of_square {g : ColouringGraph} (h : Square g) {v : Nat} (hv : v < g.n) :
    (g.adj_matrix.getD v []).length = g.n := by
  have hv2 : v < g.adj_matrix.length := by rw [h.1]; exact hv
  rw [List.getD_eq_getElem?_getD, List.getElem?_eq_getElem hv2]
  exact h.2 _ (List.getElem_mem hv2)

theorem add_edge_n (g : ColouringGraph) (v w : Nat) : (add_edge g v w).n = g.n := by
  unfold add_edge; split <;> rfl

theorem add_edge_adjlist (g : ColouringGraph) (v w : Nat) :
    (add_edge g v w).adjlist = g.adjlist := by
  unfold add_edge; split <;> rfl

theorem add_edge_square (g : ColouringGraph) (v w : Nat) (h : Square g) :
    Square (add_edge g v w) := by
  unfold add_edge
  split
  · refine ⟨?_, ?_⟩
    · simp only [length_setEntry]; exact h.1
    · exact rows_setEntry _ _ _ _ _ (rows_setEntry _ _ _ _ _ h.2)
  · exact h

/-- Entries of the matrix after `add_edge` on an absent edge. -/
theorem add_edge_entry_new (g : ColouringGraph) (v w a b : Nat) (h : Square g)
    (hv : v < g.n) (hw : w < g.n) (hvw : entry g.adj_matrix v w = false) :
    entry (add_edge g v w).adj_matrix a b =
      (entry g.adj_matrix a b || (a == v && b == w) || (a == w && b == v)) := by
  have hlen : g.adj_matrix.length = g.n := h.1
  have hrv := rowlen_of_square h hv
  have hrw := rowlen_of_square h hw
  have hsq1 : Square { g with adj_matrix := setEntry g.adj_matrix v w true } :=
    ⟨by simp only [length_setEntry]; exact h.1, rows_setEntry _ _ _ _ _ h.2⟩
  have hrw1 : ((setEntry g.adj_matrix v w true).getD w []).length = g.n :=
    rowlen_of_square hsq1 hw
  unfold add_edge
  simp only [hvw, Bool.not_false, if_true]
  rw [entry_setEntry, entry_setEntry, length_setEntry, hrw1, hlen, hrv]
  by_cases h1 : a = w ∧ b = v
  · obtain ⟨rfl, rfl⟩ := h1
    simp [hv, hw]
  · by_cases h2 : a = v ∧ b = w
    · obtain ⟨rfl, rfl⟩ := h2
      simp [hv, hw]
    · have e1 : ¬ (a = w ∧ b = v ∧ w < g.n ∧ v < g.n) := fun e => h1 ⟨e.1, e.2.1⟩
      have e2 : ¬ (a = v ∧ b = w ∧ v < g.n ∧ w < g.n) := fun e => h2 ⟨e.1, e.2.1⟩
      rw [if_neg e1, if_neg e2]
      have f1 : (a == w && b == v) = false := by
        simp only [Bool.and_eq_false_imp, beq_iff_eq]
        intro ha
        exact beq_eq_false_iff_ne.mpr (fun hb => h1 ⟨ha, hb⟩)
      have f2 : (a == v && b == w) = false := by
        simp only [Bool.and_eq_false_imp, beq_iff_eq]
        intro ha
        exact beq_eq_false_iff_ne.mpr (fun hb => h2 ⟨ha, hb⟩)
      rw [f1, f2]; simp

theorem add_edge_entry_old (g : ColouringGraph) (v w : Nat)
    (hvw : entry g.adj_matrix v w = true) : add_edge g v w = g := by
  unfold add_edge
  simp [hvw]


theorem foldl_range_induction {β : Type} (P : Nat → β → Prop) (f : β → Nat → β) (init : β)
    (n : Nat) (h0 : P 0 init) (hstep : ∀ i s, i < n → P i s → P (i + 1) (f s i)) :
    P n ((List.range n).foldl f init) := by
  induction n with
  | zero => simpa using h0
  | succ k ih =>
    rw [List.range_succ, List.foldl_append]
    simp only [List.foldl_cons, List.foldl_nil]
    apply hstep k _ (Nat.lt_succ_self k)
    exact ih (fun i s hi hP => hstep i s (Nat.lt_succ_of_lt hi) hP)

theorem create_square (n : Nat) : Square (ColouringGraph.create n) := by
  refine ⟨by simp [ColouringGraph.create], ?_⟩
  intro row hrow
  simp only [ColouringGraph.create] at hrow
  rw [List.eq_of_mem_replicate hrow]
  simp [ColouringGraph.create]

theorem create_entry (n a b : Nat) : entry (ColouringGraph.create n).adj_matrix a b = false := by
  unfold entry ColouringGraph.create
  simp only [List.getD_eq_getElem?_getD, List.getElem?_replicate]
  by_cases ha : a < n
  · simp only [ha, if_true, Option.getD_some, List.getElem?_replicate]
    by_cases hb : b < n <;> simp [hb]
  · simp [ha]

theorem subgraphInv_init (g : ColouringGraph) (vv : List Nat) :
    SubgraphInv g vv 0 0 (ColouringGraph.create vv.length) := by
  refine ⟨rfl, create_square _, rfl, ?_⟩
  intro a b
  rw [create_entry]
  simp [Visited]

theorem subgraphInv_inner (g : ColouringGraph) (vv : List Nat) (i j : Nat) (s : ColouringGraph)
    (hi : i < vv.length) (hj : j < i) (h : SubgraphInv g vv i j s) :
    SubgraphInv g vv i (j + 1)
      (if entry g.adj_matrix (vv.getD i 0) (vv.getD j 0) then add_edge s i j else s) := by
  obtain ⟨hn, hsq, hl, hent⟩ := h
  by_cases hG : entry g.adj_matrix (vv.getD i 0) (vv.getD j 0) = true
  · rw [if_pos hG]
    have hnot : entry s.adj_matrix i j = false := by
      rw [Bool.eq_false_iff]
      intro hc
      rcases (hent i j).mp hc with ⟨hv, _⟩ | ⟨hv, _⟩
      · unfold Visited at hv; omega
      · unfold Visited at hv; omega
    refine ⟨by rw [add_edge_n]; exact hn, add_edge_square _ _ _ hsq,
      by rw [add_edge_adjlist]; exact hl, ?_⟩
    intro a b
    rw [add_edge_entry_new s i j a b hsq (by omega) (by omega) hnot]
    simp only [Bool.or_eq_true, Bool.and_eq_true, beq_iff_eq, hent a b]
    unfold Visited
    constructor
    · rintro ((h1 | h1) | h1)
      · rcases h1 with ⟨⟨h1, h2⟩, h3⟩ | ⟨⟨h1, h2⟩, h3⟩
        · left; exact ⟨⟨h1, by omega⟩, h3⟩
        · right; exact ⟨⟨h1, by omega⟩, h3⟩
      · obtain ⟨rfl, rfl⟩ := h1
        left; exact ⟨⟨hj, by omega⟩, hG⟩
      · obtain ⟨rfl, rfl⟩ := h1
        right; exact ⟨⟨hj, by omega⟩, hG⟩
    · rintro (⟨⟨h1, h2⟩, h3⟩ | ⟨⟨h1, h2⟩, h3⟩)
      · by_cases hnew : a = i ∧ b = j
        · left; right; exact hnew
        · left; left; left; exact ⟨⟨h1, by omega⟩, h3⟩
      · by_cases hnew : a = j ∧ b = i
        · right; exact hnew
        · left; left; right; exact ⟨⟨h1, by omega⟩, h3⟩
  · rw [if_neg hG]
    refine ⟨hn, hsq, hl, ?_⟩
    intro a b
    rw [hent a b]
    unfold Visited
    constructor
    · rintro (⟨⟨h1, h2⟩, h3⟩ | ⟨⟨h1, h2⟩, h3⟩)
      · left; exact ⟨⟨h1, by omega⟩, h3⟩
      · right; exact ⟨⟨h1, by omega⟩, h3⟩
    · rintro (⟨⟨h1, h2⟩, h3⟩ | ⟨⟨h1, h2⟩, h3⟩)
      · by_cases hnew : a = i ∧ b = j
        · obtain ⟨rfl, rfl⟩ := hnew; exact absurd h3 hG
        · left; exact ⟨⟨h1, by omega⟩, h3⟩
      · by_cases hnew : b = i ∧ a = j
        · obtain ⟨rfl, rfl⟩ := hnew; exact absurd h3 hG
        · right; exact ⟨⟨h1, by omega⟩, h3⟩

theorem subgraphInv_outer (g : ColouringGraph) (vv : List Nat) (i : Nat) (s : ColouringGraph)
    (h : SubgraphInv g vv i i s) : SubgraphInv g vv (i + 1) 0 s := by
  obtain ⟨hn, hsq, hl, hent⟩ := h
  refine ⟨hn, hsq, hl, ?_⟩
  intro a b
  rw [hent a b]
  unfold Visited
  constructor
  · rintro (⟨⟨h1, h2⟩, h3⟩ | ⟨⟨h1, h2⟩, h3⟩)
    · left; exact ⟨⟨h1, by omega⟩, h3⟩
    · right; exact ⟨⟨h1, by omega⟩, h3⟩
  · rintro (⟨⟨h1, h2⟩, h3⟩ | ⟨⟨h1, h2⟩, h3⟩)
    · left; exact ⟨⟨h1, by omega⟩, h3⟩
    · right; exact ⟨⟨h1, by omega⟩, h3⟩

theorem induced_subgraph_inv (g : ColouringGraph) (vv : List Nat) :
    SubgraphInv g vv vv.length 0 (induced_subgraph g vv) := by
  unfold induced_subgraph
  apply foldl_range_induction (fun i s => SubgraphInv g vv i 0 s)
  · exact subgraphInv_init g vv
  · intro i s hi hP
    apply subgraphInv_outer
    apply foldl_range_induction (fun j s => SubgraphInv g vv i j s)
    · exact hP
    · intro j s' hj hP'
      exact subgraphInv_inner g vv i j s' hi hj hP'

/-! ## Graph construction: `add_edge` and `induced_subgraph` -/

/-- C9, counterexample: on the one-vertex graph, `add_edge(g, 0, 0)` records the
self-loop: afterwards `adj_matrix[0][0]` is true and the matrix has changed. -/
theorem add_edge_self_loop_recorded :
    entry (add_edge (ColouringGraph.create 1) 0 0).adj_matrix 0 0 = true ∧
    (add_edge (ColouringGraph.create 1) 0 0).adj_matrix
      ≠ (ColouringGraph.create 1).adj_matrix := by
  decide

/-- C9, amended: `add_edge` has no guard against a self-loop.  For every graph
`g` with an `n × n` matrix and every vertex `v` of `g`, after
`add_edge(g, v, v)` the entry `adj_matrix[v][v]` is true, and every other entry
of the matrix is what it was. -/
theorem add_edge_self_loop (g : ColouringGraph) (v : Nat) (hsq : Square g) (hv : v < g.n) :
    entry (add_edge g v v).adj_matrix v v = true ∧
    ∀ a b, ¬ (a = v ∧ b = v) →
      entry (add_edge g v v).adj_matrix a b = entry g.adj_matrix a b := by
  cases hvv : entry g.adj_matrix v v with
  | true =>
    rw [add_edge_entry_old g v v hvv]
    exact ⟨hvv, fun _ _ _ => rfl⟩
  | false =>
    refine ⟨?_, ?_⟩
    · rw [add_edge_entry_new g v v v v hsq hv hv hvv]; simp
    · intro a b hab
      rw [add_edge_entry_new g v v a b hsq hv hv hvv]
      have f1 : (a == v && b == v) = false := by
        simp only [Bool.and_eq_false_imp, beq_iff_eq]
        intro ha
        exact beq_eq_false_iff_ne.mpr (fun hb => hab ⟨ha, hb⟩)
      rw [f1]; simp

/-- C9, amended, at the two-vertex graph without edges and its vertex 1. -/
theorem add_edge_self_loop_witness :
    Square (ColouringGraph.create 2) ∧ 1 < (ColouringGraph.create 2).n ∧
    entry (add_edge (ColouringGraph.create 2) 1 1).adj_matrix 1 1 = true ∧
    ∀ a b, ¬ (a = 1 ∧ b = 1) →
      entry (add_edge (ColouringGraph.create 2) 1 1).adj_matrix a b
        = entry (ColouringGraph.create 2).adj_matrix a b :=
  ⟨create_square 2, by decide,
    add_edge_self_loop (ColouringGraph.create 2) 1 (create_square 2) (by decide)⟩

/-- C10: for a graph `g` whose matrix is symmetric and without self-loops and a
list `order` of vertices of `g`, `induced_subgraph(g, order)` has `|order|`
vertices, its matrix is symmetric and without self-loops, and for `i ≠ j` the
vertices `i` and `j` are adjacent in it exactly when `order[i]` and `order[j]`
are adjacent in `g`. -/
theorem induced_subgraph_spec (g : ColouringGraph) (order : List Nat)
    (hsym : ∀ v, v < g.n → ∀ w, w < g.n → entry g.adj_matrix v w = entry g.adj_matrix w v)
    (_hloop : ∀ v, v < g.n → entry g.adj_matrix v v = false)
    (horder : ∀ v ∈ order, v < g.n) :
    (induced_subgraph g order).n = order.length ∧
    (∀ i j, entry (induced_subgraph g order).adj_matrix i j
      = entry (induced_subgraph g order).adj_matrix j i) ∧
    (∀ i, entry (induced_subgraph g order).adj_matrix i i = false) ∧
    (∀ i j, i < order.length → j < order.length → i ≠ j →
      entry (induced_subgraph g order).adj_matrix i j
        = entry g.adj_matrix (order.getD i 0) (order.getD j 0)) := by
  obtain ⟨hn, _, _, hent⟩ := induced_subgraph_inv g order
  refine ⟨hn, ?_, ?_, ?_⟩
  · intro i j
    rw [Bool.eq_iff_iff, hent i j, hent j i]
    exact Or.comm
  · intro i
    rw [Bool.eq_false_iff]
    intro hc
    rcases (hent i i).mp hc with ⟨hv, _⟩ | ⟨hv, _⟩ <;>
      · unfold Visited at hv; omega
  · intro i j hi hj hij
    have hmem : ∀ a, a < order.length → order.getD a 0 < g.n := by
      intro a ha
      rw [List.getD_eq_getElem?_getD, List.getElem?_eq_getElem ha]
      exact horder _ (List.getElem_mem ha)
    rw [Bool.eq_iff_iff, hent i j]
    unfold Visited
    constructor
    · rintro (⟨_, h⟩ | ⟨_, h⟩)
      · exact h
      · rw [hsym _ (hmem i hi) _ (hmem j hj)]; exact h
    · intro h
      rcases Nat.lt_or_gt_of_ne hij with hlt | hgt
      · right
        refine ⟨⟨hlt, Or.inl hj⟩, ?_⟩
        rw [hsym _ (hmem j hj) _ (hmem i hi)]; exact h
      · left
        exact ⟨⟨hgt, Or.inl hi⟩, h⟩

/-- C10, at the path `0 - 1 - 2` and the order `[2, 0, 1]`. -/
theorem induced_subgraph_spec_witness :
    (∀ v, v < path3.n → ∀ w, w < path3.n →
      entry path3.adj_matrix v w = entry path3.adj_matrix w v) ∧
    (∀ v, v < path3.n → entry path3.adj_matrix v v = false) ∧
    (∀ v ∈ [2, 0, 1], v < path3.n) ∧
    (induced_subgraph path3 [2, 0, 1]).n = [2, 0, 1].length ∧
    (∀ i j, entry (induced_subgraph path3 [2, 0, 1]).adj_matrix i j
      = entry (induced_subgraph path3 [2, 0, 1]).adj_matrix j i) ∧
    (∀ i, entry (induced_subgraph path3 [2, 0, 1]).adj_matrix i i = false) ∧
    (∀ i j, i < [2, 0, 1].length → j < [2, 0, 1].length → i ≠ j →
      entry (induced_subgraph path3 [2, 0, 1]).adj_matrix i j
        = entry path3.adj_matrix (([2, 0, 1] : List Nat).getD i 0)
            (([2, 0, 1] : List Nat).getD j 0)) :=
  ⟨by decide, by decide, by decide,
    induced_subgraph_spec path3 [2, 0, 1] (by decide) (by decide) (by decide)⟩

/-! ## The graph without vertices -/

/-- C7: for a graph with no vertices and every `f`, `find_colouring_number`
returns 0, whatever the generator yields and as soon as one round is allowed;
the first `solve` call, with `k = 0`, already leaves an incumbent of size
`n * f`. -/
theorem find_colouring_number_no_vertices (g : ColouringGraph) (f : Nat)
    (rand : Nat → Nat → Nat) (fuel : Nat) (hn : g.n = 0) :
    find_colouring_number (fuel + 1) g f rand = .ok 0 ∧
    ∃ count clq,
      solve (make_adjacency_lists (induced_subgraph g (randomised_vertex_order g (rand 0))))
        0 1000 (init_Solution 0) 0 f = .ok (count, clq) ∧ clq.size = g.n * f := by
  have hvv : randomised_vertex_order g (rand 0) = [] := by
    simp [randomised_vertex_order, hn]
  have hsub : induced_subgraph g [] = ColouringGraph.create 0 := by
    simp [induced_subgraph]
  have hmk : make_adjacency_lists (ColouringGraph.create 0) = ColouringGraph.create 0 := by
    simp [make_adjacency_lists, ColouringGraph.create]
  have hsolve : solve (ColouringGraph.create 0) 0 1000 (init_Solution 0) 0 f
      = .ok (1, init_Solution 0) := by
    simp [solve, expand, ColouringGraph.create, init_Solution, copy_Solution]
  have h0 : (ColouringGraph.create 0).n = 0 := rfl
  refine ⟨?_, 1, init_Solution 0, ?_, ?_⟩
  · simp only [find_colouring_number, hvv, hsub, colour_loop, hmk, restart_loop]
    rw [h0, hsolve]
    simp [init_Solution, ColouringGraph.create]
  · rw [hvv, hsub, hmk, hsolve]
  · simp [hn, init_Solution]

/-- C7, at the empty graph with `f = 1`. -/
theorem find_colouring_number_no_vertices_witness :
    (ColouringGraph.create 0).n = 0 ∧
    find_colouring_number (0 + 1) (ColouringGraph.create 0) 1 (fun _ _ => 0) = .ok 0 :=
  ⟨rfl, (find_colouring_number_no_vertices (ColouringGraph.create 0) 1 (fun _ _ => 0) 0 rfl).1⟩

/-! ## Bitsets: the primitives in terms of `Nat.testBit` -/

theorem testBit_word (b i j : Nat) :
    (word b i).testBit j = (decide (j < 64) && b.testBit (i * 64 + j)) := by
  unfold word
  rw [show BITS_PER_WORD = 64 from rfl, Nat.testBit_mod_two_pow, Nat.testBit_shiftRight]

theorem and_one_shiftLeft_ne_zero (x j : Nat) :
    ((x &&& (1 <<< j)) != 0) = x.testBit j := by
  rw [Nat.one_shiftLeft]
  cases h : x.testBit j with
  | true =>
    have : (x &&& 2 ^ j).testBit j = true := by simp [h]
    have hne : x &&& 2 ^ j ≠ 0 := by
      intro h0; rw [h0] at this; simp at this
    simpa using hne
  | false =>
    have : x &&& 2 ^ j = 0 := by
      apply Nat.eq_of_testBit_eq
      intro i
      simp only [Nat.testBit_and, Nat.testBit_two_pow, Nat.zero_testBit]
      by_cases hij : j = i
      · subst hij; simp [h]
      · simp [hij]
    simp [this]

theorem test_bit_eq (b c : Nat) : test_bit b c = b.testBit c := by
  unfold test_bit
  rw [and_one_shiftLeft_ne_zero, testBit_word]
  have h1 : c % BITS_PER_WORD < 64 := Nat.mod_lt _ (by decide)
  have h2 : c / BITS_PER_WORD * 64 + c % BITS_PER_WORD = c := by
    have := Nat.div_add_mod c 64
    simp only [BITS_PER_WORD]; omega
  simp [h1, h2]

theorem testBit_set_word (b i w j : Nat) :
    (set_word b i w).testBit j = if j / 64 = i then w.testBit (j % 64) else b.testBit j := by
  unfold set_word
  rw [show BITS_PER_WORD = 64 from rfl, Nat.testBit_xor, Nat.testBit_shiftLeft, Nat.testBit_xor,
    Nat.testBit_mod_two_pow, testBit_word]
  by_cases h : j / 64 = i
  · subst h
    have h1 : j ≥ j / 64 * 64 := Nat.div_mul_le_self j 64
    have h2 : j - j / 64 * 64 = j % 64 := by have := Nat.div_add_mod j 64; omega
    have h3 : j % 64 < 64 := Nat.mod_lt _ (by decide)
    have h4 : j / 64 * 64 + j % 64 = j := by have := Nat.div_add_mod j 64; omega
    simp [h1, h2, h3, h4]
  · rw [if_neg h]
    by_cases h1 : j ≥ i * 64
    · have h2 : ¬ (j - i * 64 < 64) := by
        intro hlt
        apply h
        have : j < (i + 1) * 64 := by omega
        exact Nat.div_eq_of_lt_le (by omega) this
      simp [h1, h2]
    · simp [h1]

theorem testBit_complement (x j : Nat) (hj : j < 64) :
    (complement x).testBit j = !x.testBit j := by
  unfold complement
  rw [show BITS_PER_WORD = 64 from rfl, Nat.testBit_xor, Nat.testBit_two_pow_sub_one,
    Nat.testBit_mod_two_pow]
  simp [hj]

theorem div_mod_eq_of (j c : Nat) (h1 : j / 64 = c / 64) (h2 : j % 64 = c % 64) : j = c := by
  have := Nat.div_add_mod j 64
  have := Nat.div_add_mod c 64
  omega

theorem testBit_unset_bit (b c j : Nat) :
    (unset_bit b c).testBit j = (b.testBit j && !decide (j = c)) := by
  unfold unset_bit
  rw [testBit_set_word, show BITS_PER_WORD = 64 from rfl]
  have hj : j % 64 < 64 := Nat.mod_lt _ (by decide)
  by_cases h : j / 64 = c / 64
  · rw [if_pos h, Nat.testBit_and, testBit_word, testBit_complement _ _ hj,
      Nat.one_shiftLeft, Nat.testBit_two_pow]
    have h4 : c / 64 * 64 + j % 64 = j := by have := Nat.div_add_mod j 64; omega
    rw [h4]
    by_cases hm : c % 64 = j % 64
    · have : j = c := div_mod_eq_of j c h hm.symm
      simp [hj, hm, this]
    · have : ¬ j = c := fun e => hm (by rw [e])
      simp [hj, hm, this]
  · rw [if_neg h]
    have : ¬ j = c := fun e => h (by rw [e])
    simp [this]

theorem testBit_foldl_set_word_zero (l : List Nat) (b j : Nat) :
    (l.foldl (fun b i => set_word b i 0) b).testBit j
      = (b.testBit j && !decide (j / 64 ∈ l)) := by
  induction l generalizing b with
  | nil => simp
  | cons i l ih =>
    rw [List.foldl_cons, ih, testBit_set_word]
    by_cases h : j / 64 = i
    · simp [h]
    · have : ¬ i = j / 64 := fun e => h e.symm
      simp [h, List.mem_cons]

theorem testBit_clear_bitset (b W j : Nat) :
    (clear_bitset b W).testBit j = (b.testBit j && decide (64 * W ≤ j)) := by
  unfold clear_bitset
  rw [testBit_foldl_set_word_zero]
  congr 1
  simp only [List.mem_reverse, List.mem_range]
  by_cases h : 64 * W ≤ j
  · have : ¬ j / 64 < W := by
      intro hlt
      have := Nat.div_mul_le_self j 64
      have := Nat.lt_of_div_lt_div (a := j) (b := 64 * W) (c := 64) (by simpa using hlt)
      omega
    simp [h, this]
  · have : j / 64 < W := by
      apply Nat.div_lt_of_lt_mul; omega
    simp [h, this]

theorem testBit_set_first_n_bits (b n j : Nat) :
    (set_first_n_bits b n).testBit j = (b.testBit j || decide (j < n)) := by
  unfold set_first_n_bits
  revert j
  refine @foldl_range_induction Nat
    (fun i b' => ∀ j, b'.testBit j = (b.testBit j || decide (j < i))) _ _ _ ?_ ?_
  · intro j; simp
  · intro i b' _ hP j
    rw [testBit_set_word, show BITS_PER_WORD = 64 from rfl]
    have hj : j % 64 < 64 := Nat.mod_lt _ (by decide)
    by_cases h : j / 64 = i / 64
    · rw [if_pos h, Nat.testBit_or, testBit_word, Nat.one_shiftLeft, Nat.testBit_two_pow]
      have h4 : i / 64 * 64 + j % 64 = j := by have := Nat.div_add_mod j 64; omega
      rw [h4, hP j]
      by_cases hm : i % 64 = j % 64
      · have : j = i := div_mod_eq_of j i h hm.symm
        simp [hj, hm, this]
      · have hne : ¬ j = i := fun e => hm (by rw [e])
        have : decide (j < i + 1) = decide (j < i) := by
          apply decide_eq_decide.mpr; omega
        simp [hj, hm, this]
    · rw [if_neg h, hP j]
      have hne : ¬ j = i := fun e => h (by rw [e])
      have : decide (j < i + 1) = decide (j < i) := by
        apply decide_eq_decide.mpr; omega
      rw [this]

theorem testBit_copy_bitset (src dest W j : Nat) :
    (copy_bitset src dest W).testBit j
      = if j < 64 * W then src.testBit j else dest.testBit j := by
  unfold copy_bitset
  have key : ∀ j, ((List.range W).foldl (fun d i => set_word d i (word src i)) dest).testBit j
      = if j / 64 < W then src.testBit j else dest.testBit j := by
    refine @foldl_range_induction Nat
      (fun i d => ∀ j, d.testBit j = if j / 64 < i then src.testBit j else dest.testBit j)
      _ _ _ ?_ ?_
    · intro j; simp
    · intro i d _ hP j
      rw [testBit_set_word]
      have hj : j % 64 < 64 := Nat.mod_lt _ (by decide)
      by_cases h : j / 64 = i
      · rw [if_pos h, testBit_word]
        have h4 : i * 64 + j % 64 = j := by have := Nat.div_add_mod j 64; omega
        have : j / 64 < i + 1 := by omega
        simp [hj, h4, this]
      · rw [if_neg h, hP j]
        by_cases h2 : j / 64 < i
        · have : j / 64 < i + 1 := by omega
          simp [h2, this]
        · have : ¬ j / 64 < i + 1 := by omega
          simp [h2, this]
  rw [key]
  have : j / 64 < W ↔ j < 64 * W := by
    constructor
    · intro h; exact (Nat.div_lt_iff_lt_mul (by decide)).mp h |> fun h => by omega
    · intro h; apply Nat.div_lt_of_lt_mul; omega
  simp only [this]

theorem count_bits_eq (n w : Nat) :
    count_bits n w = (List.range n).countP (fun j => w.testBit j) := by
  induction n generalizing w with
  | zero => simp [count_bits]
  | succ n ih =>
    rw [count_bits, List.range_succ_eq_map, List.countP_cons, List.countP_map]
    by_cases hw : w = 0
    · subst hw
      simp
    · rw [if_neg hw, ih (w / 2)]
      have h1 : ((fun j => w.testBit j) ∘ Nat.succ) = (fun j => (w / 2).testBit j) := by
        funext j; simp [Nat.testBit_succ]
      rw [h1, Nat.testBit_zero]
      rcases Nat.mod_two_eq_zero_or_one w with h | h
      · simp [h]
      · simp [h]; omega

theorem foldl_add_eq_sum (l : List Nat) (g : Nat → Nat) (a : Nat) :
    l.foldl (fun c i => c + g i) a = a + (l.map g).sum := by
  induction l generalizing a with
  | nil => simp
  | cons x l ih => rw [List.foldl_cons, ih]; simp [Nat.add_assoc]

theorem countP_range_mul (p : Nat → Bool) (m W : Nat) :
    (List.range (m * W)).countP p
      = ((List.range W).map (fun i => (List.range m).countP (fun j => p (i * m + j)))).sum := by
  induction W with
  | zero => simp
  | succ W ih =>
    rw [Nat.mul_succ, List.range_add, List.countP_append, ih, @List.range_succ W,
      List.map_append, List.sum_append, List.countP_map]
    simp only [List.map_cons, List.map_nil, List.sum_cons, List.sum_nil, Nat.add_zero]
    congr 2
    funext j
    simp [Nat.mul_comm]

theorem bitset_popcount_eq (b W : Nat) :
    bitset_popcount b W = (List.range (64 * W)).countP (fun j => b.testBit j) := by
  unfold bitset_popcount
  rw [foldl_add_eq_sum, Nat.zero_add, List.map_reverse, List.sum_reverse, countP_range_mul]
  congr 1
  apply List.map_congr_left
  intro i _
  unfold popcountll
  rw [count_bits_eq, show BITS_PER_WORD = 64 from rfl]
  apply List.countP_congr
  intro j hj
  rw [testBit_word]
  simp [List.mem_range.mp hj]

theorem word_lt (b i : Nat) : word b i < 2 ^ 64 := by
  unfold word
  exact Nat.mod_lt _ (by decide)

theorem word_eq_zero_iff (b i : Nat) :
    word b i = 0 ↔ ∀ j, j < 64 → b.testBit (i * 64 + j) = false := by
  constructor
  · intro h j hj
    have := testBit_word b i j
    rw [h] at this
    simpa [hj] using this.symm
  · intro h
    apply Nat.eq_of_testBit_eq
    intro j
    rw [testBit_word, Nat.zero_testBit]
    by_cases hj : j < 64
    · simp [h j hj]
    · simp [hj]

theorem index_split (j : Nat) : j / 64 * 64 + j % 64 = j := by
  have := Nat.div_add_mod j 64
  omega

theorem div_lt_iff_lt (j W : Nat) : j / 64 < W ↔ j < 64 * W := by
  constructor
  · intro h
    have := index_split j
    have := Nat.mod_lt j (show 0 < 64 by decide)
    omega
  · intro h
    apply Nat.div_lt_of_lt_mul; omega

theorem bitset_empty_iff (b W : Nat) :
    bitset_empty b W = true ↔ ∀ j, j < 64 * W → b.testBit j = false := by
  unfold bitset_empty
  simp only [List.all_eq_true, List.mem_reverse, List.mem_range, beq_iff_eq, word_eq_zero_iff]
  constructor
  · intro h j hj
    have := h (j / 64) ((div_lt_iff_lt j W).mpr hj) (j % 64) (Nat.mod_lt _ (by decide))
    rwa [index_split] at this
  · intro h i hi j hj
    apply h
    have : i * 64 + j < 64 * W := by
      have : (i + 1) * 64 ≤ W * 64 := Nat.mul_le_mul_right 64 hi
      omega
    exact this

theorem ctzll_spec (w : Nat) (hw : w ≠ 0) (hlt : w < 2 ^ 64) :
    ctzll w < 64 ∧ w.testBit (ctzll w) = true := by
  obtain ⟨i, hi⟩ := Nat.ne_zero_implies_bit_true hw
  have hi64 : i < 64 := by
    by_contra hge
    have h2 : w < 2 ^ i :=
      Nat.lt_of_lt_of_le hlt (Nat.pow_le_pow_right (by decide) (by omega))
    rw [Nat.testBit_lt_two_pow h2] at hi
    exact Bool.noConfusion hi
  unfold ctzll
  rw [show BITS_PER_WORD = 64 from rfl]
  cases hf : (List.range 64).find? (fun j => w.testBit j) with
  | none =>
    rw [List.find?_eq_none] at hf
    have := hf i (List.mem_range.mpr hi64)
    simp [hi] at this
  | some a =>
    simp only [Option.getD_some]
    exact ⟨List.mem_range.mp (List.mem_of_find?_eq_some hf), List.find?_some hf⟩

theorem first_set_bit_some (b W c : Nat) (h : first_set_bit b W = some c) :
    b.testBit c = true ∧ c < 64 * W := by
  unfold first_set_bit at h
  rw [Option.map_eq_some'] at h
  obtain ⟨i, hfind, hc⟩ := h
  have hi : i < W := List.mem_range.mp (List.mem_of_find?_eq_some hfind)
  have hne : word b i ≠ 0 := by
    have := List.find?_some hfind
    simpa using this
  obtain ⟨h1, h2⟩ := ctzll_spec (word b i) hne (word_lt b i)
  rw [testBit_word] at h2
  rw [show BITS_PER_WORD = 64 from rfl] at hc
  subst hc
  refine ⟨by simpa [h1] using h2, ?_⟩
  have : (i + 1) * 64 ≤ W * 64 := Nat.mul_le_mul_right 64 hi
  omega

theorem first_set_bit_none (b W : Nat) (h : first_set_bit b W = none) :
    ∀ j, j < 64 * W → b.testBit j = false := by
  unfold first_set_bit at h
  rw [Option.map_eq_none', List.find?_eq_none] at h
  intro j hj
  have hw : word b (j / 64) = 0 := by
    have := h (j / 64) (List.mem_range.mpr ((div_lt_iff_lt j W).mpr hj))
    simpa using this
  have := (word_eq_zero_iff b (j / 64)).mp hw (j % 64) (Nat.mod_lt _ (by decide))
  rwa [index_split] at this

/-! ## The 5-cycle with `f = 2` -/

set_option maxRecDepth 1000000 in
theorem order5_eq (rand : Nat → Nat) :
    randomised_vertex_order cycle5 rand
      = order5 (rand 0 % 5) (rand 1 % 4) (rand 2 % 3) (rand 3 % 2) := by
  rfl

set_option maxRecDepth 1000000 in
theorem induced_cycle5_mem :
    ∀ a, a < 5 → ∀ b, b < 4 → ∀ c, c < 3 → ∀ d, d < 2 →
      induced_subgraph cycle5 (order5 a b c d) ∈ orders5.map (induced_subgraph cycle5) := by
  decide!

set_option maxRecDepth 1000000 in
theorem colour_loop_cycle5 (rand : Nat → Nat → Nat) (fuel : Nat) :
    ∀ s ∈ orders5.map (induced_subgraph cycle5),
      colour_loop cycle5 2 rand (fuel + 6) 0 s 1000 0 = .ok 5 := by
  intro s hs
  simp only [orders5, List.map_cons, List.map_nil, List.mem_cons, List.mem_singleton,
    List.not_mem_nil, or_false] at hs
  rcases hs with h | h | h | h | h | h | h | h | h | h | h | h <;> subst h <;> rfl

/-- C6: on the 5-cycle with `f = 2`, `find_colouring_number` returns 5 for every
sequence of values the generator yields, hence for every vertex order the
permutation step can produce, as soon as six rounds of the loop over the
number of colours are allowed. -/
theorem find_colouring_number_cycle5 (rand : Nat → Nat → Nat) (fuel : Nat) :
    find_colouring_number (fuel + 6) cycle5 2 rand = .ok 5 := by
  unfold find_colouring_number
  simp only [order5_eq]
  exact colour_loop_cycle5 rand fuel _
    (induced_cycle5_mem _ (Nat.mod_lt _ (by decide)) _ (Nat.mod_lt _ (by decide))
      _ (Nat.mod_lt _ (by decide)) _ (Nat.mod_lt _ (by decide)))

/-! ## Neighbour lists and the sweep over non-neighbours -/

theorem getD_mem_of_lt (l : List Nat) (j : Nat) (h : j < l.length) : l.getD j 0 ∈ l := by
  rw [List.getD_eq_getElem?_getD, List.getElem?_eq_getElem h]
  exact List.getElem_mem h

theorem exists_getD_of_mem (l : List Nat) (x : Nat) (h : x ∈ l) :
    ∃ j, j < l.length ∧ l.getD j 0 = x := by
  obtain ⟨j, hj, hx⟩ := List.getElem_of_mem h
  refine ⟨j, hj, ?_⟩
  rw [List.getD_eq_getElem?_getD, List.getElem?_eq_getElem hj]
  exact hx

theorem getD_append_left (l r : List Nat) (j : Nat) (h : j < l.length) :
    (l ++ r).getD j 0 = l.getD j 0 := by
  rw [List.getD_eq_getElem?_getD, List.getD_eq_getElem?_getD, List.getElem?_append_left h]

theorem getD_append_right_mem (l r : List Nat) (j : Nat) (h1 : l.length ≤ j)
    (h2 : j < (l ++ r).length) : (l ++ r).getD j 0 ∈ r := by
  rw [List.getD_eq_getElem?_getD, List.getElem?_append_right h1]
  have : j - l.length < r.length := by
    rw [List.length_append] at h2; omega
  rw [List.getElem?_eq_getElem this]
  exact List.getElem_mem this

theorem swept_range' (nb rest : List Nat) (v : Nat)
    (hsorted : ∀ i j, i < j → j < nb.length → nb.getD i 0 < nb.getD j 0)
    (hrest : ∀ x ∈ rest, x ∈ nb) :
    ∀ len w0 i, i ≤ nb.length → (∀ j, j < i → nb.getD j 0 < w0) →
      (∀ j, i ≤ j → j < nb.length → w0 ≤ nb.getD j 0) →
      swept (nb ++ rest) v (List.range' w0 len) i
        = (List.range' w0 len).filter (fun w => decide (w ∉ nb) && (w != v)) := by
  intro len
  induction len with
  | zero => intro w0 i _ _ _; simp [swept]
  | succ len ih =>
    intro w0 i hi hlow hhigh
    rw [List.range'_succ, swept, List.filter_cons]
    by_cases hc : (decide (i < (nb ++ rest).length) && ((nb ++ rest).getD i 0 == w0)) = true
    · rw [if_pos hc]
      simp only [Bool.and_eq_true, decide_eq_true_eq, beq_iff_eq] at hc
      obtain ⟨hlt, heq⟩ := hc
      have hi2 : i < nb.length := by
        by_contra hge
        have hmem := hrest _ (getD_append_right_mem nb rest i (by omega) hlt)
        rw [heq] at hmem
        obtain ⟨j, hj, hx⟩ := exists_getD_of_mem nb w0 hmem
        have := hlow j (by omega)
        omega
      rw [getD_append_left nb rest i hi2] at heq
      have hmem : w0 ∈ nb := by rw [← heq]; exact getD_mem_of_lt nb i hi2
      have hf : (decide (w0 ∉ nb) && (w0 != v)) = false := by simp [hmem]
      rw [hf]
      simp only [Bool.false_eq_true, if_false]
      apply ih (w0 + 1) (i + 1) (by omega)
      · intro j hj
        by_cases hji : j = i
        · subst hji; omega
        · have := hlow j (by omega); omega
      · intro j hj hjl
        have := hsorted i j (by omega) hjl
        omega
    · rw [if_neg hc]
      have hnot : w0 ∉ nb := by
        intro hmem
        obtain ⟨j, hj, hx⟩ := exists_getD_of_mem nb w0 hmem
        have hji : i ≤ j := by
          by_contra hlt
          have := hlow j (by omega)
          omega
        have hi2 : i < nb.length := by omega
        have h1 := hhigh i (Nat.le_refl i) hi2
        have h2 : nb.getD i 0 ≤ w0 := by
          by_cases hij : i = j
          · subst hij; omega
          · have := hsorted i j (by omega) hj
            omega
        apply hc
        simp only [Bool.and_eq_true, decide_eq_true_eq, beq_iff_eq]
        refine ⟨by rw [List.length_append]; omega, ?_⟩
        rw [getD_append_left nb rest i hi2]
        omega
      have hrec := ih (w0 + 1) i hi (fun j hj => by have := hlow j hj; omega)
        (fun j hj hjl => by
          have h1 := hhigh j hj hjl
          have h2 : nb.getD j 0 ≠ w0 := by
            intro e; apply hnot; rw [← e]; exact getD_mem_of_lt nb j hjl
          omega)
      by_cases hv : w0 = v
      · have hb : (w0 == v) = true := by simp [hv]
        have hf : (decide (w0 ∉ nb) && (w0 != v)) = false := by simp [hv]
        rw [hb, hf]
        simp only [if_true, Bool.false_eq_true, if_false]
        exact hrec
      · have hb : (w0 == v) = false := by simp [hv]
        have hf : (decide (w0 ∉ nb) && (w0 != v)) = true := by simp [hv, hnot]
        rw [hb, hf]
        simp only [Bool.false_eq_true, if_false, if_true]
        rw [hrec]


theorem sorted_getD_of_pairwise (l : List Nat) (h : l.Pairwise (· < ·)) :
    ∀ i j, i < j → j < l.length → l.getD i 0 < l.getD j 0 := by
  intro i j hij hj
  have hi : i < l.length := by omega
  rw [List.getD_eq_getElem?_getD, List.getD_eq_getElem?_getD, List.getElem?_eq_getElem hi,
    List.getElem?_eq_getElem hj]
  exact List.pairwise_iff_getElem.mp h i j hi hj hij

theorem neighbours_sorted (g : ColouringGraph) (v : Nat) :
    ∀ i j, i < j → j < (neighbours g v).length →
      (neighbours g v).getD i 0 < (neighbours g v).getD j 0 := by
  apply sorted_getD_of_pairwise
  unfold neighbours
  exact List.Pairwise.filter _ (List.pairwise_lt_range g.n)

theorem mem_neighbours (g : ColouringGraph) (v w : Nat) :
    w ∈ neighbours g v ↔ w < g.n ∧ entry g.adj_matrix v w = true := by
  simp [neighbours]

theorem mem_non_neighbours (g : ColouringGraph) (hl : ListsBuilt g) (v w : Nat) (hv : v < g.n) :
    w ∈ non_neighbours g v ↔ w < g.n ∧ w ≠ v ∧ entry g.adj_matrix v w = false := by
  obtain ⟨rest, hrest, hsub⟩ := hl.2 v hv
  unfold non_neighbours
  rw [hrest, List.range_eq_range',
    swept_range' (neighbours g v) rest v (neighbours_sorted g v) hsub g.n 0 0 (Nat.zero_le _)
      (fun j hj => absurd hj (Nat.not_lt_zero j)) (fun j _ _ => Nat.zero_le _)]
  simp only [List.mem_filter, ← List.range_eq_range', List.mem_range, Bool.and_eq_true,
    decide_eq_true_eq, bne_iff_ne, ne_eq, mem_neighbours]
  constructor
  · rintro ⟨h1, h2, h3⟩
    refine ⟨h1, h3, ?_⟩
    rw [Bool.eq_false_iff]
    intro hc; exact h2 ⟨h1, hc⟩
  · rintro ⟨h1, h2, h3⟩
    refine ⟨h1, ?_, h2⟩
    rintro ⟨_, hc⟩
    rw [h3] at hc; exact Bool.noConfusion hc

theorem non_neighbours_nodup (g : ColouringGraph) (hl : ListsBuilt g) (v : Nat) (hv : v < g.n) :
    (non_neighbours g v).Nodup := by
  obtain ⟨rest, hrest, hsub⟩ := hl.2 v hv
  unfold non_neighbours
  rw [hrest, List.range_eq_range',
    swept_range' (neighbours g v) rest v (neighbours_sorted g v) hsub g.n 0 0 (Nat.zero_le _)
      (fun j hj => absurd hj (Nat.not_lt_zero j)) (fun j _ _ => Nat.zero_le _)]
  apply List.Nodup.filter
  rw [← List.range_eq_range']
  exact List.nodup_range g.n


theorem listsInv_inner (g : ColouringGraph) (hlen : g.adjlist.length = g.n) (i j : Nat)
    (s : ColouringGraph) (hi : i < g.n) (h : ListsInv g i j s) :
    ListsInv g i (j + 1)
      (if entry s.adj_matrix i j then
        { s with adjlist := s.adjlist.set i (s.adjlist.getD i [] ++ [j]) }
       else s) := by
  obtain ⟨hn, hm, hl, hv⟩ := h
  rw [hm]
  by_cases he : entry g.adj_matrix i j = true
  · rw [if_pos he]
    refine ⟨hn, rfl, by simp [hl], ?_⟩
    intro v
    simp only []
    rw [getD_set_list]
    by_cases hvi : i = v
    · subst hvi
      have : i < s.adjlist.length := by omega
      simp only [this, and_self, if_true, hv i, Nat.lt_irrefl, if_false]
      rw [List.range_succ, List.filter_append, List.append_assoc]
      simp [he]
    · have hvi2 : ¬ v = i := fun e => hvi e.symm
      simp only [hvi, false_and, if_false, hv v, hvi2]
  · rw [if_neg he]
    refine ⟨hn, hm, hl, ?_⟩
    intro v
    rw [hv v]
    by_cases hvi : v = i
    · subst hvi
      simp only [Nat.lt_irrefl, if_false, if_true]
      rw [List.range_succ, List.filter_append]
      simp [he]
    · simp only [hvi, if_false]

theorem make_adjacency_lists_inv (g : ColouringGraph) (hlen : g.adjlist.length = g.n) :
    ListsInv g g.n 0 (make_adjacency_lists g) := by
  unfold make_adjacency_lists
  refine @foldl_range_induction ColouringGraph (fun i s => ListsInv g i 0 s) _ _ _ ?_ ?_
  · refine ⟨rfl, rfl, rfl, ?_⟩
    intro v; simp
  · intro i s hi hP
    have hsn : s.n = g.n := hP.1
    have hinner : ListsInv g i s.n
        ((List.range s.n).foldl
          (fun g j =>
            if entry g.adj_matrix i j then
              { g with adjlist := g.adjlist.set i (g.adjlist.getD i [] ++ [j]) }
            else g) s) := by
      refine @foldl_range_induction ColouringGraph (fun j s' => ListsInv g i j s') _ _ _ ?_ ?_
      · exact hP
      · intro j s' _ hP'
        exact listsInv_inner g hlen i j s' hi hP'
    obtain ⟨h1, h2, h3, h4⟩ := hinner
    refine ⟨h1, h2, h3, ?_⟩
    intro v
    rw [h4 v, hsn]
    by_cases hvi : v < i
    · have : v < i + 1 := by omega
      simp [hvi, this]
    · by_cases hvi2 : v = i
      · subst hvi2
        simp [neighbours]
      · have : ¬ v < i + 1 := by omega
        simp [hvi, hvi2, this]

theorem make_adjacency_lists_spec (g : ColouringGraph) (hlen : g.adjlist.length = g.n) :
    (make_adjacency_lists g).n = g.n ∧
    (make_adjacency_lists g).adj_matrix = g.adj_matrix ∧
    (make_adjacency_lists g).adjlist.length = g.n ∧
    ∀ v, v < g.n →
      (make_adjacency_lists g).adjlist.getD v [] = g.adjlist.getD v [] ++ neighbours g v := by
  obtain ⟨h1, h2, h3, h4⟩ := make_adjacency_lists_inv g hlen
  refine ⟨h1, h2, by rw [h3, hlen], ?_⟩
  intro v hv
  rw [h4 v]
  simp [hv]

theorem neighbours_congr (g s : ColouringGraph) (hn : s.n = g.n)
    (hm : s.adj_matrix = g.adj_matrix) (v : Nat) : neighbours s v = neighbours g v := by
  unfold neighbours; rw [hn, hm]

/-- Building the lists of a graph whose lists are empty. -/
theorem listsBuilt_of_empty (g : ColouringGraph) (h : g.adjlist = List.replicate g.n []) :
    ListsBuilt (make_adjacency_lists g) := by
  have hlen : g.adjlist.length = g.n := by rw [h]; simp
  obtain ⟨h1, h2, h3, h4⟩ := make_adjacency_lists_spec g hlen
  refine ⟨by rw [h3, h1], ?_⟩
  intro v hv
  rw [h1] at hv
  refine ⟨[], ?_, by simp⟩
  rw [h4 v hv, neighbours_congr g _ h1 h2, h]
  simp [List.getD_eq_getElem?_getD, List.getElem?_replicate, hv]

/-- Building the lists once more keeps them built. -/
theorem listsBuilt_again (g : ColouringGraph) (h : ListsBuilt g) :
    ListsBuilt (make_adjacency_lists g) := by
  obtain ⟨h1, h2, h3, h4⟩ := make_adjacency_lists_spec g h.1
  refine ⟨by rw [h3, h1], ?_⟩
  intro v hv
  rw [h1] at hv
  obtain ⟨rest, hr, hsub⟩ := h.2 v hv
  refine ⟨rest ++ neighbours g v, ?_, ?_⟩
  · rw [h4 v hv, neighbours_congr g _ h1 h2, hr, List.append_assoc]
  · intro x hx
    rw [neighbours_congr g _ h1 h2]
    rcases List.mem_append.mp hx with hx | hx
    · exact hsub x hx
    · exact hx

/-! ## One placement -/

theorem set_getD_self (l : List Nat) (w : Nat) : l.set w (l.getD w 0) = l := by
  induction l generalizing w with
  | nil => simp
  | cons x l ih =>
    cases w with
    | zero => simp
    | succ w =>
      have := ih w
      simp only [List.getD_eq_getElem?_getD] at this
      simp [this]

theorem unset_bit_of_not_set (b c : Nat) (h : b.testBit c = false) : unset_bit b c = b := by
  apply Nat.eq_of_testBit_eq
  intro j
  rw [testBit_unset_bit]
  by_cases hj : j = c
  · subst hj; simp [h]
  · simp [hj]

theorem getD_zero_of_le (l : List Nat) (u : Nat) (h : l.length ≤ u) : l.getD u 0 = 0 := by
  rw [List.getD_eq_getElem?_getD, List.getElem?_eq_none h]; rfl

theorem length_unset_rows (c : Nat) (ws avail : List Nat) :
    (unset_rows c ws avail).length = avail.length := by
  unfold unset_rows
  induction ws generalizing avail with
  | nil => rfl
  | cons w ws ih => rw [List.foldl_cons, ih]; simp

theorem testBit_unset_rows (c : Nat) (ws avail : List Nat) (u j : Nat) :
    ((unset_rows c ws avail).getD u 0).testBit j
      = ((avail.getD u 0).testBit j && !(decide (u ∈ ws) && decide (j = c))) := by
  unfold unset_rows
  induction ws generalizing avail with
  | nil => simp
  | cons w ws ih =>
    rw [List.foldl_cons, ih, getD_set_list]
    by_cases hwu : w = u
    · subst hwu
      by_cases hlen : w < avail.length
      · simp only [hlen, and_self, if_true, testBit_unset_bit, List.mem_cons, true_or,
          decide_True, Bool.true_and]
        by_cases hj : j = c
        · simp [hj]
        · simp [hj]
      · rw [getD_zero_of_le avail w (by omega)]
        simp [hlen]
    · have hne : ¬ u = w := fun e => hwu e.symm
      simp [hwu, hne, List.mem_cons]

theorem unit_sweep_avail (colour : Nat) (assigned : List Nat) (W f : Nat) (ws : List Nat) :
    ∀ avail stack avail' stack',
      unit_sweep colour assigned W f ws avail stack = some (avail', stack') →
      avail' = unset_rows colour ws avail := by
  induction ws with
  | nil =>
    intro avail stack avail' stack' h
    simp only [unit_sweep, Option.some.injEq, Prod.mk.injEq] at h
    rw [← h.1]; rfl
  | cons w ws ih =>
    intro avail stack avail' stack' h
    rw [unit_sweep] at h
    have hfold : unset_rows colour (w :: ws) avail
        = unset_rows colour ws (avail.set w (unset_bit (avail.getD w 0) colour)) := rfl
    rw [hfold]
    by_cases ht : test_bit (avail.getD w 0) colour = true
    · rw [if_pos ht] at h
      simp only [] at h
      split at h
      · exact ih _ _ _ _ h
      · split at h
        · exact Option.noConfusion h
        · exact ih _ _ _ _ h
    · rw [if_neg ht] at h
      have hb : (avail.getD w 0).testBit colour = false := by
        rw [← test_bit_eq]; simpa using ht
      rw [unset_bit_of_not_set _ _ hb, set_getD_self]
      exact ih _ _ _ _ h


theorem sum_set_succ (l : List Nat) (v : Nat) (hv : v < l.length) :
    (l.set v (l.getD v 0 + 1)).sum = l.sum + 1 := by
  induction l generalizing v with
  | nil => simp at hv
  | cons x l ih =>
    cases v with
    | zero => simp; omega
    | succ v =>
      have := ih v (by simpa using hv)
      simp only [List.getD_eq_getElem?_getD] at this
      simp [this]; omega

theorem sum_le_of_bounded (l : List Nat) (f : Nat) (h : ∀ x ∈ l, x ≤ f) :
    l.sum ≤ l.length * f := by
  induction l with
  | nil => simp
  | cons x l ih =>
    have h1 := h x (List.mem_cons_self x l)
    have h2 := ih (fun y hy => h y (List.mem_cons_of_mem x hy))
    simp only [List.sum_cons, List.length_cons, Nat.succ_mul]
    omega

theorem all_eq_of_sum_eq (l : List Nat) (f : Nat) (h : ∀ x ∈ l, x ≤ f)
    (hs : l.sum = l.length * f) : ∀ x ∈ l, x = f := by
  induction l with
  | nil => intro x hx; simp at hx
  | cons y l ih =>
    have h1 := h y (List.mem_cons_self y l)
    have hb : ∀ z ∈ l, z ≤ f := fun z hz => h z (List.mem_cons_of_mem y hz)
    have h2 := sum_le_of_bounded l f hb
    simp only [List.sum_cons, List.length_cons, Nat.succ_mul] at hs
    intro x hx
    rcases List.mem_cons.mp hx with hx | hx
    · subst hx; omega
    · exact ih hb (by omega) x hx

/-- The effect of `solution_colour_vtx` on `C`, the rows and the counts. -/
theorem solution_colour_vtx_spec (C : Solution) (v c : Nat) (avail assigned : List Nat)
    (W f : Nat) (hva : v < assigned.length) :
    ∃ avail1, solution_colour_vtx C v c avail assigned W f
      = ({ size := C.size + 1, capacity := C.capacity, vtx_colour := C.vtx_colour.set v c },
          avail1, assigned.set v (assigned.getD v 0 + 1)) ∧
      avail1.length = avail.length ∧
      ∀ u j, (avail1.getD u 0).testBit j
        = ((avail.getD u 0).testBit j &&
            !(decide (u = v) && (decide (j = c) ||
              (decide (assigned.getD v 0 + 1 = f) && decide (j < 64 * W))))) := by
  have hget : (assigned.set v (assigned.getD v 0 + 1)).getD v 0 = assigned.getD v 0 + 1 := by
    rw [getD_set_list, if_pos ⟨rfl, hva⟩]
  by_cases hf : assigned.getD v 0 + 1 = f
  · refine ⟨(avail.set v (unset_bit (avail.getD v 0) c)).set v
      (clear_bitset ((avail.set v (unset_bit (avail.getD v 0) c)).getD v 0) W), ?_, ?_, ?_⟩
    · unfold solution_colour_vtx
      simp only [hget]
      rw [if_pos (beq_iff_eq.mpr hf)]
    · rw [List.length_set, List.length_set]
    · intro u j
      by_cases hl : v < avail.length
      · rw [getD_set_list, getD_set_list]
        by_cases huv : v = u
        · subst huv
          rw [if_pos ⟨rfl, by rw [List.length_set]; exact hl⟩, if_pos ⟨rfl, hl⟩,
            testBit_clear_bitset, testBit_unset_bit]
          by_cases hj : j = c
          · simp [hj]
          · by_cases hjw : j < 64 * W
            · have : ¬ 64 * W ≤ j := by omega
              rw [decide_eq_true hf]
              simp [hj, hjw, this]
            · have : 64 * W ≤ j := by omega
              simp [hj, hjw, this]
        · have hne : ¬ u = v := fun e => huv e.symm
          rw [if_neg (fun e => huv e.1), getD_set_list, if_neg (fun e => huv e.1)]
          simp [hne]
      · have hs : ∀ x, avail.set v x = avail :=
          fun x => List.set_eq_of_length_le (by omega)
        rw [hs, hs]
        by_cases huv : u = v
        · subst huv
          rw [getD_zero_of_le avail u (by omega)]
          simp
        · simp [huv]
  · refine ⟨avail.set v (unset_bit (avail.getD v 0) c), ?_, ?_, ?_⟩
    · unfold solution_colour_vtx
      simp only [hget]
      rw [if_neg (fun e => hf (beq_iff_eq.mp e))]
    · rw [List.length_set]
    · intro u j
      by_cases hl : v < avail.length
      · rw [getD_set_list]
        by_cases huv : v = u
        · subst huv
          rw [if_pos ⟨rfl, hl⟩, testBit_unset_bit, decide_eq_false hf]
          simp
        · have hne : ¬ u = v := fun e => huv e.symm
          rw [if_neg (fun e => huv e.1)]
          simp [hne]
      · have hs : ∀ x, avail.set v x = avail :=
          fun x => List.set_eq_of_length_le (by omega)
        rw [hs]
        by_cases huv : u = v
        · subst huv
          rw [getD_zero_of_le avail u (by omega)]
          simp
        · simp [huv]


theorem compete_symm (g : ColouringGraph) (hsym : SymmetricMatrix g) (v w : Nat)
    (h : Compete g v w) : Compete g w v := by
  obtain ⟨hv, hw, hne, he⟩ := h
  exact ⟨hw, hv, fun e => hne e.symm, by rw [hsym w hw v hv]; exact he⟩

/-- One placement keeps the invariant: colour `c`, set in the row of `v`, is
placed on `v`, and the new rows are the old ones with `c` removed from the
row of `v` and from the rows of the vertices competing with `v` (and the row
of `v` emptied when `v` has its `f` colours). -/
theorem place_step (g : ColouringGraph) (hsym : SymmetricMatrix g) (W k f : Nat)
    (A : Nat → Finset Nat) (C : Solution) (avail assigned : List Nat)
    (hinv : SearchInv g W k f A C avail assigned) (v c : Nat) (hv : v < g.n)
    (hc : (avail.getD v 0).testBit c = true) (hcW : c < 64 * W)
    (avail2 : List Nat) (hlen : avail2.length = g.n)
    (hsub : ∀ u j, (avail2.getD u 0).testBit j = true → (avail.getD u 0).testBit j = true)
    (hown : (avail2.getD v 0).testBit c = false)
    (hprop : ∀ w, Compete g v w → (avail2.getD w 0).testBit c = false)
    (hclear : assigned.getD v 0 + 1 = f →
      ∀ j, j < 64 * W → (avail2.getD v 0).testBit j = false) :
    SearchInv g W k f (Function.update A v (insert c (A v)))
      { size := C.size + 1, capacity := C.capacity, vtx_colour := C.vtx_colour.set v c }
      avail2 (assigned.set v (assigned.getD v 0 + 1)) := by
  have hsubF : ∀ u j, (avail.getD u 0).testBit j = false → (avail2.getD u 0).testBit j = false := by
    intro u j h
    rw [Bool.eq_false_iff]
    intro h2
    rw [hsub u j h2] at h
    exact Bool.noConfusion h
  have hcA : c ∉ A v := by
    intro hmem
    rw [hinv.own v hv c hmem] at hc
    exact Bool.noConfusion hc
  have hlt : assigned.getD v 0 < f := by
    rcases Nat.lt_or_ge (assigned.getD v 0) f with h | h
    · exact h
    · have he : assigned.getD v 0 = f := Nat.le_antisymm (hinv.bounded v hv) h
      rw [hinv.done_empty v hv he c hcW] at hc
      exact Bool.noConfusion hc
  have hval : ∀ u, (assigned.set v (assigned.getD v 0 + 1)).getD u 0
      = if u = v then assigned.getD v 0 + 1 else assigned.getD u 0 := by
    intro u
    rw [getD_set_list]
    by_cases huv : v = u
    · subst huv
      rw [if_pos ⟨rfl, by rw [hinv.assigned_len]; exact hv⟩, if_pos rfl]
    · rw [if_neg (fun e => huv e.1), if_neg (fun e => huv e.symm)]
  have hA : ∀ u, u ≠ v → Function.update A v (insert c (A v)) u = A u := by
    intro u hu
    exact Function.update_noteq hu _ _
  have hAv : Function.update A v (insert c (A v)) v = insert c (A v) :=
    Function.update_same _ _ _
  refine
    { avail_len := hlen
      assigned_len := by rw [List.length_set]; exact hinv.assigned_len
      colour_len := by simp only [List.length_set]; exact hinv.colour_len
      capacity := hinv.capacity
      card := ?_
      palette := fun u hu j hj => hinv.palette u hu j (hsub u j hj)
      placed_lt := ?_
      own := ?_
      propagated := ?_
      disjoint := ?_
      size := ?_
      bounded := ?_
      done_empty := ?_
      recorded := ?_ }
  · intro u hu
    rw [hval u]
    by_cases huv : u = v
    · subst huv
      rw [hAv, if_pos rfl, Finset.card_insert_of_not_mem hcA, hinv.card u hu]
    · rw [hA u huv, if_neg huv, hinv.card u hu]
  · intro u hu j hj
    by_cases huv : u = v
    · subst huv
      rw [hAv, Finset.mem_insert] at hj
      rcases hj with hj | hj
      · subst hj; exact hinv.palette u hu j hc
      · exact hinv.placed_lt u hu j hj
    · rw [hA u huv] at hj
      exact hinv.placed_lt u hu j hj
  · intro u hu j hj
    by_cases huv : u = v
    · subst huv
      rw [hAv, Finset.mem_insert] at hj
      rcases hj with hj | hj
      · subst hj; exact hown
      · exact hsubF u j (hinv.own u hu j hj)
    · rw [hA u huv] at hj
      exact hsubF u j (hinv.own u hu j hj)
  · intro u w huw j hj
    by_cases huv : u = v
    · subst huv
      rw [hAv, Finset.mem_insert] at hj
      rcases hj with hj | hj
      · subst hj; exact hprop w huw
      · exact hsubF w j (hinv.propagated u w huw j hj)
    · rw [hA u huv] at hj
      exact hsubF w j (hinv.propagated u w huw j hj)
  · intro u w huw
    have hnew : ∀ x y, Compete g x y → x = v → Disjoint (insert c (A x)) (A y) := by
      intro x y hxy hx
      subst hx
      rw [Finset.disjoint_insert_left]
      refine ⟨?_, hinv.disjoint x y hxy⟩
      intro hmem
      have := hinv.propagated y x (compete_symm g hsym x y hxy) c hmem
      rw [this] at hc
      exact Bool.noConfusion hc
    by_cases huv : u = v
    · have hwv : w ≠ v := fun e => huw.2.2.1 (by rw [huv, e])
      rw [hA w hwv, huv, hAv]
      exact hnew v w (by rw [← huv]; exact huw) rfl
    · rw [hA u huv]
      by_cases hwv : w = v
      · rw [hwv, hAv]
        exact (hnew v u (by rw [← hwv]; exact compete_symm g hsym u w huw) rfl).symm
      · rw [hA w hwv]
        exact hinv.disjoint u w huw
  · show C.size + 1 = _
    rw [sum_set_succ assigned v (by rw [hinv.assigned_len]; exact hv), hinv.size]
  · intro u hu
    rw [hval u]
    by_cases huv : u = v
    · rw [if_pos huv]; omega
    · rw [if_neg huv]; exact hinv.bounded u hu
  · intro u hu hf j hj
    rw [hval u] at hf
    by_cases huv : u = v
    · rw [if_pos huv] at hf
      rw [huv]
      exact hclear hf j hj
    · rw [if_neg huv] at hf
      exact hsubF u j (hinv.done_empty u hu hf j hj)
  · intro u hu hf
    rw [hval u] at hf
    show (C.vtx_colour.set v c).getD u 0 ∈ _
    rw [getD_set_list]
    by_cases huv : u = v
    · subst huv
      rw [if_pos ⟨rfl, by rw [hinv.colour_len]; exact hu⟩, hAv]
      exact Finset.mem_insert_self _ _
    · rw [if_neg huv] at hf
      rw [if_neg (fun e => huv e.1.symm), hA u huv]
      exact hinv.recorded u hu hf

/-! ## Popcounts -/

theorem countP_range_eq_card (p : Nat → Bool) (n : Nat) :
    (List.range n).countP p = ((Finset.range n).filter (fun j => p j = true)).card := by
  induction n with
  | zero => simp
  | succ n ih =>
    rw [List.range_succ, List.countP_append, ih, Finset.range_succ, Finset.filter_insert]
    by_cases hp : p n = true
    · rw [if_pos hp, Finset.card_insert_of_not_mem (by simp)]
      simp [hp]
    · rw [if_neg hp]
      simp [hp]

theorem bitset_popcount_card (b W : Nat) : bitset_popcount b W = (bits b W).card := by
  rw [bitset_popcount_eq, countP_range_eq_card]
  rfl

theorem mem_bits (b W j : Nat) : j ∈ bits b W ↔ j < 64 * W ∧ b.testBit j = true := by
  simp [bits]

theorem bits_unset_bit (b c W : Nat) : bits (unset_bit b c) W = (bits b W).erase c := by
  ext j
  rw [Finset.mem_erase, mem_bits, mem_bits, testBit_unset_bit]
  by_cases hj : j = c
  · simp [hj]
  · simp [hj]

theorem popcount_unset_of_set (b c W : Nat) (h : b.testBit c = true) (hc : c < 64 * W) :
    bitset_popcount (unset_bit b c) W + 1 = bitset_popcount b W := by
  rw [bitset_popcount_card, bitset_popcount_card, bits_unset_bit]
  have hmem : c ∈ bits b W := (mem_bits b W c).mpr ⟨hc, h⟩
  rw [Finset.card_erase_of_mem hmem]
  have : 0 < (bits b W).card := Finset.card_pos.mpr ⟨c, hmem⟩
  omega

theorem popcount_mono (b b' W : Nat) (h : ∀ j, b'.testBit j = true → b.testBit j = true) :
    bitset_popcount b' W ≤ bitset_popcount b W := by
  rw [bitset_popcount_card, bitset_popcount_card]
  apply Finset.card_le_card
  intro j hj
  rw [mem_bits] at hj ⊢
  exact ⟨hj.1, h j hj.2⟩

theorem popcount_unset_le (b c W : Nat) :
    bitset_popcount (unset_bit b c) W ≤ bitset_popcount b W := by
  apply popcount_mono
  intro j hj
  rw [testBit_unset_bit] at hj
  simp only [Bool.and_eq_true] at hj
  exact hj.1

theorem popcount_le_unset_succ (b c W : Nat) :
    bitset_popcount b W ≤ bitset_popcount (unset_bit b c) W + 1 := by
  rw [bitset_popcount_card, bitset_popcount_card, bits_unset_bit]
  have := @Finset.pred_card_le_card_erase _ (bits b W) c _
  omega

theorem popcount_eq_zero_iff (b W : Nat) :
    bitset_popcount b W = 0 ↔ ∀ j, j < 64 * W → b.testBit j = false := by
  rw [bitset_popcount_card, Finset.card_eq_zero]
  constructor
  · intro h j hj
    rw [Bool.eq_false_iff]
    intro hc
    have : j ∈ bits b W := (mem_bits b W j).mpr ⟨hj, hc⟩
    rw [h] at this
    exact Finset.not_mem_empty j this
  · intro h
    apply Finset.eq_empty_of_forall_not_mem
    intro j hj
    rw [mem_bits] at hj
    rw [h j hj.1] at hj
    exact Bool.noConfusion hj.2

theorem popcount_le (b W : Nat) : bitset_popcount b W ≤ 64 * W := by
  rw [bitset_popcount_card]
  have := Finset.card_filter_le (Finset.range (64 * W)) (fun j => b.testBit j = true)
  simpa [bits] using this

theorem first_set_bit_of_popcount (b W : Nat) (h : bitset_popcount b W ≠ 0) :
    ∃ c, first_set_bit b W = some c := by
  cases hf : first_set_bit b W with
  | some c => exact ⟨c, rfl⟩
  | none =>
    exfalso
    exact h ((popcount_eq_zero_iff b W).mpr (first_set_bit_none b W hf))

theorem popcount_set_first_n_bits (k W : Nat) (hk : k ≤ 64 * W) :
    bitset_popcount (set_first_n_bits 0 k) W = k := by
  rw [bitset_popcount_card]
  have : bits (set_first_n_bits 0 k) W = Finset.range k := by
    ext j
    rw [mem_bits, testBit_set_first_n_bits, Finset.mem_range]
    simp only [Nat.zero_testBit, Bool.false_or, decide_eq_true_eq]
    constructor
    · exact fun h => h.2
    · exact fun h => ⟨by omega, h⟩
  rw [this, Finset.card_range]

theorem bitset_empty_eq_false_iff (b W : Nat) :
    bitset_empty b W = false ↔ bitset_popcount b W ≠ 0 := by
  rw [Ne, popcount_eq_zero_iff, ← bitset_empty_iff]
  simp

/-! ## The sweep inside the unit propagation -/

theorem getD_set_same (l : List Nat) (w x : Nat) (h : w < l.length) :
    (l.set w x).getD w 0 = x := by
  rw [getD_set_list, if_pos ⟨rfl, h⟩]

theorem getD_set_other (l : List Nat) (w u x : Nat) (h : u ≠ w) :
    (l.set w x).getD u 0 = l.getD u 0 := by
  rw [getD_set_list, if_neg (fun e => h e.1.symm)]

theorem push_cond (a b f : Nat) : ((a != 0 && a + b == f) = true) ↔ (a ≠ 0 ∧ a + b = f) := by
  simp

/-- A sweep that does not meet a dead end keeps every vertex supplied and the
stack in order. -/
theorem sweep_total (g : ColouringGraph) (W f c : Nat) (asg : List Nat) (hc : c < 64 * W) :
    ∀ ws avail stack avail' stack', (∀ w ∈ ws, w < g.n) → avail.length = g.n →
      Enough g W f avail asg → StackOk g W f stack avail asg →
      unit_sweep c asg W f ws avail stack = some (avail', stack') →
      Enough g W f avail' asg ∧ StackOk g W f stack' avail' asg := by
  intro ws
  induction ws with
  | nil =>
    intro avail stack avail' stack' _ _ he hs h
    simp only [unit_sweep, Option.some.injEq, Prod.mk.injEq] at h
    rw [← h.1, ← h.2]
    exact ⟨he, hs⟩
  | cons w ws ih =>
    intro avail stack avail' stack' hws hlen he hs h
    have hw : w < g.n := hws w (List.mem_cons_self w ws)
    have hws' : ∀ x ∈ ws, x < g.n := fun x hx => hws x (List.mem_cons_of_mem w hx)
    rw [unit_sweep] at h
    by_cases ht : test_bit (avail.getD w 0) c = true
    · rw [if_pos ht] at h
      simp only [] at h
      have hbit : (avail.getD w 0).testBit c = true := by rw [← test_bit_eq]; exact ht
      have hrow : (avail.set w (unset_bit (avail.getD w 0) c)).getD w 0
          = unset_bit (avail.getD w 0) c := getD_set_same _ _ _ (by omega)
      have hpc := popcount_unset_of_set (avail.getD w 0) c W hbit hc
      rw [hrow] at h
      have hlen1 : (avail.set w (unset_bit (avail.getD w 0) c)).length = g.n := by
        rw [List.length_set]; exact hlen
      have hother : ∀ u, u ≠ w →
          (avail.set w (unset_bit (avail.getD w 0) c)).getD u 0 = avail.getD u 0 :=
        fun u hu => getD_set_other _ _ _ _ hu
      have hnotin : bitset_popcount (unset_bit (avail.getD w 0) c) W + asg.getD w 0 ≥ f →
          w ∉ stack := by
        intro hge hmem
        have := (hs.2 w hmem).2.2
        omega
      have hstack : w ∉ stack → StackOk g W f stack
          (avail.set w (unset_bit (avail.getD w 0) c)) asg := by
        intro hni
        refine ⟨hs.1, ?_⟩
        intro x hx
        have hxw : x ≠ w := fun e => hni (e ▸ hx)
        rw [hother x hxw]
        exact hs.2 x hx
      by_cases hpush : bitset_popcount (unset_bit (avail.getD w 0) c) W ≠ 0 ∧
          bitset_popcount (unset_bit (avail.getD w 0) c) W + asg.getD w 0 = f
      · rw [if_pos ((push_cond _ _ _).mpr hpush)] at h
        have hni := hnotin (by omega)
        refine ih _ _ _ _ hws' hlen1 ?_ ?_ h
        · intro u hu
          by_cases huw : u = w
          · subst huw; rw [hrow]; omega
          · rw [hother u huw]; exact he u hu
        · refine ⟨List.nodup_cons.mpr ⟨hni, hs.1⟩, ?_⟩
          intro x hx
          rcases List.mem_cons.mp hx with hx | hx
          · subst hx
            rw [hrow]
            exact ⟨hw, hpush.1, hpush.2⟩
          · exact (hstack hni).2 x hx
      · rw [if_neg (fun e => hpush ((push_cond _ _ _).mp e))] at h
        by_cases hdead : bitset_popcount (unset_bit (avail.getD w 0) c) W + asg.getD w 0 < f
        · rw [if_pos hdead] at h
          exact Option.noConfusion h
        · rw [if_neg hdead] at h
          have hni := hnotin (by omega)
          refine ih _ _ _ _ hws' hlen1 ?_ (hstack hni) h
          intro u hu
          by_cases huw : u = w
          · subst huw; rw [hrow]; omega
          · rw [hother u huw]; exact he u hu
    · rw [if_neg ht] at h
      exact ih _ _ _ _ hws' hlen he hs h

/-- A sweep meets no dead end when every row that loses the colour stays large
enough. -/
theorem sweep_no_dead_end (g : ColouringGraph) (W f c : Nat) (asg : List Nat) :
    ∀ ws avail stack, (∀ w ∈ ws, w < g.n) → avail.length = g.n →
      (∀ w ∈ ws, (avail.getD w 0).testBit c = true →
        f ≤ bitset_popcount (unset_bit (avail.getD w 0) c) W + asg.getD w 0) →
      unit_sweep c asg W f ws avail stack ≠ none := by
  intro ws
  induction ws with
  | nil => intro avail stack _ _ _; simp [unit_sweep]
  | cons w ws ih =>
    intro avail stack hws hlen hroom
    have hw : w < g.n := hws w (List.mem_cons_self w ws)
    have hws' : ∀ x ∈ ws, x < g.n := fun x hx => hws x (List.mem_cons_of_mem w hx)
    rw [unit_sweep]
    by_cases ht : test_bit (avail.getD w 0) c = true
    · rw [if_pos ht]
      simp only []
      have hbit : (avail.getD w 0).testBit c = true := by rw [← test_bit_eq]; exact ht
      have hrow : (avail.set w (unset_bit (avail.getD w 0) c)).getD w 0
          = unset_bit (avail.getD w 0) c := getD_set_same _ _ _ (by omega)
      rw [hrow]
      have hge := hroom w (List.mem_cons_self w ws) hbit
      have hlen1 : (avail.set w (unset_bit (avail.getD w 0) c)).length = g.n := by
        rw [List.length_set]; exact hlen
      have hroom1 : ∀ x ∈ ws,
          ((avail.set w (unset_bit (avail.getD w 0) c)).getD x 0).testBit c = true →
          f ≤ bitset_popcount
            (unset_bit ((avail.set w (unset_bit (avail.getD w 0) c)).getD x 0) c) W
              + asg.getD x 0 := by
        intro x hx hb
        by_cases hxw : x = w
        · subst hxw
          rw [hrow, testBit_unset_bit] at hb
          simp at hb
        · rw [getD_set_other _ _ _ _ hxw] at hb ⊢
          exact hroom x (List.mem_cons_of_mem w hx) hb
      split
      · exact ih _ _ hws' hlen1 hroom1
      · rw [if_neg (by omega)]
        exact ih _ _ hws' hlen1 hroom1
    · rw [if_neg ht]
      exact ih _ _ hws' hlen (fun x hx => hroom x (List.mem_cons_of_mem w hx))

/-! ## Slack and the number of set bits -/

theorem need_ge_self (g : ColouringGraph) (f : Nat) (asg : List Nat) (w : Nat) (hw : w < g.n) :
    f - asg.getD w 0 ≤ need g f asg w := by
  unfold need
  have hmem : w ∈ (Finset.range g.n).filter (fun u => u = w ∨ Compete g u w) := by
    simp [hw]
  exact Finset.single_le_sum (f := fun u => f - asg.getD u 0)
    (fun _ _ => Nat.zero_le _) hmem

theorem need_step (g : ColouringGraph) (f : Nat) (asg : List Nat) (v w : Nat) (hv : v < g.n)
    (hlen : v < asg.length) (hlt : asg.getD v 0 < f) :
    need g f (asg.set v (asg.getD v 0 + 1)) w + (if v = w ∨ Compete g v w then 1 else 0)
      = need g f asg w := by
  unfold need
  have hother : ∀ u, u ≠ v → (asg.set v (asg.getD v 0 + 1)).getD u 0 = asg.getD u 0 :=
    fun u hu => getD_set_other _ _ _ _ hu
  have hval : (asg.set v (asg.getD v 0 + 1)).getD v 0 = asg.getD v 0 + 1 :=
    getD_set_same _ _ _ hlen
  generalize hS : (Finset.range g.n).filter (fun u => u = w ∨ Compete g u w) = S
  by_cases hin : v = w ∨ Compete g v w
  · rw [if_pos hin]
    have hmem : v ∈ S := by
      rw [← hS]; simp [hv, hin]
    rw [← Finset.add_sum_erase S _ hmem, ← Finset.add_sum_erase S _ hmem]
    have hsame : (S.erase v).sum (fun u => f - (asg.set v (asg.getD v 0 + 1)).getD u 0)
        = (S.erase v).sum (fun u => f - asg.getD u 0) := by
      apply Finset.sum_congr rfl
      intro u hu
      rw [hother u (Finset.ne_of_mem_erase hu)]
    rw [hsame, hval]
    omega
  · rw [if_neg hin, Nat.add_zero]
    apply Finset.sum_congr rfl
    intro u hu
    have : u ≠ v := by
      intro e
      subst e
      rw [← hS] at hu
      simp only [Finset.mem_filter] at hu
      exact hin hu.2
    rw [hother u this]

/-- One placement keeps the slack: the count of `v` grows by one and every row
loses at most one colour, and none at all unless its vertex is `v` or competes
with `v`. -/
theorem slack_step (g : ColouringGraph) (W f : Nat) (avail asg avail2 : List Nat) (v : Nat)
    (hv : v < g.n) (hlen : asg.length = g.n) (hlt : asg.getD v 0 < f)
    (hslack : Slack g W f avail asg)
    (h1 : ∀ u, u < g.n → u ≠ v → ¬ Compete g v u →
      bitset_popcount (avail2.getD u 0) W = bitset_popcount (avail.getD u 0) W)
    (h2 : ∀ u, u < g.n → (asg.set v (asg.getD v 0 + 1)).getD u 0 < f →
      bitset_popcount (avail.getD u 0) W ≤ bitset_popcount (avail2.getD u 0) W + 1) :
    Slack g W f avail2 (asg.set v (asg.getD v 0 + 1)) := by
  intro w hw hwlt
  have hstep := need_step g f asg v w hv (by omega) hlt
  have hold : asg.getD w 0 < f := by
    by_cases hwv : w = v
    · rw [hwv]; exact hlt
    · rw [getD_set_other _ _ _ _ hwv] at hwlt; exact hwlt
  have hs := hslack w hw hold
  by_cases hin : v = w ∨ Compete g v w
  · rw [if_pos hin] at hstep
    have := h2 w hw hwlt
    omega
  · rw [if_neg hin] at hstep
    have hwv : w ≠ v := fun e => hin (Or.inl e.symm)
    have := h1 w hw hwv (fun e => hin (Or.inr e))
    omega

theorem sum_map_le (p : Nat → Nat) :
    ∀ (l l' : List Nat), l.length = l'.length →
      (∀ u, u < l.length → p (l'.getD u 0) ≤ p (l.getD u 0)) →
      (l'.map p).sum ≤ (l.map p).sum := by
  intro l
  induction l with
  | nil =>
    intro l' hlen _
    have : l' = [] := List.length_eq_zero.mp hlen.symm
    subst this; simp
  | cons x l ih =>
    intro l' hlen h
    cases l' with
    | nil => simp at hlen
    | cons y l' =>
      have h0 := h 0 (by simp)
      have hrest := ih l' (by simpa using hlen) (fun u hu => by
        have := h (u + 1) (by simpa using hu)
        simpa using this)
      simp only [List.getD_cons_zero] at h0
      simp only [List.map_cons, List.sum_cons]
      omega

theorem sum_map_lt (p : Nat → Nat) :
    ∀ (l l' : List Nat), l.length = l'.length →
      (∀ u, u < l.length → p (l'.getD u 0) ≤ p (l.getD u 0)) →
      ∀ v, v < l.length → p (l'.getD v 0) < p (l.getD v 0) →
      (l'.map p).sum < (l.map p).sum := by
  intro l
  induction l with
  | nil => intro l' _ _ v hv; simp at hv
  | cons x l ih =>
    intro l' hlen h v hv hlt
    cases l' with
    | nil => simp at hlen
    | cons y l' =>
      have h0 := h 0 (by simp)
      simp only [List.getD_cons_zero] at h0
      have hle : ∀ u, u < l.length → p (l'.getD u 0) ≤ p (l.getD u 0) := fun u hu => by
        have := h (u + 1) (by simpa using hu)
        simpa using this
      simp only [List.map_cons, List.sum_cons]
      cases v with
      | zero =>
        simp only [List.getD_cons_zero] at hlt
        have := sum_map_le p l l' (by simpa using hlen) hle
        omega
      | succ v =>
        have := ih l' (by simpa using hlen) hle v (by simpa using hv) (by simpa using hlt)
        omega

/-! ## Rows after a placement -/

theorem getD_unset_rows (c : Nat) (ws avail : List Nat) (u : Nat) :
    (unset_rows c ws avail).getD u 0
      = if u ∈ ws then unset_bit (avail.getD u 0) c else avail.getD u 0 := by
  apply Nat.eq_of_testBit_eq
  intro j
  rw [testBit_unset_rows]
  by_cases hu : u ∈ ws
  · rw [if_pos hu, testBit_unset_bit]; simp [hu]
  · rw [if_neg hu]; simp [hu]

/-- The rows after `solution_colour_vtx`. -/
theorem solution_colour_vtx_rows (C : Solution) (v c : Nat) (avail assigned : List Nat)
    (W f : Nat) (hva : v < assigned.length) :
    ∃ avail1, solution_colour_vtx C v c avail assigned W f
      = ({ size := C.size + 1, capacity := C.capacity, vtx_colour := C.vtx_colour.set v c },
          avail1, assigned.set v (assigned.getD v 0 + 1)) ∧
      avail1.length = avail.length ∧
      (∀ u, u ≠ v → avail1.getD u 0 = avail.getD u 0) ∧
      (∀ j, (avail1.getD v 0).testBit j = true → (unset_bit (avail.getD v 0) c).testBit j = true) ∧
      (assigned.getD v 0 + 1 ≠ f → avail1.getD v 0 = unset_bit (avail.getD v 0) c) ∧
      (assigned.getD v 0 + 1 = f → ∀ j, j < 64 * W → (avail1.getD v 0).testBit j = false) := by
  obtain ⟨avail1, h1, h2, h3⟩ := solution_colour_vtx_spec C v c avail assigned W f hva
  refine ⟨avail1, h1, h2, ?_, ?_, ?_, ?_⟩
  · intro u hu
    apply Nat.eq_of_testBit_eq
    intro j
    rw [h3 u j]; simp [hu]
  · intro j hj
    rw [h3 v j] at hj
    rw [testBit_unset_bit]
    by_cases hjc : j = c
    · rw [decide_eq_true hjc] at hj
      simp at hj
    · rw [decide_eq_false hjc]
      simp only [Bool.and_eq_true] at hj
      rw [hj.1]
      rfl
  · intro hf
    apply Nat.eq_of_testBit_eq
    intro j
    rw [h3 v j, testBit_unset_bit, decide_eq_false hf]
    simp
  · intro hf j hj
    rw [h3 v j, decide_eq_true hf, decide_eq_true hj]
    simp

theorem popcount_le_total_bits (W : Nat) (avail : List Nat) (v : Nat) (hv : v < avail.length) :
    bitset_popcount (avail.getD v 0) W ≤ total_bits W avail := by
  unfold total_bits
  induction avail generalizing v with
  | nil => simp at hv
  | cons x l ih =>
    cases v with
    | zero => simp
    | succ v =>
      have := ih v (by simpa using hv)
      simp only [List.getD_cons_succ, List.map_cons, List.sum_cons]
      omega

theorem total_bits_le_of_sub (W : Nat) (avail avail' : List Nat)
    (hlen : avail.length = avail'.length)
    (h : ∀ u j, (avail'.getD u 0).testBit j = true → (avail.getD u 0).testBit j = true) :
    total_bits W avail' ≤ total_bits W avail := by
  unfold total_bits
  exact sum_map_le (fun b => bitset_popcount b W) avail avail' hlen
    (fun u _ => popcount_mono _ _ W (h u))

theorem total_bits_lt_of_sub (W : Nat) (avail avail' : List Nat)
    (hlen : avail.length = avail'.length)
    (h : ∀ u j, (avail'.getD u 0).testBit j = true → (avail.getD u 0).testBit j = true)
    (v : Nat) (hv : v < avail.length)
    (hlt : bitset_popcount (avail'.getD v 0) W < bitset_popcount (avail.getD v 0) W) :
    total_bits W avail' < total_bits W avail := by
  unfold total_bits
  exact sum_map_lt (fun b => bitset_popcount b W) avail avail' hlen
    (fun u _ => popcount_mono _ _ W (h u)) v hv hlt

theorem total_bits_le (W : Nat) (avail : List Nat) :
    total_bits W avail ≤ avail.length * (64 * W) := by
  unfold total_bits
  have := sum_le_of_bounded (avail.map (fun b => bitset_popcount b W)) (64 * W)
    (fun x hx => by
      obtain ⟨b, _, hb⟩ := List.mem_map.mp hx
      rw [← hb]
      exact popcount_le b W)
  rwa [List.length_map] at this

/-! ## Consequences of a placement -/

theorem not_mem_non_neighbours_self (g : ColouringGraph) (hl : ListsBuilt g) (v : Nat)
    (hv : v < g.n) : v ∉ non_neighbours g v := by
  intro h
  exact ((mem_non_neighbours g hl v v hv).mp h).2.1 rfl

theorem mem_non_neighbours_iff_compete (g : ColouringGraph) (hl : ListsBuilt g) (v w : Nat)
    (hv : v < g.n) : w ∈ non_neighbours g v ↔ Compete g v w := by
  rw [mem_non_neighbours g hl v w hv]
  unfold Compete
  constructor
  · rintro ⟨h1, h2, h3⟩
    exact ⟨hv, h1, fun e => h2 e.symm, h3⟩
  · rintro ⟨_, h1, h2, h3⟩
    exact ⟨h1, fun e => h2 e.symm, h3⟩

theorem rowsAfter_sub (g : ColouringGraph) (W f : Nat) (avail asg : List Nat) (v c : Nat)
    (R : List Nat) (h : RowsAfter g W f avail asg v c R) :
    ∀ u j, (R.getD u 0).testBit j = true → (avail.getD u 0).testBit j = true := by
  intro u j hj
  by_cases huv : u = v
  · subst huv
    have := h.2.2.1 j hj
    rw [testBit_unset_bit] at this
    simp only [Bool.and_eq_true] at this
    exact this.1
  · rw [h.2.1 u huv] at hj
    split at hj
    · rw [testBit_unset_bit] at hj
      simp only [Bool.and_eq_true] at hj
      exact hj.1
    · exact hj

/-- After a placement the invariant holds for the new rows. -/
theorem rowsAfter_inv (g : ColouringGraph) (hl : ListsBuilt g) (hsym : SymmetricMatrix g)
    (W k f : Nat) (A : Nat → Finset Nat) (C : Solution) (avail asg : List Nat)
    (hinv : SearchInv g W k f A C avail asg) (v c : Nat) (hv : v < g.n)
    (hc : (avail.getD v 0).testBit c = true) (hcW : c < 64 * W)
    (R : List Nat) (h : RowsAfter g W f avail asg v c R) :
    SearchInv g W k f (Function.update A v (insert c (A v)))
      { size := C.size + 1, capacity := C.capacity, vtx_colour := C.vtx_colour.set v c }
      R (asg.set v (asg.getD v 0 + 1)) := by
  apply place_step g hsym W k f A C avail asg hinv v c hv hc hcW R
  · rw [h.1]; exact hinv.avail_len
  · exact rowsAfter_sub g W f avail asg v c R h
  · rw [Bool.eq_false_iff]
    intro hb
    have := h.2.2.1 c hb
    rw [testBit_unset_bit] at this
    simp at this
  · intro w hw
    have hmem := (mem_non_neighbours_iff_compete g hl v w hv).mpr hw
    have hwv : w ≠ v := fun e => hw.2.2.1 e.symm
    rw [h.2.1 w hwv, if_pos hmem, testBit_unset_bit]
    simp
  · exact h.2.2.2.2

/-- After a placement the slack is kept. -/
theorem rowsAfter_slack (g : ColouringGraph) (hl : ListsBuilt g)
    (W k f : Nat) (A : Nat → Finset Nat) (C : Solution) (avail asg : List Nat)
    (hinv : SearchInv g W k f A C avail asg) (v c : Nat) (hv : v < g.n)
    (hc : (avail.getD v 0).testBit c = true) (hcW : c < 64 * W)
    (R : List Nat) (h : RowsAfter g W f avail asg v c R)
    (hslack : Slack g W f avail asg) :
    Slack g W f R (asg.set v (asg.getD v 0 + 1)) := by
  have hlt : asg.getD v 0 < f := by
    rcases Nat.lt_or_ge (asg.getD v 0) f with h1 | h1
    · exact h1
    · have he : asg.getD v 0 = f := Nat.le_antisymm (hinv.bounded v hv) h1
      rw [hinv.done_empty v hv he c hcW] at hc
      exact Bool.noConfusion hc
  apply slack_step g W f avail asg R v hv hinv.assigned_len hlt hslack
  · intro u _ huv hnc
    have : u ∉ non_neighbours g v :=
      fun hm => hnc ((mem_non_neighbours_iff_compete g hl v u hv).mp hm)
    rw [h.2.1 u huv, if_neg this]
  · intro u _ hult
    by_cases huv : u = v
    · subst huv
      rw [getD_set_same _ _ _ (by rw [hinv.assigned_len]; exact hv)] at hult
      rw [h.2.2.2.1 (by omega)]
      exact popcount_le_unset_succ _ _ _
    · rw [h.2.1 u huv]
      split
      · exact popcount_le_unset_succ _ _ _
      · omega

/-- After a placement the rows hold fewer set bits. -/
theorem rowsAfter_total_bits (g : ColouringGraph) (W f : Nat) (avail asg : List Nat) (v c : Nat)
    (hv : v < avail.length) (hc : (avail.getD v 0).testBit c = true) (hcW : c < 64 * W)
    (R : List Nat) (h : RowsAfter g W f avail asg v c R) :
    total_bits W R < total_bits W avail := by
  apply total_bits_lt_of_sub W avail R h.1.symm (rowsAfter_sub g W f avail asg v c R h) v hv
  have h1 := popcount_mono _ _ W (h.2.2.1)
  have h2 := popcount_unset_of_set (avail.getD v 0) c W hc hcW
  omega

/-! ## Rows of the two loops and the frame -/

/-- The rows after the placement and the sweep of one round of the unit
propagation. -/
theorem rowsAfter_unit (g : ColouringGraph) (hl : ListsBuilt g) (W f : Nat)
    (avail asg avail1 : List Nat) (v c : Nat) (hv : v < g.n)
    (h1 : avail1.length = avail.length)
    (h2 : ∀ u, u ≠ v → avail1.getD u 0 = avail.getD u 0)
    (h3 : ∀ j, (avail1.getD v 0).testBit j = true →
      (unset_bit (avail.getD v 0) c).testBit j = true)
    (h4 : asg.getD v 0 + 1 ≠ f → avail1.getD v 0 = unset_bit (avail.getD v 0) c)
    (h5 : asg.getD v 0 + 1 = f → ∀ j, j < 64 * W → (avail1.getD v 0).testBit j = false) :
    RowsAfter g W f avail asg v c (unset_rows c (non_neighbours g v) avail1) := by
  have hvn := not_mem_non_neighbours_self g hl v hv
  have hrv : (unset_rows c (non_neighbours g v) avail1).getD v 0 = avail1.getD v 0 := by
    rw [getD_unset_rows, if_neg hvn]
  refine ⟨by rw [length_unset_rows, h1], ?_, ?_, ?_, ?_⟩
  · intro u hu
    rw [getD_unset_rows, h2 u hu]
  · rw [hrv]; exact h3
  · rw [hrv]; exact h4
  · rw [hrv]; exact h5

/-- The rows after the sweep and the placement of one round of the trial
loop. -/
theorem rowsAfter_trial (g : ColouringGraph) (hl : ListsBuilt g) (W f : Nat)
    (avail asg avail1 : List Nat) (v c : Nat) (hv : v < g.n)
    (h1 : avail1.length = (unset_rows c (non_neighbours g v) avail).length)
    (h2 : ∀ u, u ≠ v → avail1.getD u 0 = (unset_rows c (non_neighbours g v) avail).getD u 0)
    (h3 : ∀ j, (avail1.getD v 0).testBit j = true →
      (unset_bit ((unset_rows c (non_neighbours g v) avail).getD v 0) c).testBit j = true)
    (h4 : asg.getD v 0 + 1 ≠ f →
      avail1.getD v 0 = unset_bit ((unset_rows c (non_neighbours g v) avail).getD v 0) c)
    (h5 : asg.getD v 0 + 1 = f → ∀ j, j < 64 * W → (avail1.getD v 0).testBit j = false) :
    RowsAfter g W f avail asg v c avail1 := by
  have hvn := not_mem_non_neighbours_self g hl v hv
  have hrv : (unset_rows c (non_neighbours g v) avail).getD v 0 = avail.getD v 0 := by
    rw [getD_unset_rows, if_neg hvn]
  rw [hrv] at h3 h4
  refine ⟨by rw [h1, length_unset_rows], ?_, h3, h4, h5⟩
  intro u hu
  rw [h2 u hu, getD_unset_rows]

theorem framed_refl (g : ColouringGraph) (f : Nat) (asg : List Nat) (C : Solution) :
    Framed g f asg C C := ⟨rfl, rfl, fun _ _ _ => rfl⟩

theorem framed_trans (g : ColouringGraph) (f : Nat) (asg asg1 : List Nat) (C C1 C2 : Solution)
    (h1 : Framed g f asg C C1) (h2 : Framed g f asg1 C1 C2)
    (hmono : ∀ u, asg.getD u 0 = f → asg1.getD u 0 = f) : Framed g f asg C C2 := by
  refine ⟨h2.1.trans h1.1, h2.2.1.trans h1.2.1, ?_⟩
  intro u hu hf
  rw [h2.2.2 u hu (hmono u hf), h1.2.2 u hu hf]

theorem framed_place (g : ColouringGraph) (f : Nat) (asg : List Nat) (C : Solution) (v c : Nat)
    (hlt : asg.getD v 0 < f) :
    Framed g f asg C
      { size := C.size + 1, capacity := C.capacity, vtx_colour := C.vtx_colour.set v c } := by
  refine ⟨rfl, by simp, ?_⟩
  intro u _ hf
  have : u ≠ v := by
    intro e; subst e; omega
  show (C.vtx_colour.set v c).getD u 0 = _
  rw [getD_set_other _ _ _ _ this]

theorem framed_size (g : ColouringGraph) (f : Nat) (asg : List Nat) (C C' : Solution) (s : Nat)
    (h : Framed g f asg C C') : Framed g f asg C (solution_resize C' s) := h

theorem assigned_lt_of_bit (g : ColouringGraph) (W k f : Nat) (A : Nat → Finset Nat)
    (C : Solution) (avail asg : List Nat) (hinv : SearchInv g W k f A C avail asg) (v c : Nat)
    (hv : v < g.n) (hc : (avail.getD v 0).testBit c = true) (hcW : c < 64 * W) :
    asg.getD v 0 < f := by
  rcases Nat.lt_or_ge (asg.getD v 0) f with h1 | h1
  · exact h1
  · have he : asg.getD v 0 = f := Nat.le_antisymm (hinv.bounded v hv) h1
    rw [hinv.done_empty v hv he c hcW] at hc
    exact Bool.noConfusion hc

/-! ## The unit propagation -/

/-- The unit propagation: it returns without a fault; the recorded colours of
finished vertices are kept; under slack it meets no dead end; and if it meets
none, the invariant holds for what it returns. -/
theorem unit_propagation_spec (g : ColouringGraph) (hl : ListsBuilt g)
    (hsym : SymmetricMatrix g) (W k f : Nat) :
    ∀ fuel stack C avail asg A,
      SearchInv g W k f A C avail asg → Enough g W f avail asg →
      StackOk g W f stack avail asg → total_bits W avail ≤ fuel →
      ∃ C' r, unit_propagation g W f fuel stack C avail asg = .ok (C', r) ∧
        Framed g f asg C C' ∧
        (Slack g W f avail asg → r ≠ none) ∧
        ∀ avail' asg', r = some (avail', asg') →
          ∃ A', SearchInv g W k f A' C' avail' asg' ∧ Enough g W f avail' asg' ∧
            (∀ u, asg.getD u 0 = f → asg'.getD u 0 = f) ∧ C.size ≤ C'.size ∧
            (Slack g W f avail asg → Slack g W f avail' asg') := by
  intro fuel
  induction fuel with
  | zero =>
    intro stack C avail asg A hinv hen hst hfuel
    cases stack with
    | nil =>
      refine ⟨C, some (avail, asg), by simp [unit_propagation], framed_refl g f asg C,
        fun _ => by simp, ?_⟩
      intro avail' asg' h
      simp only [Option.some.injEq, Prod.mk.injEq] at h
      obtain ⟨rfl, rfl⟩ := h
      exact ⟨A, hinv, hen, fun _ h => h, Nat.le_refl _, fun h => h⟩
    | cons v stack =>
      exfalso
      obtain ⟨hv, hpc, _⟩ := hst.2 v (List.mem_cons_self v stack)
      have := popcount_le_total_bits W avail v (by rw [hinv.avail_len]; exact hv)
      omega
  | succ fuel ih =>
    intro stack C avail asg A hinv hen hst hfuel
    cases stack with
    | nil =>
      refine ⟨C, some (avail, asg), by simp [unit_propagation], framed_refl g f asg C,
        fun _ => by simp, ?_⟩
      intro avail' asg' h
      simp only [Option.some.injEq, Prod.mk.injEq] at h
      obtain ⟨rfl, rfl⟩ := h
      exact ⟨A, hinv, hen, fun _ h => h, Nat.le_refl _, fun h => h⟩
    | cons v stack =>
      obtain ⟨hv, hpc, hsum⟩ := hst.2 v (List.mem_cons_self v stack)
      have hvs : v ∉ stack := (List.nodup_cons.mp hst.1).1
      have hnd : stack.Nodup := (List.nodup_cons.mp hst.1).2
      obtain ⟨c, hfsb⟩ := first_set_bit_of_popcount _ W hpc
      obtain ⟨hbit, hcW⟩ := first_set_bit_some _ W c hfsb
      have hva : v < asg.length := by rw [hinv.assigned_len]; exact hv
      have hval : v < avail.length := by rw [hinv.avail_len]; exact hv
      have hlt := assigned_lt_of_bit g W k f A C avail asg hinv v c hv hbit hcW
      obtain ⟨avail1, hplace, p1, p2, p3, p4, p5⟩ :=
        solution_colour_vtx_rows C v c avail asg W f hva
      have hasg1v : (asg.set v (asg.getD v 0 + 1)).getD v 0 = asg.getD v 0 + 1 :=
        getD_set_same _ _ _ hva
      have hasg1 : ∀ u, u ≠ v → (asg.set v (asg.getD v 0 + 1)).getD u 0 = asg.getD u 0 :=
        fun u hu => getD_set_other _ _ _ _ hu
      have hpcv := popcount_unset_of_set (avail.getD v 0) c W hbit hcW
      -- the state after the placement
      have hen1 : Enough g W f avail1 (asg.set v (asg.getD v 0 + 1)) := by
        intro u hu
        by_cases huv : u = v
        · subst huv
          rw [hasg1v]
          by_cases hf : asg.getD u 0 + 1 = f
          · omega
          · rw [p4 hf]; omega
        · rw [p2 u huv, hasg1 u huv]; exact hen u hu
      have hst1 : StackOk g W f
          (if (asg.set v (asg.getD v 0 + 1)).getD v 0 != f then v :: stack else stack)
          avail1 (asg.set v (asg.getD v 0 + 1)) := by
        have hold : ∀ x ∈ stack, x < g.n ∧ bitset_popcount (avail1.getD x 0) W ≠ 0 ∧
            bitset_popcount (avail1.getD x 0) W + (asg.set v (asg.getD v 0 + 1)).getD x 0
              = f := by
          intro x hx
          have hxv : x ≠ v := fun e => hvs (e ▸ hx)
          rw [p2 x hxv, hasg1 x hxv]
          exact hst.2 x (List.mem_cons_of_mem v hx)
        rw [hasg1v]
        by_cases hf : asg.getD v 0 + 1 = f
        · rw [if_neg (fun e => (bne_iff_ne.mp e) hf)]
          exact ⟨hnd, hold⟩
        · rw [if_pos (bne_iff_ne.mpr hf)]
          refine ⟨hst.1, ?_⟩
          intro x hx
          rcases List.mem_cons.mp hx with hx | hx
          · subst hx
            rw [p4 hf, hasg1v]
            refine ⟨hv, ?_, ?_⟩ <;> omega
          · exact hold x hx
      have hnn : ∀ w ∈ non_neighbours g v, w < g.n :=
        fun w hw => ((mem_non_neighbours g hl v w hv).mp hw).1
      have hR := rowsAfter_unit g hl W f avail asg avail1 v c hv p1 p2 p3 p4 p5
      have hinvR := rowsAfter_inv g hl hsym W k f A C avail asg hinv v c hv hbit hcW _ hR
      have hframe1 := framed_place g f asg C v c hlt
      have hmono1 : ∀ u, asg.getD u 0 = f → (asg.set v (asg.getD v 0 + 1)).getD u 0 = f := by
        intro u hu
        have : u ≠ v := by intro e; subst e; omega
        rw [hasg1 u this]; exact hu
      rw [unit_propagation, hfsb]
      simp only [hplace]
      cases hsw : unit_sweep c (asg.set v (asg.getD v 0 + 1)) W f (non_neighbours g v) avail1
          (if (asg.set v (asg.getD v 0 + 1)).getD v 0 != f then v :: stack else stack) with
      | none =>
        refine ⟨_, none, rfl, hframe1, ?_, fun _ _ h => Option.noConfusion h⟩
        intro hslack _
        have hslR := rowsAfter_slack g hl W k f A C avail asg hinv v c hv hbit hcW _ hR hslack
        refine sweep_no_dead_end g W f c _ _ avail1 _ hnn (by rw [p1]; exact hinv.avail_len)
          ?_ hsw
        intro w hw hwb
        have hwn := hnn w hw
        have hwv : w ≠ v := ((mem_non_neighbours g hl v w hv).mp hw).2.1
        have hwlt : (asg.set v (asg.getD v 0 + 1)).getD w 0 < f := by
          rw [hasg1 w hwv]
          rw [p2 w hwv] at hwb
          exact assigned_lt_of_bit g W k f A C avail asg hinv w c hwn hwb hcW
        have h1 := hslR w hwn hwlt
        have h2 := need_ge_self g f (asg.set v (asg.getD v 0 + 1)) w hwn
        rw [getD_unset_rows, if_pos hw] at h1
        omega
      | some r =>
        obtain ⟨avail2, stack2⟩ := r
        have hav2 := unit_sweep_avail c _ W f _ _ _ _ _ hsw
        subst hav2
        obtain ⟨hen2, hst2⟩ := sweep_total g W f c _ hcW _ _ _ _ _ hnn
          (by rw [p1]; exact hinv.avail_len) hen1 hst1 hsw
        have hbits := rowsAfter_total_bits g W f avail asg v c hval hbit hcW _ hR
        obtain ⟨C', r, hrun, hframe, hdead, hsome⟩ :=
          ih stack2 _ _ _ _ hinvR hen2 hst2 (by omega)
        refine ⟨C', r, hrun, framed_trans g f asg _ C _ C' hframe1 hframe hmono1, ?_, ?_⟩
        · intro hslack
          exact hdead
            (rowsAfter_slack g hl W k f A C avail asg hinv v c hv hbit hcW _ hR hslack)
        · intro avail' asg' hr
          obtain ⟨A', i1, i2, i3, i4, i5⟩ := hsome avail' asg' hr
          refine ⟨A', i1, i2, fun u hu => i3 u (hmono1 u hu), ?_, ?_⟩
          · have : C.size + 1 ≤ C'.size := i4
            omega
          · intro hslack
            exact i5
              (rowsAfter_slack g hl W k f A C avail asg hinv v c hv hbit hcW _ hR hslack)

/-! ## The first loop of the unit propagation -/

/-- The first loop of the unit propagation. -/
theorem unit_scan_spec (g : ColouringGraph) (W f : Nat) (avail asg : List Nat) :
    ∀ is stack0, (∀ i ∈ is, i < g.n) → is.Nodup → (∀ x ∈ stack0, x ∉ is) →
      StackOk g W f stack0 avail asg →
      (∀ stack, unit_scan avail asg W f is stack0 = some stack →
        (∀ i ∈ is, f ≤ bitset_popcount (avail.getD i 0) W + asg.getD i 0) ∧
        StackOk g W f stack avail asg) ∧
      ((∀ i ∈ is, f ≤ bitset_popcount (avail.getD i 0) W + asg.getD i 0) →
        unit_scan avail asg W f is stack0 ≠ none) := by
  intro is
  induction is with
  | nil =>
    intro stack0 _ _ _ hst
    refine ⟨?_, fun _ => by simp [unit_scan]⟩
    intro stack h
    simp only [unit_scan, Option.some.injEq] at h
    subst h
    exact ⟨fun i hi => absurd hi (List.not_mem_nil i), hst⟩
  | cons i is ih =>
    intro stack0 his hnd hdisj hst
    have hi : i < g.n := his i (List.mem_cons_self i is)
    have his' : ∀ x ∈ is, x < g.n := fun x hx => his x (List.mem_cons_of_mem i hx)
    have hnd' : is.Nodup := (List.nodup_cons.mp hnd).2
    have hni : i ∉ is := (List.nodup_cons.mp hnd).1
    have hdisj' : ∀ x ∈ stack0, x ∉ is :=
      fun x hx hxi => hdisj x hx (List.mem_cons_of_mem i hxi)
    rw [unit_scan]
    by_cases hpush : bitset_popcount (avail.getD i 0) W ≠ 0 ∧
        bitset_popcount (avail.getD i 0) W + asg.getD i 0 = f
    · rw [if_pos ((push_cond _ _ _).mpr hpush)]
      have hst1 : StackOk g W f (i :: stack0) avail asg := by
        refine ⟨List.nodup_cons.mpr ⟨?_, hst.1⟩, ?_⟩
        · intro hmem
          exact hdisj i hmem (List.mem_cons_self i is)
        · intro x hx
          rcases List.mem_cons.mp hx with hx | hx
          · subst hx; exact ⟨hi, hpush.1, hpush.2⟩
          · exact hst.2 x hx
      have hd1 : ∀ x ∈ i :: stack0, x ∉ is := by
        intro x hx
        rcases List.mem_cons.mp hx with hx | hx
        · subst hx; exact hni
        · exact hdisj' x hx
      obtain ⟨h1, h2⟩ := ih (i :: stack0) his' hnd' hd1 hst1
      refine ⟨?_, fun hall => h2 (fun x hx => hall x (List.mem_cons_of_mem i hx))⟩
      intro stack h
      obtain ⟨h3, h4⟩ := h1 stack h
      refine ⟨?_, h4⟩
      intro x hx
      rcases List.mem_cons.mp hx with hx | hx
      · subst hx; omega
      · exact h3 x hx
    · rw [if_neg (fun e => hpush ((push_cond _ _ _).mp e))]
      by_cases hdead : bitset_popcount (avail.getD i 0) W + asg.getD i 0 < f
      · rw [if_pos hdead]
        refine ⟨fun stack h => Option.noConfusion h, ?_⟩
        intro hall
        have := hall i (List.mem_cons_self i is)
        omega
      · rw [if_neg hdead]
        obtain ⟨h1, h2⟩ := ih stack0 his' hnd' hdisj' hst
        refine ⟨?_, fun hall => h2 (fun x hx => hall x (List.mem_cons_of_mem i hx))⟩
        intro stack h
        obtain ⟨h3, h4⟩ := h1 stack h
        refine ⟨?_, h4⟩
        intro x hx
        rcases List.mem_cons.mp hx with hx | hx
        · subst hx; omega
        · exact h3 x hx

/-- The first loop of the unit propagation, over all the vertices. -/
theorem unit_scan_range (g : ColouringGraph) (W f : Nat) (avail asg : List Nat) :
    (∀ stack, unit_scan avail asg W f (List.range g.n) [] = some stack →
      Enough g W f avail asg ∧ StackOk g W f stack avail asg) ∧
    (Enough g W f avail asg → unit_scan avail asg W f (List.range g.n) [] ≠ none) := by
  obtain ⟨h1, h2⟩ := unit_scan_spec g W f avail asg (List.range g.n) []
    (fun i hi => List.mem_range.mp hi) (List.nodup_range g.n)
    (fun x hx => absurd hx (List.not_mem_nil x))
    ⟨List.nodup_nil, fun x hx => absurd hx (List.not_mem_nil x)⟩
  refine ⟨?_, ?_⟩
  · intro stack h
    obtain ⟨h3, h4⟩ := h1 stack h
    exact ⟨fun v hv => h3 v (List.mem_range.mpr hv), h4⟩
  · intro hen
    exact h2 (fun i hi => hen i (List.mem_range.mp hi))

/-- Under slack every vertex has enough colours. -/
theorem enough_of_slack (g : ColouringGraph) (W f : Nat) (avail asg : List Nat)
    (hslack : Slack g W f avail asg) : Enough g W f avail asg := by
  intro v hv
  rcases Nat.lt_or_ge (asg.getD v 0) f with h | h
  · have h1 := hslack v hv h
    have h2 := need_ge_self g f asg v hv
    omega
  · omega

/-! ## The branching vertex -/

theorem best_count_vertices_spec (avail : List Nat) (W n : Nat) :
    (∀ x ∈ (best_count_vertices avail W n).2,
      x < n ∧ bitset_empty (avail.getD x 0) W = false) ∧
    ((∀ x, x < n → bitset_popcount (avail.getD x 0) W ≤ INT_MAX) →
      (best_count_vertices avail W n).2 = [] →
      ∀ x, x < n → bitset_empty (avail.getD x 0) W = true) := by
  unfold best_count_vertices
  have key := @foldl_range_induction (Nat × List Nat)
    (fun i acc =>
      (∀ x ∈ acc.2, x < i ∧ bitset_empty (avail.getD x 0) W = false) ∧
      ((∀ x, x < n → bitset_popcount (avail.getD x 0) W ≤ INT_MAX) →
        acc.1 ≤ INT_MAX ∧
        (acc.2 = [] → acc.1 = INT_MAX ∧ ∀ x, x < i → bitset_empty (avail.getD x 0) W = true)))
    (fun (acc : Nat × List Nat) i =>
      if bitset_empty (avail.getD i 0) W then acc
      else
        let available_class_count := bitset_popcount (avail.getD i 0) W
        let acc := if available_class_count < acc.1 then (available_class_count, []) else acc
        if available_class_count == acc.1 then (acc.1, acc.2 ++ [i]) else acc)
    (INT_MAX, []) n ?_ ?_
  · exact ⟨key.1, fun hb hnil => (key.2 hb).2 hnil |>.2⟩
  · refine ⟨fun x hx => absurd hx (List.not_mem_nil x), fun _ => ⟨Nat.le_refl _, fun _ => ?_⟩⟩
    exact ⟨rfl, fun x hx => absurd hx (Nat.not_lt_zero x)⟩
  · intro i acc hi ⟨h1, h2⟩
    beta_reduce
    have hold : ∀ x ∈ acc.2, x < i + 1 ∧ bitset_empty (avail.getD x 0) W = false :=
      fun x hx => ⟨Nat.lt_succ_of_lt (h1 x hx).1, (h1 x hx).2⟩
    by_cases he : bitset_empty (avail.getD i 0) W = true
    · rw [if_pos he]
      refine ⟨hold, fun hb => ⟨(h2 hb).1, fun hnil => ⟨((h2 hb).2 hnil).1, ?_⟩⟩⟩
      intro x hx
      rcases Nat.lt_succ_iff_lt_or_eq.mp hx with hlt | heq
      · exact ((h2 hb).2 hnil).2 x hlt
      · rw [heq]; exact he
    · rw [if_neg he]
      have hne : bitset_empty (avail.getD i 0) W = false := by
        cases h : bitset_empty (avail.getD i 0) W with
        | true => exact absurd h he
        | false => rfl
      simp only []
      by_cases hlt : bitset_popcount (avail.getD i 0) W < acc.1
      · rw [if_pos hlt]
        simp only [beq_self_eq_true, if_true, List.nil_append]
        refine ⟨?_, fun hb => ⟨hb i hi, fun hnil => absurd hnil (List.cons_ne_nil _ _)⟩⟩
        intro x hx
        rw [List.mem_singleton] at hx
        subst hx
        exact ⟨Nat.lt_succ_self _, hne⟩
      · rw [if_neg hlt]
        by_cases heq : bitset_popcount (avail.getD i 0) W = acc.1
        · rw [if_pos (beq_iff_eq.mpr heq)]
          refine ⟨?_, fun hb => ⟨(h2 hb).1, fun hnil => ?_⟩⟩
          · intro x hx
            rcases List.mem_append.mp hx with hx | hx
            · exact hold x hx
            · rw [List.mem_singleton] at hx
              subst hx
              exact ⟨Nat.lt_succ_self _, hne⟩
          · exfalso
            simp at hnil
        · rw [if_neg (fun e => heq (beq_iff_eq.mp e))]
          refine ⟨hold, fun hb => ⟨(h2 hb).1, fun hnil => ?_⟩⟩
          exfalso
          have := ((h2 hb).2 hnil).1
          have := hb i hi
          omega

theorem best_scoring_vertex_spec (vs scores : List Nat) :
    (∀ v, best_scoring_vertex vs scores = some v → v ∈ vs) ∧
    (vs ≠ [] → ∃ v, best_scoring_vertex vs scores = some v) := by
  unfold best_scoring_vertex
  have key := @foldl_range_induction (Option Nat × Int)
    (fun i acc =>
      (∀ v, acc.1 = some v → v ∈ vs) ∧ (acc.1 = none → i = 0 ∧ acc.2 = -1))
    (fun (acc : Option Nat × Int) i =>
      if (scores.getD i 0 : Int) > acc.2 then (some (vs.getD i 0), (scores.getD i 0 : Int))
      else acc)
    ((none : Option Nat), (-1 : Int)) vs.length ?_ ?_
  · refine ⟨key.1, ?_⟩
    intro hne
    cases h : (List.foldl
      (fun (acc : Option Nat × Int) i =>
        if (scores.getD i 0 : Int) > acc.2 then (some (vs.getD i 0), (scores.getD i 0 : Int))
        else acc) ((none : Option Nat), (-1 : Int)) (List.range vs.length)).1 with
    | some v => exact ⟨v, rfl⟩
    | none =>
      exfalso
      have := (key.2 h).1
      exact hne (List.length_eq_zero.mp this)
  · exact ⟨fun v h => Option.noConfusion h, fun _ => ⟨rfl, rfl⟩⟩
  · intro i acc hi ⟨h1, h2⟩
    beta_reduce
    by_cases hgt : (scores.getD i 0 : Int) > acc.2
    · rw [if_pos hgt]
      refine ⟨?_, fun h => Option.noConfusion h⟩
      intro v hv
      simp only [Option.some.injEq] at hv
      rw [← hv]
      exact getD_mem_of_lt vs i hi
    · rw [if_neg hgt]
      refine ⟨h1, ?_⟩
      intro hnone
      exfalso
      have := (h2 hnone).2
      rw [this] at hgt
      apply hgt
      have : (0 : Int) ≤ (scores.getD i 0 : Int) := Int.ofNat_nonneg _
      omega

/-- The branching vertex is a vertex with a non-empty row, and there is one as
soon as some row is non-empty (and no popcount exceeds `INT_MAX`). -/
theorem choose_branching_vertex_spec (g : ColouringGraph) (avail : List Nat) (W : Nat) :
    (∀ v, choose_branching_vertex g avail W = some v →
      v < g.n ∧ bitset_empty (avail.getD v 0) W = false) ∧
    ((∀ x, x < g.n → bitset_popcount (avail.getD x 0) W ≤ INT_MAX) →
      (∃ x, x < g.n ∧ bitset_empty (avail.getD x 0) W = false) →
      ∃ v, choose_branching_vertex g avail W = some v) := by
  unfold choose_branching_vertex
  simp only []
  obtain ⟨h1, h2⟩ := best_count_vertices_spec avail W g.n
  obtain ⟨h3, h4⟩ := best_scoring_vertex_spec (best_count_vertices avail W g.n).2
    (branching_scores g avail W (best_count_vertices avail W g.n).2)
  refine ⟨fun v hv => h1 v (h3 v hv), ?_⟩
  intro hb ⟨x, hx, hne⟩
  apply h4
  intro hnil
  rw [h2 hb hnil x hx] at hne
  exact Bool.noConfusion hne

/-! ## Bounds, copies and frames -/

theorem call_bound_pos (W r : Nat) : 1 ≤ call_bound W r := by
  cases r with
  | zero => simp [call_bound]
  | succ r => simp [call_bound]

theorem call_bound_succ_le (W r : Nat) : call_bound W r ≤ call_bound W (r + 1) := by
  have h := call_bound_pos W r
  show call_bound W r ≤ 1 + (64 * W + 1) * call_bound W r
  have : call_bound W r ≤ (64 * W + 1) * call_bound W r := Nat.le_mul_of_pos_left _ (by omega)
  omega

theorem call_bound_mono (W : Nat) {r s : Nat} (h : r ≤ s) : call_bound W r ≤ call_bound W s := by
  induction s with
  | zero =>
    have : r = 0 := by omega
    subst this; exact Nat.le_refl _
  | succ s ih =>
    rcases Nat.lt_or_ge r (s + 1) with hlt | hge
    · exact Nat.le_trans (ih (by omega)) (call_bound_succ_le W s)
    · have : r = s + 1 := by omega
      subst this; exact Nat.le_refl _

theorem popcount_le_of_palette (b W k : Nat) (h : ∀ j, b.testBit j = true → j < k) :
    bitset_popcount b W ≤ k := by
  rw [bitset_popcount_card]
  have hsub : bits b W ⊆ Finset.range k := by
    intro j hj
    rw [mem_bits] at hj
    exact Finset.mem_range.mpr (h j hj.2)
  have := Finset.card_le_card hsub
  rwa [Finset.card_range] at this

theorem exists_lt_of_sum_ne (l : List Nat) (f : Nat) (hb : ∀ v, v < l.length → l.getD v 0 ≤ f)
    (hs : l.sum ≠ l.length * f) : ∃ v, v < l.length ∧ l.getD v 0 < f := by
  by_contra hcon
  apply hs
  have hall : ∀ x ∈ l, x = f := by
    intro x hx
    obtain ⟨j, hj, hxj⟩ := exists_getD_of_mem l x hx
    have h1 := hb j hj
    have h2 : ¬ l.getD j 0 < f := fun h => hcon ⟨j, hj, h⟩
    omega
  clear hb hs hcon
  induction l with
  | nil => simp
  | cons x l ih =>
    have hx := hall x (List.mem_cons_self x l)
    have := ih (fun y hy => hall y (List.mem_cons_of_mem x hy))
    simp only [List.sum_cons, List.length_cons, Nat.succ_mul]
    omega

theorem assigned_all_of_size (g : ColouringGraph) (W k f : Nat) (A : Nat → Finset Nat)
    (C : Solution) (avail asg : List Nat) (hinv : SearchInv g W k f A C avail asg)
    (hsize : C.size = g.n * f) : ∀ v, v < g.n → asg.getD v 0 = f := by
  intro v hv
  have hb : ∀ x ∈ asg, x ≤ f := by
    intro x hx
    obtain ⟨j, hj, hxj⟩ := exists_getD_of_mem asg x hx
    rw [← hxj]
    exact hinv.bounded j (by rw [← hinv.assigned_len]; exact hj)
  have hs : asg.sum = asg.length * f := by
    rw [← hinv.size, hsize, hinv.assigned_len]
  exact all_eq_of_sum_eq asg f hb hs _ (getD_mem_of_lt asg v (by rw [hinv.assigned_len]; exact hv))

theorem size_le_of_inv (g : ColouringGraph) (W k f : Nat) (A : Nat → Finset Nat)
    (C : Solution) (avail asg : List Nat) (hinv : SearchInv g W k f A C avail asg) :
    C.size ≤ g.n * f := by
  have hb : ∀ x ∈ asg, x ≤ f := by
    intro x hx
    obtain ⟨j, hj, hxj⟩ := exists_getD_of_mem asg x hx
    rw [← hxj]
    exact hinv.bounded j (by rw [← hinv.assigned_len]; exact hj)
  have := sum_le_of_bounded asg f hb
  rw [hinv.size, ← hinv.assigned_len]
  exact this

theorem copy_Solution_spec (src dest : Solution)
    (hlen : src.capacity ≤ dest.vtx_colour.length) :
    (copy_Solution src dest).vtx_colour.length = dest.vtx_colour.length ∧
    ∀ v, v < src.capacity →
      (copy_Solution src dest).vtx_colour.getD v 0 = src.vtx_colour.getD v 0 := by
  unfold copy_Solution
  simp only []
  exact @foldl_range_induction (List Nat)
    (fun i a => a.length = dest.vtx_colour.length ∧
      ∀ u, u < i → a.getD u 0 = src.vtx_colour.getD u 0)
    (fun a i => a.set i (src.vtx_colour.getD i 0)) dest.vtx_colour src.capacity
    ⟨rfl, fun u hu => absurd hu (Nat.not_lt_zero u)⟩
    (by
      intro i a hi ⟨h1, h2⟩
      refine ⟨by rw [List.length_set]; exact h1, ?_⟩
      intro u hu
      by_cases hui : u = i
      · subst hui
        exact getD_set_same _ _ _ (by omega)
      · rw [getD_set_other _ _ _ _ hui]
        exact h2 u (by omega))

/-- Copying a saturated partial assignment gives a sound incumbent. -/
theorem incumbentOk_copy (g : ColouringGraph) (W k f : Nat) (A : Nat → Finset Nat)
    (C : Solution) (avail asg : List Nat) (hinv : SearchInv g W k f A C avail asg)
    (hsize : C.size = g.n * f) (inc : Solution) (hinc : inc.vtx_colour.length = g.n) :
    IncumbentOk g k f (copy_Solution C inc) ∧ (copy_Solution C inc).size = g.n * f := by
  have hall := assigned_all_of_size g W k f A C avail asg hinv hsize
  obtain ⟨hclen, hcget⟩ := copy_Solution_spec C inc (by rw [hinv.capacity, hinc])
  have hcopy : ∀ v, v < g.n →
      (copy_Solution C inc).vtx_colour.getD v 0 = C.vtx_colour.getD v 0 := by
    intro v hv
    exact hcget v (by rw [hinv.capacity]; exact hv)
  refine ⟨⟨?_, fun _ => ⟨A, ⟨?_, hinv.disjoint⟩, ?_⟩⟩, hsize⟩
  · rw [hclen]
    exact hinc
  · intro v hv
    exact ⟨by rw [hinv.card v hv, hall v hv], hinv.placed_lt v hv⟩
  · intro v hv
    rw [hcopy v hv]
    exact hinv.recorded v hv (hall v hv)

theorem searchInv_of_framed (g : ColouringGraph) (W k f : Nat) (A : Nat → Finset Nat)
    (C C' : Solution) (avail asg : List Nat) (hinv : SearchInv g W k f A C avail asg)
    (hfr : Framed g f asg C C') (hsize : C'.size = C.size) :
    SearchInv g W k f A C' avail asg :=
  { avail_len := hinv.avail_len
    assigned_len := hinv.assigned_len
    colour_len := by rw [hfr.2.1]; exact hinv.colour_len
    capacity := by rw [hfr.1]; exact hinv.capacity
    card := hinv.card
    palette := hinv.palette
    placed_lt := hinv.placed_lt
    own := hinv.own
    propagated := hinv.propagated
    disjoint := hinv.disjoint
    size := by rw [hsize]; exact hinv.size
    bounded := hinv.bounded
    done_empty := hinv.done_empty
    recorded := fun v hv hf => by rw [hfr.2.2 v hv hf]; exact hinv.recorded v hv hf }

/-! ## The trial loop -/

/-- The trial loop, for a recursive call that behaves as `expand` should. -/
theorem trial_loop_spec (g : ColouringGraph) (hl : ListsBuilt g) (hsym : SymmetricMatrix g)
    (W k f L : Nat)
    (recurse : SearchState → List Nat → List Nat → Except Fault SearchState) (fuel' : Nat)
    (hrec : ExpandSpec g W k f L recurse fuel')
    (best_v : Nat) (hbv : best_v < g.n) (uni : Nat) (avail asg : List Nat)
    (A : Nat → Finset Nat) :
    ∀ t dc st, SearchInv g W k f A st.C avail asg → IncumbentOk g k f st.incumbent →
      (∀ j, dc.testBit j = true → (avail.getD best_v 0).testBit j = true) →
      (∀ st', trial_loop g W f recurse best_v uni avail asg t dc st = .ok st' →
        st'.C.size = st.C.size ∧ Framed g f asg st.C st'.C ∧
        IncumbentOk g k f st'.incumbent ∧
        st.expand_call_count + 1 ≤ st'.expand_call_count ∧
        st'.expand_call_count
          ≤ st.expand_call_count + t * call_bound W (g.n * f - st.C.size - 1) ∧
        st'.expand_call_count
          ≤ max st.expand_call_count (L + (64 * W + 1) * (g.n * f - st.C.size - 1)) + t ∧
        (Slack g W f avail asg → st'.expand_call_count < L →
          st'.incumbent.size = g.n * f)) ∧
      (k ≤ INT_MAX → 1 ≤ fuel' → L < st.expand_call_count + fuel' →
        bitset_popcount dc W ≠ 0 → bitset_popcount dc W ≤ t →
        ∃ st', trial_loop g W f recurse best_v uni avail asg t dc st = .ok st') := by
  intro t
  induction t with
  | zero =>
    intro dc st _ _ _
    refine ⟨?_, ?_⟩
    · intro st' h
      simp [trial_loop] at h
    · intro _ _ _ h1 h2
      omega
  | succ t ih =>
    intro dc st hinv hinc hdc
    rw [trial_loop]
    cases hfsb : first_set_bit dc W with
    | none =>
      refine ⟨fun st' h => by simp at h, ?_⟩
      intro _ _ _ h1 _
      exfalso
      exact h1 ((popcount_eq_zero_iff dc W).mpr (first_set_bit_none dc W hfsb))
    | some c =>
      obtain ⟨hcbit, hcW⟩ := first_set_bit_some dc W c hfsb
      have hbit : (avail.getD best_v 0).testBit c = true := hdc c hcbit
      have hva : best_v < asg.length := by rw [hinv.assigned_len]; exact hbv
      have hlt := assigned_lt_of_bit g W k f A st.C avail asg hinv best_v c hbv hbit hcW
      obtain ⟨avail1, hplace, p1, p2, p3, p4, p5⟩ :=
        solution_colour_vtx_rows st.C best_v c
          (unset_rows c (non_neighbours g best_v) avail) asg W f hva
      have hR := rowsAfter_trial g hl W f avail asg avail1 best_v c hbv p1 p2 p3 p4 p5
      have hinv1 := rowsAfter_inv g hl hsym W k f A st.C avail asg hinv best_v c hbv hbit hcW
        _ hR
      unfold unset_rows at hplace
      simp only [hplace]
      have hchild := hrec
        { st with C := { size := st.C.size + 1, capacity := st.C.capacity,
                         vtx_colour := st.C.vtx_colour.set best_v c } }
        avail1 (asg.set best_v (asg.getD best_v 0 + 1)) _ hinv1 hinc
      cases hrun : recurse
        { st with C := { size := st.C.size + 1, capacity := st.C.capacity,
                         vtx_colour := st.C.vtx_colour.set best_v c } }
        avail1 (asg.set best_v (asg.getD best_v 0 + 1)) with
      | error e =>
        refine ⟨fun st' h => by simp at h, ?_⟩
        intro hk hf1 hL _ _
        obtain ⟨st2, h2⟩ := hchild.2 hk hf1 hL
        rw [hrun] at h2
        exact Except.noConfusion h2
      | ok st2 =>
        obtain ⟨q1, q2, q3, q4, q5, q6, q7⟩ := hchild.1 st2 hrun
        simp only [] at q1 q2 q4 q5 q6
        have hmono1 : ∀ u, asg.getD u 0 = f →
            (asg.set best_v (asg.getD best_v 0 + 1)).getD u 0 = f := by
          intro u hu
          have : u ≠ best_v := by intro e; subst e; omega
          rw [getD_set_other _ _ _ _ this]; exact hu
        have hframe : Framed g f asg st.C (solution_pop_vtx st2.C) :=
          framed_trans g f asg _ st.C _ st2.C (framed_place g f asg st.C best_v c hlt) q2 hmono1
        have hsize : (solution_pop_vtx st2.C).size = st.C.size := by
          show st2.C.size - 1 = st.C.size
          omega
        have hslack1 : Slack g W f avail asg →
            Slack g W f avail1 (asg.set best_v (asg.getD best_v 0 + 1)) :=
          rowsAfter_slack g hl W k f A st.C avail asg hinv best_v c hbv hbit hcW _ hR
        have hr : g.n * f - (st.C.size + 1) = g.n * f - st.C.size - 1 := by omega
        rw [hr] at q5 q6
        have hB := call_bound_pos W (g.n * f - st.C.size - 1)
        simp only []
        split
        · -- the loop goes on
          rename_i hcond
          have hinv3 : SearchInv g W k f A (solution_pop_vtx st2.C) avail asg :=
            searchInv_of_framed g W k f A st.C _ avail asg hinv hframe hsize
          have hdc' : ∀ j, (unset_bit dc c).testBit j = true →
              (avail.getD best_v 0).testBit j = true := by
            intro j hj
            rw [testBit_unset_bit] at hj
            simp only [Bool.and_eq_true] at hj
            exact hdc j hj.1
          obtain ⟨r1, r2⟩ := ih (unset_bit dc c)
            { st2 with C := solution_pop_vtx st2.C } hinv3 q3 hdc'
          refine ⟨?_, ?_⟩
          · intro st' h
            obtain ⟨s1, s2, s3, s4, s5, s6, s7⟩ := r1 st' h
            simp only [] at s1 s2 s4 s5 s6
            rw [hsize] at s1 s5 s6
            refine ⟨s1, ?_, s3, by omega, ?_, ?_, s7⟩
            · exact framed_trans g f asg asg st.C _ st'.C hframe s2 (fun _ h => h)
            · rw [Nat.succ_mul]; omega
            · have hm : max st2.expand_call_count
                    (L + (64 * W + 1) * (g.n * f - st.C.size - 1))
                  ≤ max st.expand_call_count
                    (L + (64 * W + 1) * (g.n * f - st.C.size - 1)) + 1 := by
                omega
              omega
          · intro hk hf1 hL hne hle
            have hcond' := hcond
            simp only [Bool.and_eq_true, Bool.not_eq_true', decide_eq_true_eq] at hcond'
            have hne' : bitset_popcount (unset_bit dc c) W ≠ 0 :=
              (bitset_empty_eq_false_iff _ _).mp hcond'.2
            have hpc := popcount_unset_of_set dc c W hcbit hcW
            exact r2 hk hf1 (by simp only []; omega) hne' (by omega)
        · -- the loop ends
          refine ⟨?_, fun _ _ _ _ _ => ⟨_, rfl⟩⟩
          intro st' h
          simp only [Except.ok.injEq] at h
          subst h
          refine ⟨hsize, hframe, q3, by simp only []; omega, ?_, ?_, ?_⟩
          · simp only []
            rw [Nat.succ_mul]
            have := Nat.zero_le (t * call_bound W (g.n * f - st.C.size - 1))
            omega
          · simp only []
            omega
          · intro hs hlt'
            exact q7 (hslack1 hs) hlt'

/-! ## The search procedure -/

theorem incumbentOk_len (g : ColouringGraph) (k f : Nat) (inc : Solution)
    (h : IncumbentOk g k f inc) : inc.vtx_colour.length = g.n := h.1

/-- The search procedure `expand` meets its specification at every recursion
depth. -/
theorem expand_spec (g : ColouringGraph) (hl : ListsBuilt g) (hsym : SymmetricMatrix g)
    (W k f L : Nat) :
    ∀ fuel, ExpandSpec g W k f L (expand g L W f fuel) fuel := by
  intro fuel
  induction fuel with
  | zero =>
    intro st avail asg A _ _
    refine ⟨fun st' h => by simp [expand] at h, fun _ h _ => absurd h (by omega)⟩
  | succ fuel ih =>
    intro st avail asg A hinv hinc
    have hB := call_bound_pos W (g.n * f - st.C.size)
    have hsz := size_le_of_inv g W k f A st.C avail asg hinv
    rw [expand]
    simp only []
    by_cases hbudget : st.expand_call_count + 1 ≥ L
    · -- the budget is exhausted
      rw [if_pos hbudget]
      refine ⟨?_, fun _ _ _ => ⟨_, rfl⟩⟩
      intro st' h
      simp only [Except.ok.injEq] at h
      subst h
      exact ⟨rfl, framed_refl g f asg st.C, hinc, Nat.le_refl _, by simp only []; omega,
        by simp only []; omega, fun _ hlt => absurd hlt (by simp only []; omega)⟩
    · rw [if_neg hbudget]
      by_cases hgoal : st.C.size = g.n * f
      · -- the goal is reached at entry
        rw [if_pos (beq_iff_eq.mpr hgoal)]
        refine ⟨?_, fun _ _ _ => ⟨_, rfl⟩⟩
        intro st' h
        simp only [Except.ok.injEq] at h
        subst h
        obtain ⟨hok, hsat⟩ := incumbentOk_copy g W k f A st.C avail asg hinv hgoal
          st.incumbent hinc.1
        exact ⟨rfl, framed_refl g f asg st.C, hok, Nat.le_refl _, by simp only []; omega,
          by simp only []; omega, fun _ _ => hsat⟩
      · rw [if_neg (fun e => hgoal (beq_iff_eq.mp e))]
        obtain ⟨hscan1, hscan2⟩ := unit_scan_range g W f avail asg
        cases hscan : unit_scan avail asg W f (List.range g.n) [] with
        | none =>
          -- a vertex lacks colours
          simp only []
          refine ⟨?_, fun _ _ _ => ⟨_, rfl⟩⟩
          intro st' h
          simp only [Except.ok.injEq] at h
          subst h
          refine ⟨rfl, framed_refl g f asg st.C, hinc, Nat.le_refl _, by simp only []; omega,
            by simp only []; omega, ?_⟩
          intro hs _
          exact absurd hscan (hscan2 (enough_of_slack g W f avail asg hs))
        | some stack =>
          simp only []
          obtain ⟨hen, hstack⟩ := hscan1 stack hscan
          have hfuel : total_bits W avail ≤ g.n * (BITS_PER_WORD * W) := by
            have := total_bits_le W avail
            rw [hinv.avail_len] at this
            exact this
          obtain ⟨C', r, hrun, hframe, hdead, hsome⟩ :=
            unit_propagation_spec g hl hsym W k f _ stack st.C avail asg A hinv hen hstack hfuel
          rw [hrun]
          cases r with
          | none =>
            -- dead end during the unit propagation
            simp only []
            refine ⟨?_, fun _ _ _ => ⟨_, rfl⟩⟩
            intro st' h
            simp only [Except.ok.injEq] at h
            subst h
            refine ⟨rfl, hframe, hinc, Nat.le_refl _, by simp only []; omega,
              by simp only []; omega, ?_⟩
            intro hs _
            exact absurd rfl (hdead hs)
          | some p =>
            obtain ⟨avail', asg'⟩ := p
            simp only []
            obtain ⟨A', hinv', hen', hmono, hsize', hslack'⟩ := hsome avail' asg' rfl
            have hsz' := size_le_of_inv g W k f A' C' avail' asg' hinv'
            by_cases hgoal' : C'.size = g.n * f
            · -- the goal is reached after the unit propagation
              rw [if_pos (beq_iff_eq.mpr hgoal')]
              refine ⟨?_, fun _ _ _ => ⟨_, rfl⟩⟩
              intro st' h
              simp only [Except.ok.injEq] at h
              subst h
              obtain ⟨hok, hsat⟩ := incumbentOk_copy g W k f A' C' avail' asg' hinv' hgoal'
                st.incumbent hinc.1
              exact ⟨rfl, hframe, hok, Nat.le_refl _, by simp only []; omega,
                by simp only []; omega, fun _ _ => hsat⟩
            · rw [if_neg (fun e => hgoal' (beq_iff_eq.mp e))]
              obtain ⟨hch1, hch2⟩ := choose_branching_vertex_spec g avail' W
              cases hch : choose_branching_vertex g avail' W with
              | none =>
                simp only []
                refine ⟨fun st' h => by simp at h, ?_⟩
                intro hk _ _
                exfalso
                have hne : asg'.sum ≠ asg'.length * f := by
                  rw [← hinv'.size, hinv'.assigned_len]; exact hgoal'
                obtain ⟨v, hv, hvlt⟩ := exists_lt_of_sum_ne asg' f
                  (fun v hv => hinv'.bounded v (by rw [← hinv'.assigned_len]; exact hv)) hne
                rw [hinv'.assigned_len] at hv
                have hpc := hen' v hv
                obtain ⟨w, hw⟩ := hch2
                  (fun x hx => Nat.le_trans
                    (popcount_le_of_palette _ W k (hinv'.palette x hx)) hk)
                  ⟨v, hv, (bitset_empty_eq_false_iff _ _).mpr (by omega)⟩
                rw [hch] at hw
                exact Option.noConfusion hw
              | some best_v =>
                simp only []
                obtain ⟨hbv, hbne⟩ := hch1 best_v hch
                have hdc : ∀ j, (copy_bitset (avail'.getD best_v 0) 0 W).testBit j = true →
                    (avail'.getD best_v 0).testBit j = true := by
                  intro j hj
                  rw [testBit_copy_bitset] at hj
                  split at hj
                  · exact hj
                  · simp at hj
                have hdcpc : bitset_popcount (copy_bitset (avail'.getD best_v 0) 0 W) W
                    = bitset_popcount (avail'.getD best_v 0) W := by
                  apply Nat.le_antisymm
                  · exact popcount_mono _ _ W hdc
                  · rw [bitset_popcount_card, bitset_popcount_card]
                    apply Finset.card_le_card
                    intro j hj
                    rw [mem_bits] at hj ⊢
                    refine ⟨hj.1, ?_⟩
                    rw [testBit_copy_bitset, if_pos hj.1]
                    exact hj.2
                have hinvloop : SearchInv g W k f A'
                    ({ st with expand_call_count := st.expand_call_count + 1, C := C' } :
                      SearchState).C avail' asg' := hinv'
                obtain ⟨t1, t2⟩ := trial_loop_spec g hl hsym W k f L
                  (expand g L W f fuel) fuel ih best_v hbv
                  (colours_in_all_domains g avail' W) avail' asg' A'
                  (BITS_PER_WORD * W + 1) (copy_bitset (avail'.getD best_v 0) 0 W)
                  { st with expand_call_count := st.expand_call_count + 1, C := C' }
                  hinvloop hinc hdc
                cases hloop : trial_loop g W f (expand g L W f fuel) best_v
                  (colours_in_all_domains g avail' W) avail' asg'
                  (BITS_PER_WORD * W + 1) (copy_bitset (avail'.getD best_v 0) 0 W)
                  { st with expand_call_count := st.expand_call_count + 1, C := C' } with
                | error e =>
                  simp only []
                  refine ⟨fun st' h => by simp at h, ?_⟩
                  intro hk _ hL
                  exfalso
                  have hf1 : 1 ≤ fuel := by omega
                  have hL2 : L < st.expand_call_count + 1 + fuel := by omega
                  obtain ⟨st2, h2⟩ := t2 hk hf1 hL2
                    (by rw [hdcpc]; exact (bitset_empty_eq_false_iff _ _).mp hbne)
                    (by
                      have := popcount_le (copy_bitset (avail'.getD best_v 0) 0 W) W
                      show _ ≤ 64 * W + 1
                      omega)
                  rw [hloop] at h2
                  exact Except.noConfusion h2
                | ok st2 =>
                  simp only []
                  refine ⟨?_, fun _ _ _ => ⟨_, rfl⟩⟩
                  intro st' h
                  simp only [Except.ok.injEq] at h
                  subst h
                  obtain ⟨s1, s2, s3, s4, s5, s6, s7⟩ := t1 st2 hloop
                  simp only [] at s1 s2 s4 s5 s6
                  have hr1 : 1 ≤ g.n * f - C'.size := by omega
                  have hcb : call_bound W (g.n * f - C'.size)
                      = 1 + (64 * W + 1) * call_bound W (g.n * f - C'.size - 1) := by
                    obtain ⟨r, hr⟩ : ∃ r, g.n * f - C'.size = r + 1 :=
                      ⟨g.n * f - C'.size - 1, by omega⟩
                    rw [hr]
                    rfl
                  have hcm : call_bound W (g.n * f - C'.size)
                      ≤ call_bound W (g.n * f - st.C.size) :=
                    call_bound_mono W (by omega)
                  have hmul : (64 * W + 1) * (g.n * f - C'.size - 1) + (64 * W + 1)
                      ≤ (64 * W + 1) * (g.n * f - st.C.size) := by
                    have : g.n * f - C'.size - 1 + 1 ≤ g.n * f - st.C.size := by omega
                    calc (64 * W + 1) * (g.n * f - C'.size - 1) + (64 * W + 1)
                        = (64 * W + 1) * (g.n * f - C'.size - 1 + 1) := by
                          rw [Nat.mul_succ]
                      _ ≤ (64 * W + 1) * (g.n * f - st.C.size) :=
                          Nat.mul_le_mul_left _ this
                  refine ⟨rfl, ?_, s3, by simp only []; omega, ?_, ?_, ?_⟩
                  · exact framed_trans g f asg asg' st.C C' st2.C hframe s2 hmono
                  · simp only []
                    have h64 : BITS_PER_WORD * W + 1 = 64 * W + 1 := rfl
                    rw [h64] at s5
                    omega
                  · simp only []
                    have h64 : BITS_PER_WORD * W + 1 = 64 * W + 1 := rfl
                    rw [h64] at s6
                    omega
                  · intro hs hlt
                    exact s7 (hslack' hs) hlt

/-! ## The driver -/

theorem initial_rows (n k : Nat) :
    ((List.range n).foldl (fun a i => a.set i (set_first_n_bits (a.getD i 0) k))
        (List.replicate n 0)).length = n ∧
    ∀ v, v < n →
      ((List.range n).foldl (fun a i => a.set i (set_first_n_bits (a.getD i 0) k))
        (List.replicate n 0)).getD v 0 = set_first_n_bits 0 k := by
  have key := @foldl_range_induction (List Nat)
    (fun i a => a.length = n ∧
      ∀ v, v < n → a.getD v 0 = if v < i then set_first_n_bits 0 k else 0)
    (fun a i => a.set i (set_first_n_bits (a.getD i 0) k)) (List.replicate n 0) n
    ⟨by simp, fun v hv => by
      simp [List.getD_eq_getElem?_getD, List.getElem?_replicate, hv]⟩
    (by
      intro i a hi ⟨h1, h2⟩
      refine ⟨by rw [List.length_set]; exact h1, ?_⟩
      intro v hv
      by_cases hvi : v = i
      · subst hvi
        rw [getD_set_same _ _ _ (by omega), h2 v hv, if_neg (Nat.lt_irrefl v),
          if_pos (Nat.lt_succ_self v)]
      · rw [getD_set_other _ _ _ _ hvi, h2 v hv]
        by_cases hlt : v < i
        · rw [if_pos hlt, if_pos (by omega)]
        · rw [if_neg hlt, if_neg (by omega)])
  refine ⟨key.1, fun v hv => ?_⟩
  rw [key.2 v hv, if_pos hv]

theorem getD_replicate_zero (n v : Nat) : (List.replicate n 0).getD v 0 = 0 := by
  simp only [List.getD_eq_getElem?_getD, List.getElem?_replicate]
  split <;> rfl

theorem sum_replicate_zero (n : Nat) : (List.replicate n 0).sum = 0 := by
  simp

theorem words_cover (k : Nat) : k ≤ 64 * ((k + BITS_PER_WORD - 1) / BITS_PER_WORD) := by
  have h : BITS_PER_WORD = 64 := rfl
  rw [h]
  omega

/-- The state in which `solve` starts the search satisfies the invariant. -/
theorem initial_inv (g : ColouringGraph) (k f : Nat) (hf : 1 ≤ f) :
    SearchInv g ((k + BITS_PER_WORD - 1) / BITS_PER_WORD) k f (fun _ => ∅)
      (init_Solution g.n)
      ((List.range g.n).foldl (fun a i => a.set i (set_first_n_bits (a.getD i 0) k))
        (List.replicate g.n 0))
      (List.replicate g.n 0) := by
  obtain ⟨h1, h2⟩ := initial_rows g.n k
  exact
    { avail_len := h1
      assigned_len := by simp
      colour_len := by simp [init_Solution]
      capacity := rfl
      card := fun v _ => by rw [getD_replicate_zero]; rfl
      palette := fun v hv c hc => by
        rw [h2 v hv, testBit_set_first_n_bits] at hc
        simpa using hc
      placed_lt := fun v _ c hc => absurd hc (Finset.not_mem_empty c)
      own := fun v _ c hc => absurd hc (Finset.not_mem_empty c)
      propagated := fun v w _ c hc => absurd hc (Finset.not_mem_empty c)
      disjoint := fun v w _ => Finset.disjoint_empty_left _
      size := by rw [sum_replicate_zero]; rfl
      bounded := fun v _ => by rw [getD_replicate_zero]; omega
      done_empty := fun v _ h => by rw [getD_replicate_zero] at h; omega
      recorded := fun v _ h => by rw [getD_replicate_zero] at h; omega }

/-- The number of vertices that are `w` or compete with `w`. -/
theorem need_initial (g : ColouringGraph) (f w : Nat) :
    need g f (List.replicate g.n 0) w
      = ((Finset.range g.n).filter (fun u => u = w ∨ Compete g u w)).card * f := by
  unfold need
  rw [Finset.sum_congr rfl (fun u _ => by rw [getD_replicate_zero, Nat.sub_zero]),
    Finset.sum_const, smul_eq_mul]

/-- The starting state has slack when `k` colours suffice for every vertex
together with its competitors. -/
theorem initial_slack (g : ColouringGraph) (k f : Nat)
    (h : ∀ w, w < g.n →
      ((Finset.range g.n).filter (fun u => u = w ∨ Compete g u w)).card * f ≤ k) :
    Slack g ((k + BITS_PER_WORD - 1) / BITS_PER_WORD) f
      ((List.range g.n).foldl (fun a i => a.set i (set_first_n_bits (a.getD i 0) k))
        (List.replicate g.n 0))
      (List.replicate g.n 0) := by
  intro w hw _
  rw [need_initial, (initial_rows g.n k).2 w hw, popcount_set_first_n_bits k _ (words_cover k)]
  exact h w hw

/-- With `n * f` colours the starting state has slack. -/
theorem initial_slack_of_le (g : ColouringGraph) (k f : Nat) (h : g.n * f ≤ k) :
    Slack g ((k + BITS_PER_WORD - 1) / BITS_PER_WORD) f
      ((List.range g.n).foldl (fun a i => a.set i (set_first_n_bits (a.getD i 0) k))
        (List.replicate g.n 0))
      (List.replicate g.n 0) := by
  apply initial_slack
  intro w _
  have h1 : ((Finset.range g.n).filter (fun u => u = w ∨ Compete g u w)).card ≤ g.n := by
    have := Finset.card_filter_le (Finset.range g.n) (fun u => u = w ∨ Compete g u w)
    rwa [Finset.card_range] at this
  exact Nat.le_trans (Nat.mul_le_mul_right f h1) h

/-- The driver `solve`: what it returns is sound, the counter is bounded, and
with slack a counter below the limit means a saturated incumbent; and it
returns. -/
theorem solve_spec (g : ColouringGraph) (hl : ListsBuilt g) (hsym : SymmetricMatrix g)
    (k f L count : Nat) (inc : Solution) (hf : 1 ≤ f) (hinc : IncumbentOk g k f inc) :
    (∀ count' inc', solve g count L inc k f = .ok (count', inc') →
      IncumbentOk g k f inc' ∧ count + 1 ≤ count' ∧
      count' ≤ count + call_bound ((k + BITS_PER_WORD - 1) / BITS_PER_WORD) (g.n * f) ∧
      count' ≤ max (count + 1)
        (L + (64 * ((k + BITS_PER_WORD - 1) / BITS_PER_WORD) + 1) * (g.n * f)) ∧
      (Slack g ((k + BITS_PER_WORD - 1) / BITS_PER_WORD) f
          ((List.range g.n).foldl (fun a i => a.set i (set_first_n_bits (a.getD i 0) k))
            (List.replicate g.n 0))
          (List.replicate g.n 0) →
        count' < L → inc'.size = g.n * f)) ∧
    (k ≤ INT_MAX → ∃ r, solve g count L inc k f = .ok r) := by
  have hspec := expand_spec g hl hsym ((k + BITS_PER_WORD - 1) / BITS_PER_WORD) k f L (L + 1)
    { C := init_Solution g.n, incumbent := inc, expand_call_count := count }
    _ _ (fun _ => ∅) (initial_inv g k f hf) hinc
  obtain ⟨h1, h2⟩ := hspec
  unfold solve
  simp only []
  refine ⟨?_, ?_⟩
  · intro count' inc' h
    cases hrun : expand g L ((k + BITS_PER_WORD - 1) / BITS_PER_WORD) f (L + 1)
        { C := init_Solution g.n, incumbent := inc, expand_call_count := count }
        ((List.range g.n).foldl (fun a i => a.set i (set_first_n_bits (a.getD i 0) k))
          (List.replicate g.n 0))
        (List.replicate g.n 0) with
    | error e =>
      rw [hrun] at h
      simp at h
    | ok st' =>
      rw [hrun] at h
      simp only [Except.ok.injEq, Prod.mk.injEq] at h
      obtain ⟨q1, q2, q3, q4, q5, q6, q7⟩ := h1 st' hrun
      simp only [init_Solution, Nat.sub_zero] at q4 q5 q6
      rw [← h.1, ← h.2]
      exact ⟨q3, q4, q5, q6, q7⟩
  · intro hk
    obtain ⟨st', hst'⟩ := h2 hk (by omega) (by simp only []; omega)
    rw [hst']
    exact ⟨_, rfl⟩

/-! ## Soundness of a saturated incumbent -/

theorem incumbentOk_of_empty (g : ColouringGraph) (k f : Nat) (hf : 1 ≤ f) (inc : Solution)
    (hlen : inc.vtx_colour.length = g.n) (hsz : inc.size = 0) : IncumbentOk g k f inc := by
  refine ⟨hlen, ?_⟩
  intro h
  rw [hsz] at h
  have hn : g.n = 0 := by
    rcases Nat.eq_zero_or_pos g.n with h0 | h0
    · exact h0
    · have := Nat.mul_pos h0 (by omega : 0 < f)
      omega
  refine ⟨fun _ => ∅, ⟨fun v hv => absurd hv (by omega), ?_⟩, fun v hv => absurd hv (by omega)⟩
  intro v w hvw
  exact absurd hvw.1 (by omega)

/-- C3, counterexample: on the complete graph on two vertices with one colour
and `f = 1`, `solve` leaves a saturated incumbent in which the two adjacent
vertices both have colour 0, so the recorded colours come from no colour sets
that are disjoint on adjacent vertices. -/
theorem solve_adjacent_share_colour :
    solve (make_adjacency_lists complete2) 0 1000 (init_Solution 2) 1 1
      = .ok (1, { size := 2, capacity := 2, vtx_colour := [0, 0] }) ∧
    (2 : Nat) = (make_adjacency_lists complete2).n * 1 ∧
    entry (make_adjacency_lists complete2).adj_matrix 0 1 = true ∧
    ¬ ∃ A, FoldColouring (make_adjacency_lists complete2) 1 1 A ∧
      ∀ v, v < 2 → ([0, 0] : List Nat).getD v 0 ∈ A v := by
  refine ⟨by decide!, by decide!, by decide!, ?_⟩
  rintro ⟨A, hA, hmem⟩
  have hd := hA.2 0 1 (by decide!) (by decide!) (by decide!)
  have h0 := hmem 0 (by decide)
  have h1 := hmem 1 (by decide)
  simp only [List.getD_cons_zero, List.getD_cons_succ] at h0 h1
  exact Finset.disjoint_left.mp hd h0 h1

/-- C3, amended: when `solve`, on a graph whose lists are built from its
symmetric matrix and with `f ≥ 1`, leaves the incumbent saturated, there are
colour sets, each containing the recorded colour `vtx_colour[v]` of its vertex
(so for `f = 1` exactly the recorded colours), that give every vertex exactly
`f` distinct colours from `{0..k-1}` and are disjoint for every two distinct
vertices that are not adjacent. -/
theorem solve_saturated_colouring (g : ColouringGraph) (hl : ListsBuilt g)
    (hsym : SymmetricMatrix g) (k f L count : Nat) (inc : Solution) (hf : 1 ≤ f)
    (hlen : inc.vtx_colour.length = g.n) (hsz : inc.size = 0)
    (count' : Nat) (inc' : Solution)
    (hrun : solve g count L inc k f = .ok (count', inc')) (hsat : inc'.size = g.n * f) :
    ∃ A, ComplementColouring g k f A ∧ ∀ v, v < g.n → inc'.vtx_colour.getD v 0 ∈ A v :=
  ((solve_spec g hl hsym k f L count inc hf
    (incumbentOk_of_empty g k f hf inc hlen hsz)).1 count' inc' hrun).1.2 hsat

set_option maxRecDepth 100000 in
/-- C3, amended, at the complete graph on two vertices with one colour. -/
theorem solve_saturated_colouring_witness :
    ListsBuilt (make_adjacency_lists complete2) ∧
    SymmetricMatrix (make_adjacency_lists complete2) ∧
    ∃ A, ComplementColouring (make_adjacency_lists complete2) 1 1 A ∧
      ∀ v, v < (make_adjacency_lists complete2).n →
        ([0, 0] : List Nat).getD v 0 ∈ A v :=
  ⟨listsBuilt_of_empty complete2 (by decide),
    by unfold SymmetricMatrix; decide,
    solve_saturated_colouring (make_adjacency_lists complete2)
      (listsBuilt_of_empty complete2 (by decide)) (by unfold SymmetricMatrix; decide)
      1 1 1000 0 (init_Solution 2) (by decide) (by decide) (by decide) 1
      { size := 2, capacity := 2, vtx_colour := [0, 0] } (by decide!) (by decide!)⟩

/-! ## The budget, and a colouring the search misses -/

/-- C8, counterexample: on the graph with the two edges `0 - 1` and `2 - 3`,
with three colours, `f = 1` and the budget 4, `solve` started with the counter
at 0 returns with the counter at 5. -/
theorem solve_counter_exceeds_budget :
    solve (make_adjacency_lists two_edges4) 0 4 (init_Solution 4) 3 1
      = .ok (5, init_Solution 4) := by
  decide!

/-- C8, amended: the budget stops the search, not the counter.  An invocation
of `expand` that finds the counter at `L - 1` or above increments it and
returns at once, with `C` and the incumbent as they were; the trial loops of
the enclosing invocations go on invoking `expand`, so that a `solve` call
started with the counter at 0 returns with a counter that is at least 1 and
exceeds `L` by at most `(64 * W + 1) * n * f`, `W` being the number of words of
a row. -/
theorem budget_stops_search (g : ColouringGraph) (hl : ListsBuilt g) (hsym : SymmetricMatrix g)
    (k f L : Nat) (inc : Solution) (hf : 1 ≤ f) (hL : 1 ≤ L)
    (hlen : inc.vtx_colour.length = g.n) (hsz : inc.size = 0) :
    (∀ fuel st avail asg, L ≤ st.expand_call_count + 1 →
      expand g L ((k + BITS_PER_WORD - 1) / BITS_PER_WORD) f (fuel + 1) st avail asg
        = .ok { st with expand_call_count := st.expand_call_count + 1 }) ∧
    (∀ count' inc', solve g 0 L inc k f = .ok (count', inc') →
      1 ≤ count' ∧
      count' ≤ L + (64 * ((k + BITS_PER_WORD - 1) / BITS_PER_WORD) + 1) * (g.n * f)) := by
  refine ⟨?_, ?_⟩
  · intro fuel st avail asg h
    rw [expand]
    simp only []
    rw [if_pos h]
  · intro count' inc' hrun
    obtain ⟨_, h1, _, h2, _⟩ := (solve_spec g hl hsym k f L 0 inc hf
      (incumbentOk_of_empty g k f hf inc hlen hsz)).1 count' inc' hrun
    refine ⟨by omega, ?_⟩
    have : max (0 + 1) (L + (64 * ((k + BITS_PER_WORD - 1) / BITS_PER_WORD) + 1) * (g.n * f))
        = L + (64 * ((k + BITS_PER_WORD - 1) / BITS_PER_WORD) + 1) * (g.n * f) := by
      apply Nat.max_eq_right
      omega
    rw [this] at h2
    exact h2

set_option maxRecDepth 100000 in
/-- C8, amended, at the graph with two disjoint edges, three colours and the
budget 4: the counter, 5, is at most `4 + 65 * 4`. -/
theorem budget_stops_search_witness :
    ListsBuilt (make_adjacency_lists two_edges4) ∧
    SymmetricMatrix (make_adjacency_lists two_edges4) ∧
    1 ≤ 5 ∧
    5 ≤ 4 + (64 * ((3 + BITS_PER_WORD - 1) / BITS_PER_WORD) + 1)
      * ((make_adjacency_lists two_edges4).n * 1) :=
  ⟨listsBuilt_of_empty two_edges4 (by decide),
    by unfold SymmetricMatrix; decide,
    (budget_stops_search (make_adjacency_lists two_edges4)
      (listsBuilt_of_empty two_edges4 (by decide)) (by unfold SymmetricMatrix; decide)
      3 1 4 (init_Solution 4) (by decide) (by decide) (by decide) (by decide)).2
      5 (init_Solution 4) (by decide!)⟩

set_option maxRecDepth 100000 in
/-- C2, the code at the failing input: on `dense10` with three colours, `f = 1`
and the budget 1000, `solve` returns after 4 invocations of `expand`, below the
budget, with an incumbent of size 0, not `n * f = 10`; yet the colours
`colours10` give every vertex one colour below 3 such that any two distinct
non-adjacent vertices get different colours. -/
theorem solve_misses_colouring :
    solve (make_adjacency_lists dense10) 0 1000 (init_Solution 10) 3 1
      = .ok (4, init_Solution 10) ∧
    ListsBuilt (make_adjacency_lists dense10) ∧
    SymmetricMatrix (make_adjacency_lists dense10) ∧
    (∀ v, v < 10 → entry (make_adjacency_lists dense10).adj_matrix v v = false) ∧
    (init_Solution 10).size ≠ (make_adjacency_lists dense10).n * 1 ∧
    ComplementColouring (make_adjacency_lists dense10) 3 1
      (fun v => {colours10.getD v 0}) := by
  refine ⟨by decide!, listsBuilt_of_empty dense10 (by decide!),
    by unfold SymmetricMatrix; decide!, by decide!, by decide!, ?_, ?_⟩
  · intro v hv
    have hn : (make_adjacency_lists dense10).n = 10 := by decide!
    have hv10 : v < 10 := by rw [hn] at hv; exact hv
    refine ⟨Finset.card_singleton _, ?_⟩
    intro c hc
    rw [Finset.mem_singleton] at hc
    subst hc
    have : ∀ v, v < 10 → colours10.getD v 0 < 3 := by decide
    exact this v hv10
  · intro v w hvw
    rw [Finset.disjoint_singleton]
    have key : ∀ v, v < 10 → ∀ w, w < 10 → v ≠ w →
        entry (make_adjacency_lists dense10).adj_matrix v w = false →
        colours10.getD v 0 ≠ colours10.getD w 0 := by decide!
    have hn : (make_adjacency_lists dense10).n = 10 := by decide!
    have h1 := hvw.1
    have h2 := hvw.2.1
    rw [hn] at h1 h2
    exact key v h1 w h2 hvw.2.2.1 hvw.2.2.2

/-! ## Vertex orders and sorted copies -/

theorem length_swap_entries (vv : List Nat) (i r : Nat) :
    (swap_entries vv i r).length = vv.length := by
  unfold swap_entries
  rw [List.length_set, List.length_set]

theorem getD_swap_entries (vv : List Nat) (i r a : Nat) (hi : i < vv.length)
    (hr : r < vv.length) :
    (swap_entries vv i r).getD a 0
      = if a = r then vv.getD i 0 else if a = i then vv.getD r 0 else vv.getD a 0 := by
  unfold swap_entries
  rw [getD_set_list, getD_set_list, List.length_set]
  by_cases h1 : a = r
  · rw [if_pos h1, if_pos ⟨h1.symm, hr⟩]
  · rw [if_neg h1, if_neg (fun h => h1 h.1.symm)]
    by_cases h2 : a = i
    · rw [if_pos h2, if_pos ⟨h2.symm, hi⟩]
    · rw [if_neg h2, if_neg (fun h => h2 h.1.symm)]

theorem getD_range (n i : Nat) (h : i < n) : (List.range n).getD i 0 = i := by
  rw [List.getD_eq_getElem _ _ (by rw [List.length_range]; exact h)]
  exact List.getElem_range _ _

theorem isOrder_range (n : Nat) : IsOrder n (List.range n) := by
  refine ⟨List.length_range n, ?_, ?_⟩
  · intro i hi
    rw [getD_range n i hi]
    exact hi
  · intro i j hi hj h
    rw [getD_range n i hi, getD_range n j hj] at h
    exact h

theorem isOrder_swap (n : Nat) (vv : List Nat) (i r : Nat) (h : IsOrder n vv)
    (hi : i < n) (hr : r < n) : IsOrder n (swap_entries vv i r) := by
  obtain ⟨hlen, hlt, hinj⟩ := h
  have hi2 : i < vv.length := by omega
  have hr2 : r < vv.length := by omega
  refine ⟨by rw [length_swap_entries]; exact hlen, ?_, ?_⟩
  · intro a ha
    rw [getD_swap_entries vv i r a hi2 hr2]
    split
    · exact hlt i hi
    · split
      · exact hlt r hr
      · exact hlt a ha
  · intro a b ha hb hab
    rw [getD_swap_entries vv i r a hi2 hr2, getD_swap_entries vv i r b hi2 hr2] at hab
    by_cases a1 : a = r
    · rw [if_pos a1] at hab
      by_cases b1 : b = r
      · omega
      · rw [if_neg b1] at hab
        by_cases b2 : b = i
        · rw [if_pos b2] at hab
          have := hinj i r hi hr hab
          omega
        · rw [if_neg b2] at hab
          have := hinj i b hi hb hab
          omega
    · rw [if_neg a1] at hab
      by_cases a2 : a = i
      · rw [if_pos a2] at hab
        by_cases b1 : b = r
        · rw [if_pos b1] at hab
          have := hinj r i hr hi hab
          omega
        · rw [if_neg b1] at hab
          by_cases b2 : b = i
          · omega
          · rw [if_neg b2] at hab
            have := hinj r b hr hb hab
            omega
      · rw [if_neg a2] at hab
        by_cases b1 : b = r
        · rw [if_pos b1] at hab
          have := hinj a i ha hi hab
          omega
        · rw [if_neg b1] at hab
          by_cases b2 : b = i
          · rw [if_pos b2] at hab
            have := hinj a r ha hr hab
            omega
          · rw [if_neg b2] at hab
            exact hinj a b ha hb hab

/-- The order drawn by `randomised_vertex_order` is an order of the vertices of
`g`, whatever the generator yields. -/
theorem isOrder_randomised (g : ColouringGraph) (rand : Nat → Nat) :
    IsOrder g.n (randomised_vertex_order g rand) := by
  unfold randomised_vertex_order
  refine @foldl_range_induction (List Nat) (fun _ vv => IsOrder g.n vv) _ _ _ ?_ ?_
  · exact isOrder_range g.n
  · intro j vv hj h
    beta_reduce
    have hi : g.n - 1 - j < g.n := by omega
    have hr : rand j % (g.n - 1 - j + 1) < g.n := by
      have := Nat.mod_lt (rand j) (show 0 < g.n - 1 - j + 1 by omega)
      omega
    exact isOrder_swap g.n vv _ _ h hi hr

/-- Every vertex occurs in an order. -/
theorem isOrder_surj (n : Nat) (vv : List Nat) (h : IsOrder n vv) (v : Nat) (hv : v < n) :
    ∃ i, i < n ∧ vv.getD i 0 = v := by
  obtain ⟨_, hlt, hinj⟩ := h
  have himg : (Finset.range n).image (fun i => vv.getD i 0) = Finset.range n := by
    apply Finset.eq_of_subset_of_card_le
    · intro x hx
      rw [Finset.mem_image] at hx
      obtain ⟨i, hi, rfl⟩ := hx
      rw [Finset.mem_range] at hi ⊢
      exact hlt i hi
    · rw [Finset.card_image_of_injOn]
      intro a ha b hb hab
      rw [Finset.mem_coe, Finset.mem_range] at ha hb
      exact hinj a b ha hb hab
  have hmem : v ∈ (Finset.range n).image (fun i => vv.getD i 0) := by
    rw [himg, Finset.mem_range]
    exact hv
  rw [Finset.mem_image] at hmem
  obtain ⟨i, hi, rfl⟩ := hmem
  rw [Finset.mem_range] at hi
  exact ⟨i, hi, rfl⟩

theorem induced_subgraph_entry_iff (g : ColouringGraph) (vv : List Nat) (a b : Nat) :
    entry (induced_subgraph g vv).adj_matrix a b = true ↔
      (b < a ∧ a < vv.length ∧ entry g.adj_matrix (vv.getD a 0) (vv.getD b 0) = true) ∨
      (a < b ∧ b < vv.length ∧ entry g.adj_matrix (vv.getD b 0) (vv.getD a 0) = true) := by
  obtain ⟨_, _, _, h⟩ := induced_subgraph_inv g vv
  rw [h a b]
  unfold Visited
  constructor
  · rintro (⟨⟨h1, h2⟩, h3⟩ | ⟨⟨h1, h2⟩, h3⟩)
    · exact Or.inl ⟨h1, by omega, h3⟩
    · exact Or.inr ⟨h1, by omega, h3⟩
  · rintro (⟨h1, h2, h3⟩ | ⟨h1, h2, h3⟩)
    · exact Or.inl ⟨⟨h1, Or.inl h2⟩, h3⟩
    · exact Or.inr ⟨⟨h1, Or.inl h2⟩, h3⟩

theorem induced_subgraph_symm (g : ColouringGraph) (vv : List Nat) (a b : Nat) :
    entry (induced_subgraph g vv).adj_matrix a b
      = entry (induced_subgraph g vv).adj_matrix b a := by
  rw [Bool.eq_iff_iff, induced_subgraph_entry_iff, induced_subgraph_entry_iff]
  exact Or.comm

theorem induced_subgraph_entry (g : ColouringGraph) (hsym : SymmetricMatrix g)
    (vv : List Nat) (hvv : IsOrder g.n vv) (a b : Nat) (ha : a < g.n) (hb : b < g.n)
    (hab : a ≠ b) :
    entry (induced_subgraph g vv).adj_matrix a b
      = entry g.adj_matrix (vv.getD a 0) (vv.getD b 0) := by
  rw [Bool.eq_iff_iff, induced_subgraph_entry_iff]
  have hs := hsym (vv.getD a 0) (hvv.2.1 a ha) (vv.getD b 0) (hvv.2.1 b hb)
  have hlen := hvv.1
  constructor
  · rintro (⟨_, _, h3⟩ | ⟨_, _, h3⟩)
    · exact h3
    · rw [hs]; exact h3
  · intro h
    rcases Nat.lt_or_gt_of_ne hab with h1 | h1
    · exact Or.inr ⟨h1, by omega, by rw [← hs]; exact h⟩
    · exact Or.inl ⟨h1, by omega, h⟩

/-! ### Sorted copies -/

theorem sortedCopy_symm (g s : ColouringGraph) (h : SortedCopy g s) : SymmetricMatrix s := by
  obtain ⟨_, ⟨vv, _, hm⟩, _⟩ := h
  intro v _ w _
  rw [hm]
  exact induced_subgraph_symm g vv v w

theorem sortedCopy_induced (g : ColouringGraph) (vv : List Nat) (h : IsOrder g.n vv) :
    SortedCopy g (induced_subgraph g vv) := by
  obtain ⟨h1, _, h3, _⟩ := induced_subgraph_inv g vv
  refine ⟨by rw [h1]; exact h.1, ⟨vv, h, rfl⟩, Or.inl ?_⟩
  rw [h3, h1]

theorem sortedCopy_lists (g s : ColouringGraph) (h : SortedCopy g s) :
    SortedCopy g (make_adjacency_lists s) ∧ ListsBuilt (make_adjacency_lists s) := by
  obtain ⟨h1, ⟨vv, hvv, hm⟩, h3⟩ := h
  have hlen : s.adjlist.length = s.n := by
    rcases h3 with h3 | h3
    · rw [h3, List.length_replicate]
    · exact h3.1
  obtain ⟨m1, m2, _, _⟩ := make_adjacency_lists_spec s hlen
  have hb : ListsBuilt (make_adjacency_lists s) := by
    rcases h3 with h3 | h3
    · exact listsBuilt_of_empty s h3
    · exact listsBuilt_again s h3
  exact ⟨⟨by rw [m1]; exact h1, ⟨vv, hvv, by rw [m2]; exact hm⟩, Or.inr hb⟩, hb⟩

/-- A colouring of a sorted copy of `g` in which competing vertices are
disjoint gives one of `g`, read through the order. -/
theorem sortedCopy_colouring (g s : ColouringGraph) (hsym : SymmetricMatrix g)
    (h : SortedCopy g s) (k f : Nat) (A : Nat → Finset Nat)
    (hA : ComplementColouring s k f A) : ∃ B, ComplementColouring g k f B := by
  obtain ⟨h1, ⟨vv, hvv, hm⟩, _⟩ := h
  classical
  have hsur := isOrder_surj g.n vv hvv
  choose! ix hix using hsur
  refine ⟨fun v => A (ix v), ?_, ?_⟩
  · intro v hv
    exact hA.1 (ix v) (by rw [h1]; exact (hix v hv).1)
  · intro v w hvw
    obtain ⟨hv, hw, hne, hadj⟩ := hvw
    apply hA.2
    have hiv := hix v hv
    have hiw := hix w hw
    have hne2 : ix v ≠ ix w := by
      intro e
      apply hne
      rw [← hiv.2, ← hiw.2, e]
    refine ⟨by rw [h1]; exact hiv.1, by rw [h1]; exact hiw.1, hne2, ?_⟩
    rw [hm, induced_subgraph_entry g hsym vv hvv _ _ hiv.1 hiw.1 hne2, hiv.2, hiw.2]
    exact hadj

/-! ## The loops of find_colouring_number -/

theorem call_bound_mono_words {W W' : Nat} (h : W ≤ W') (r : Nat) :
    call_bound W r ≤ call_bound W' r := by
  induction r with
  | zero => exact Nat.le_refl _
  | succ r ih =>
    show 1 + (64 * W + 1) * call_bound W r ≤ 1 + (64 * W' + 1) * call_bound W' r
    have : (64 * W + 1) * call_bound W r ≤ (64 * W' + 1) * call_bound W' r :=
      Nat.mul_le_mul (by omega) ih
    omega

theorem words_mono {k K : Nat} (h : k ≤ K) :
    (k + BITS_PER_WORD - 1) / BITS_PER_WORD ≤ (K + BITS_PER_WORD - 1) / BITS_PER_WORD :=
  Nat.div_le_div_right (by omega)

theorem restart_loop_step (g : ColouringGraph) (f : Nat) (rand : Nat → Nat → Nat) (k : Nat)
    (fuel : Nat) (s : ColouringGraph) (clq : Solution) (c L seed : Nat) :
    restart_loop g f rand k (fuel + 1) s clq c L seed
      = match solve s c L clq k f with
        | .error e => .error e
        | .ok (c', clq') =>
          if c' < L then .ok (s, clq', c', L, seed)
          else restart_loop g f rand k fuel
            (make_adjacency_lists
              (induced_subgraph g (randomised_vertex_order g (rand (seed + 1)))))
            { clq' with size := 0 } 0 (L + L / 10) (seed + 1) := rfl

theorem colour_loop_step (g : ColouringGraph) (f : Nat) (rand : Nat → Nat → Nat)
    (fuel k : Nat) (s : ColouringGraph) (L seed : Nat) :
    colour_loop g f rand (fuel + 1) k s L seed
      = match restart_loop g f rand k (fuel + 1) (make_adjacency_lists s)
            (init_Solution s.n) 0 L seed with
        | .error e => .error e
        | .ok (s', clq, _, L', seed') =>
          if clq.size == s'.n * f then .ok k
          else colour_loop g f rand fuel (k + 1) s' L' seed' := rfl

/-- More rounds do not change what the restart loop returns. -/
theorem restart_loop_mono (g : ColouringGraph) (f : Nat) (rand : Nat → Nat → Nat) (k : Nat) :
    ∀ fuel s clq c L seed r, restart_loop g f rand k fuel s clq c L seed = .ok r →
      restart_loop g f rand k (fuel + 1) s clq c L seed = .ok r := by
  intro fuel
  induction fuel with
  | zero =>
    intro s clq c L seed r h
    exact absurd h (by simp [restart_loop])
  | succ fuel ih =>
    intro s clq c L seed r h
    rw [restart_loop_step] at h ⊢
    cases hs : solve s c L clq k f with
    | error e =>
      rw [hs] at h
      exact absurd h (by simp)
    | ok p =>
      obtain ⟨c', clq'⟩ := p
      rw [hs] at h
      simp only [] at h ⊢
      by_cases hc : c' < L
      · rw [if_pos hc] at h ⊢
        exact h
      · rw [if_neg hc] at h ⊢
        exact ih _ _ _ _ _ _ h

theorem restart_loop_mono_le (g : ColouringGraph) (f : Nat) (rand : Nat → Nat → Nat) (k : Nat)
    (fuel fuel' : Nat) (hle : fuel ≤ fuel') (s : ColouringGraph) (clq : Solution)
    (c L seed : Nat) (r : ColouringGraph × Solution × Nat × Nat × Nat)
    (h : restart_loop g f rand k fuel s clq c L seed = .ok r) :
    restart_loop g f rand k fuel' s clq c L seed = .ok r := by
  induction fuel' with
  | zero =>
    have : fuel = 0 := by omega
    subst this
    exact h
  | succ m ih =>
    by_cases hm : fuel ≤ m
    · exact restart_loop_mono g f rand k m s clq c L seed r (ih hm)
    · have : fuel = m + 1 := by omega
      subst this
      exact h

/-- More rounds do not change what the loop over the number of colours
returns. -/
theorem colour_loop_mono (g : ColouringGraph) (f : Nat) (rand : Nat → Nat → Nat) :
    ∀ fuel k s L seed r, colour_loop g f rand fuel k s L seed = .ok r →
      colour_loop g f rand (fuel + 1) k s L seed = .ok r := by
  intro fuel
  induction fuel with
  | zero =>
    intro k s L seed r h
    exact absurd h (by simp [colour_loop])
  | succ fuel ih =>
    intro k s L seed r h
    rw [colour_loop_step] at h ⊢
    cases hr : restart_loop g f rand k (fuel + 1) (make_adjacency_lists s)
        (init_Solution s.n) 0 L seed with
    | error e =>
      rw [hr] at h
      exact absurd h (by simp)
    | ok p =>
      obtain ⟨s', clq, c', L', seed'⟩ := p
      rw [hr] at h
      rw [restart_loop_mono g f rand k _ _ _ _ _ _ _ hr]
      simp only [] at h ⊢
      by_cases hc : clq.size = s'.n * f
      · rw [if_pos (beq_iff_eq.mpr hc)] at h ⊢
        exact h
      · rw [if_neg (fun e => hc (beq_iff_eq.mp e))] at h ⊢
        exact ih _ _ _ _ _ h

theorem colour_loop_mono_le (g : ColouringGraph) (f : Nat) (rand : Nat → Nat → Nat)
    (fuel fuel' : Nat) (hle : fuel ≤ fuel') (k : Nat) (s : ColouringGraph)
    (L seed r : Nat) (h : colour_loop g f rand fuel k s L seed = .ok r) :
    colour_loop g f rand fuel' k s L seed = .ok r := by
  induction fuel' with
  | zero =>
    have : fuel = 0 := by omega
    subst this
    exact h
  | succ m ih =>
    by_cases hm : fuel ≤ m
    · exact colour_loop_mono g f rand m k s L seed r (ih hm)
    · have : fuel = m + 1 := by omega
      subst this
      exact h

/-- What the restart loop returns: a sorted copy with its lists built, a sound
incumbent, a budget that has not shrunk, and, when the rows of the start of
the search have slack, a saturated incumbent. -/
theorem restart_loop_post (g : ColouringGraph) (k f : Nat) (hf : 1 ≤ f)
    (rand : Nat → Nat → Nat) :
    ∀ fuel s clq c L seed s' clq' c' L' seed',
      SortedCopy g s → ListsBuilt s → clq.vtx_colour.length = g.n → clq.size = 0 →
      restart_loop g f rand k fuel s clq c L seed = .ok (s', clq', c', L', seed') →
      SortedCopy g s' ∧ ListsBuilt s' ∧ IncumbentOk s' k f clq' ∧ L ≤ L' ∧
      (Slack s' ((k + BITS_PER_WORD - 1) / BITS_PER_WORD) f
          ((List.range s'.n).foldl (fun a i => a.set i (set_first_n_bits (a.getD i 0) k))
            (List.replicate s'.n 0))
          (List.replicate s'.n 0) → clq'.size = s'.n * f) := by
  intro fuel
  induction fuel with
  | zero =>
    intro s clq c L seed s' clq' c' L' seed' _ _ _ _ h
    exact absurd h (by simp [restart_loop])
  | succ fuel ih =>
    intro s clq c L seed s' clq' c' L' seed' hs hl hlen hsz h
    rw [restart_loop_step] at h
    have hspec := (solve_spec s hl (sortedCopy_symm g s hs) k f L c clq hf
      (incumbentOk_of_empty s k f hf clq (by rw [hlen, hs.1]) hsz)).1
    cases hrun : solve s c L clq k f with
    | error e =>
      rw [hrun] at h
      exact absurd h (by simp)
    | ok p =>
      obtain ⟨c1, q1⟩ := p
      rw [hrun] at h
      simp only [] at h
      obtain ⟨p1, _, _, _, p5⟩ := hspec c1 q1 hrun
      by_cases hc : c1 < L
      · rw [if_pos hc] at h
        simp only [Except.ok.injEq, Prod.mk.injEq] at h
        obtain ⟨e1, e2, e3, e4, _⟩ := h
        subst e1 e2 e3 e4
        exact ⟨hs, hl, p1, Nat.le_refl _, fun hsl => p5 hsl hc⟩
      · rw [if_neg hc] at h
        have hs2 := sortedCopy_lists g _
          (sortedCopy_induced g _ (isOrder_randomised g (rand (seed + 1))))
        obtain ⟨r1, r2, r3, r4, r5⟩ := ih _ _ _ _ _ _ _ _ _ _ hs2.1 hs2.2
          (by show q1.vtx_colour.length = g.n; rw [p1.1, hs.1]) rfl h
        exact ⟨r1, r2, r3, by omega, r5⟩

/-- The restart loop returns: the budget grows by at least 100 in every round
and the number of `expand` calls of one `solve` is bounded. -/
theorem restart_loop_returns (g : ColouringGraph) (k f : Nat) (hf : 1 ≤ f)
    (rand : Nat → Nat → Nat) (hk : k ≤ INT_MAX) :
    ∀ e s clq L seed,
      SortedCopy g s → ListsBuilt s → clq.vtx_colour.length = g.n → clq.size = 0 →
      1000 ≤ L →
      call_bound ((k + BITS_PER_WORD - 1) / BITS_PER_WORD) (g.n * f) < L + 100 * e →
      ∃ r, restart_loop g f rand k (e + 1) s clq 0 L seed = .ok r := by
  intro e
  induction e with
  | zero =>
    intro s clq L seed hs hl hlen hsz hL hB
    rw [restart_loop_step]
    obtain ⟨h1, h2⟩ := solve_spec s hl (sortedCopy_symm g s hs) k f L 0 clq hf
      (incumbentOk_of_empty s k f hf clq (by rw [hlen, hs.1]) hsz)
    obtain ⟨⟨c1, q1⟩, hr⟩ := h2 hk
    rw [hr]
    simp only []
    obtain ⟨_, _, p3, _, _⟩ := h1 c1 q1 hr
    rw [hs.1] at p3
    rw [if_pos (by omega)]
    exact ⟨_, rfl⟩
  | succ e ih =>
    intro s clq L seed hs hl hlen hsz hL hB
    rw [restart_loop_step]
    obtain ⟨h1, h2⟩ := solve_spec s hl (sortedCopy_symm g s hs) k f L 0 clq hf
      (incumbentOk_of_empty s k f hf clq (by rw [hlen, hs.1]) hsz)
    obtain ⟨⟨c1, q1⟩, hr⟩ := h2 hk
    rw [hr]
    simp only []
    obtain ⟨p1, _, _, _, _⟩ := h1 c1 q1 hr
    by_cases hc : c1 < L
    · rw [if_pos hc]
      exact ⟨_, rfl⟩
    · rw [if_neg hc]
      have hs2 := sortedCopy_lists g _
        (sortedCopy_induced g _ (isOrder_randomised g (rand (seed + 1))))
      exact ih _ _ _ _ hs2.1 hs2.2
        (by show q1.vtx_colour.length = g.n; rw [p1.1, hs.1]) rfl (by omega) (by omega)

/-- What the loop over the number of colours returns: a number of colours, not
below the one it started from, with which a sorted copy of `g` has a colouring
in which competing vertices are disjoint. -/
theorem colour_loop_post (g : ColouringGraph) (f : Nat) (hf : 1 ≤ f)
    (rand : Nat → Nat → Nat) :
    ∀ fuel k s L seed k', SortedCopy g s →
      colour_loop g f rand fuel k s L seed = .ok k' →
      k ≤ k' ∧ ∃ s' A, SortedCopy g s' ∧ ComplementColouring s' k' f A := by
  intro fuel
  induction fuel with
  | zero =>
    intro k s L seed k' _ h
    exact absurd h (by simp [colour_loop])
  | succ fuel ih =>
    intro k s L seed k' hs h
    rw [colour_loop_step] at h
    obtain ⟨hs1, hl1⟩ := sortedCopy_lists g s hs
    cases hr : restart_loop g f rand k (fuel + 1) (make_adjacency_lists s)
        (init_Solution s.n) 0 L seed with
    | error e =>
      rw [hr] at h
      exact absurd h (by simp)
    | ok p =>
      obtain ⟨s', clq, c', L', seed'⟩ := p
      rw [hr] at h
      simp only [] at h
      obtain ⟨r1, _, r3, _, _⟩ := restart_loop_post g k f hf rand _ _ _ _ _ _ _ _ _ _ _
        hs1 hl1 (by rw [hs.1]; exact List.length_replicate _ _) rfl hr
      by_cases hc : clq.size = s'.n * f
      · rw [if_pos (beq_iff_eq.mpr hc)] at h
        simp only [Except.ok.injEq] at h
        subst h
        obtain ⟨A, hA, _⟩ := r3.2 hc
        exact ⟨Nat.le_refl _, s', A, r1, hA⟩
      · rw [if_neg (fun e => hc (beq_iff_eq.mp e))] at h
        obtain ⟨q1, q2⟩ := ih _ _ _ _ _ r1 h
        exact ⟨by omega, q2⟩

/-- The loop over the number of colours returns, at the latest at a number of
colours `K` with which the rows of the start of the search have slack on every
sorted copy. -/
theorem colour_loop_returns (g : ColouringGraph) (f : Nat) (hf : 1 ≤ f)
    (rand : Nat → Nat → Nat) (K e : Nat) (hK : K ≤ INT_MAX)
    (hslack : ∀ s, SortedCopy g s →
      Slack s ((K + BITS_PER_WORD - 1) / BITS_PER_WORD) f
        ((List.range s.n).foldl (fun a i => a.set i (set_first_n_bits (a.getD i 0) K))
          (List.replicate s.n 0))
        (List.replicate s.n 0)) :
    ∀ d k s L seed, SortedCopy g s → 1000 ≤ L → k + d = K →
      call_bound ((K + BITS_PER_WORD - 1) / BITS_PER_WORD) (g.n * f) < L + 100 * e →
      ∃ k', colour_loop g f rand (d + e + 1) k s L seed = .ok k' ∧ k' ≤ K := by
  intro d
  induction d with
  | zero =>
    intro k s L seed hs hL hk hB
    have hkK : k = K := by omega
    subst hkK
    rw [colour_loop_step]
    obtain ⟨hs1, hl1⟩ := sortedCopy_lists g s hs
    have hlen : (init_Solution s.n).vtx_colour.length = g.n := by
      rw [hs.1]; exact List.length_replicate _ _
    obtain ⟨⟨s', clq, c', L', seed'⟩, hr⟩ := restart_loop_returns g k f hf rand hK (0 + e)
      _ _ L seed hs1 hl1 hlen rfl hL (by omega)
    rw [hr]
    simp only []
    obtain ⟨r1, _, _, _, r5⟩ := restart_loop_post g k f hf rand _ _ _ _ _ _ _ _ _ _ _
      hs1 hl1 hlen rfl hr
    rw [if_pos (beq_iff_eq.mpr (r5 (hslack s' r1)))]
    exact ⟨_, rfl, Nat.le_refl _⟩
  | succ d ih =>
    intro k s L seed hs hL hk hB
    rw [colour_loop_step]
    obtain ⟨hs1, hl1⟩ := sortedCopy_lists g s hs
    have hlen : (init_Solution s.n).vtx_colour.length = g.n := by
      rw [hs.1]; exact List.length_replicate _ _
    have hcb : call_bound ((k + BITS_PER_WORD - 1) / BITS_PER_WORD) (g.n * f)
        ≤ call_bound ((K + BITS_PER_WORD - 1) / BITS_PER_WORD) (g.n * f) :=
      call_bound_mono_words (words_mono (by omega)) _
    obtain ⟨⟨s', clq, c', L', seed'⟩, hr⟩ := restart_loop_returns g k f hf rand (by omega)
      (d + 1 + e) _ _ L seed hs1 hl1 hlen rfl hL (by omega)
    rw [hr]
    simp only []
    obtain ⟨r1, _, _, r4, _⟩ := restart_loop_post g k f hf rand _ _ _ _ _ _ _ _ _ _ _
      hs1 hl1 hlen rfl hr
    by_cases hc : clq.size = s'.n * f
    · rw [if_pos (beq_iff_eq.mpr hc)]
      exact ⟨_, rfl, by omega⟩
    · rw [if_neg (fun e => hc (beq_iff_eq.mp e))]
      have hfu : d + 1 + e = d + e + 1 := by omega
      rw [hfu]
      exact ih (k + 1) s' L' seed' r1 (by omega) (by omega) (by omega)

/-- The run of `find_colouring_number`: with enough rounds, and with any larger
number of rounds, it returns one number `k`, at most a `K` with which every
sorted copy has slack at the start of the search, and a sorted copy of `g` has
a colouring with `k` colours in which competing vertices are disjoint. -/
theorem find_colouring_number_run (g : ColouringGraph) (f : Nat) (hf : 1 ≤ f)
    (rand : Nat → Nat → Nat) (K : Nat) (hK : K ≤ INT_MAX)
    (hslack : ∀ s, SortedCopy g s →
      Slack s ((K + BITS_PER_WORD - 1) / BITS_PER_WORD) f
        ((List.range s.n).foldl (fun a i => a.set i (set_first_n_bits (a.getD i 0) K))
          (List.replicate s.n 0))
        (List.replicate s.n 0)) :
    ∃ fuel k, k ≤ K ∧
      (∀ fuel', fuel ≤ fuel' → find_colouring_number fuel' g f rand = .ok k) ∧
      ∃ s A, SortedCopy g s ∧ ComplementColouring s k f A := by
  have hs0 := sortedCopy_induced g _ (isOrder_randomised g (rand 0))
  obtain ⟨k, hk, hle⟩ := colour_loop_returns g f hf rand K
    (call_bound ((K + BITS_PER_WORD - 1) / BITS_PER_WORD) (g.n * f)) hK hslack K 0 _ 1000 0
    hs0 (Nat.le_refl _) (by omega) (by omega)
  obtain ⟨_, hcol⟩ := colour_loop_post g f hf rand _ _ _ _ _ _ hs0 hk
  refine ⟨K + call_bound ((K + BITS_PER_WORD - 1) / BITS_PER_WORD) (g.n * f) + 1, k, hle, ?_,
    hcol⟩
  intro fuel' hf'
  exact colour_loop_mono_le g f rand _ fuel' hf' 0 _ 1000 0 k hk

/-! ## Slack on complete graphs -/

theorem symmetric_of_complete (g : ColouringGraph) (h : Complete g) : SymmetricMatrix g := by
  intro v hv w hw
  by_cases e : v = w
  · rw [e]
  · rw [h v hv w hw e, h w hw v hv (fun e2 => e e2.symm)]

/-- In a sorted copy of a complete graph no two vertices compete. -/
theorem sortedCopy_complete (g s : ColouringGraph) (hc : Complete g) (h : SortedCopy g s)
    (u w : Nat) : ¬ Compete s u w := by
  obtain ⟨h1, ⟨vv, hvv, hm⟩, _⟩ := h
  rintro ⟨hu, hw, hne, hadj⟩
  rw [h1] at hu hw
  rw [hm, induced_subgraph_entry g (symmetric_of_complete g hc) vv hvv u w hu hw hne,
    hc _ (hvv.2.1 u hu) _ (hvv.2.1 w hw) (fun e => hne (hvv.2.2 u w hu hw e))] at hadj
  exact Bool.noConfusion hadj

/-- With `f` colours, or none when there is no vertex, the rows of the start of
the search have slack on every sorted copy of a complete graph. -/
theorem complete_slack (g : ColouringGraph) (f : Nat) (hc : Complete g) (s : ColouringGraph)
    (h : SortedCopy g s) :
    Slack s (((if g.n = 0 then 0 else f) + BITS_PER_WORD - 1) / BITS_PER_WORD) f
      ((List.range s.n).foldl
        (fun a i => a.set i (set_first_n_bits (a.getD i 0) (if g.n = 0 then 0 else f)))
        (List.replicate s.n 0))
      (List.replicate s.n 0) := by
  apply initial_slack
  intro w hw
  have hn : g.n ≠ 0 := by
    have := h.1
    omega
  rw [if_neg hn]
  have hsub : (Finset.range s.n).filter (fun u => u = w ∨ Compete s u w) ⊆ {w} := by
    intro u hu
    rw [Finset.mem_filter] at hu
    rw [Finset.mem_singleton]
    rcases hu.2 with e | e
    · exact e
    · exact absurd e (sortedCopy_complete g s hc h u w)
  have hcard := Finset.card_le_card hsub
  rw [Finset.card_singleton] at hcard
  calc ((Finset.range s.n).filter (fun u => u = w ∨ Compete s u w)).card * f
      ≤ 1 * f := Nat.mul_le_mul_right f hcard
    _ = f := Nat.one_mul f

/-- A colouring that gives a vertex `f` distinct colours below `k` needs
`f ≤ k`. -/
theorem colouring_needs_colours (s : ColouringGraph) (k f : Nat) (A : Nat → Finset Nat)
    (hA : ComplementColouring s k f A) (hn : 0 < s.n) : f ≤ k := by
  obtain ⟨hcard, hlt⟩ := hA.1 0 hn
  have hsub : A 0 ⊆ Finset.range k := by
    intro c hc
    rw [Finset.mem_range]
    exact hlt c hc
  have := Finset.card_le_card hsub
  rw [Finset.card_range, hcard] at this
  exact this

/-- When `n * (n * m)` is in a range, so is `n * m`. -/
theorem le_of_mul_self_le (n m b : Nat) (h : n * (n * m) ≤ b) : n * m ≤ b := by
  rcases Nat.eq_zero_or_pos n with h0 | h0
  · rw [h0, Nat.zero_mul]
    exact Nat.zero_le b
  · exact Nat.le_trans (Nat.le_mul_of_pos_left (n * m) h0) h

/-! ## Termination of `find_colouring_number` -/

/-- C4: for every graph `g` and every `f ≥ 1` with `n * (n * f)` in the range
of `int` (every round has at most `n * f` colours, so that no `int` of the
source overflows in any round), and whatever the generator yields,
`find_colouring_number` terminates.  For each number of colours `k` with
`n * k` in the range of `int` the restart loop, entered with any sorted copy of
`g`, an empty incumbent and a budget of at least 1000, returns after finitely
many rounds; and the loop over `k` stops at some `k ≤ n * f`: with enough
rounds, and with any larger number of rounds, `find_colouring_number` returns
that `k`. -/
theorem find_colouring_number_terminates (g : ColouringGraph) (f : Nat)
    (rand : Nat → Nat → Nat) (hf : 1 ≤ f) (hmax : g.n * (g.n * f) ≤ INT_MAX) :
    (∀ k s clq L seed, k ≤ INT_MAX → g.n * k ≤ INT_MAX → SortedCopy g s → ListsBuilt s →
      clq.vtx_colour.length = g.n → clq.size = 0 → 1000 ≤ L →
      ∃ rounds r, restart_loop g f rand k rounds s clq 0 L seed = .ok r) ∧
    ∃ rounds k, k ≤ g.n * f ∧
      ∀ fuel, rounds ≤ fuel → find_colouring_number fuel g f rand = .ok k := by
  refine ⟨?_, ?_⟩
  · intro k s clq L seed hk _ hs hl hlen hsz hL
    exact ⟨_, restart_loop_returns g k f hf rand hk
      (call_bound ((k + BITS_PER_WORD - 1) / BITS_PER_WORD) (g.n * f)) s clq L seed
      hs hl hlen hsz hL (by omega)⟩
  · obtain ⟨fuel, k, h1, h2, _⟩ := find_colouring_number_run g f hf rand (g.n * f)
      (le_of_mul_self_le g.n f INT_MAX hmax)
      (fun s hs => initial_slack_of_le s (g.n * f) f (by rw [hs.1]))
    exact ⟨fuel, k, h1, h2⟩

/-- C4, at the path `0 - 1 - 2` with `f = 1`. -/
theorem find_colouring_number_terminates_witness :
    1 ≤ 1 ∧ path3.n * (path3.n * 1) ≤ INT_MAX ∧
    ∃ rounds k, k ≤ path3.n * 1 ∧
      ∀ fuel, rounds ≤ fuel → find_colouring_number fuel path3 1 (fun _ _ => 0) = .ok k :=
  ⟨by decide, by decide,
    (find_colouring_number_terminates path3 1 (fun _ _ => 0) (by decide) (by decide)).2⟩

/-! ## What `find_colouring_number` returns -/

set_option maxRecDepth 100000 in
/-- C1, counterexample: on the graph with two vertices and no edge, with
`f = 1`, `find_colouring_number` returns 2, although one colour suffices to
colour the graph: with no edge, both vertices may have colour 0. -/
theorem find_colouring_number_not_chromatic :
    find_colouring_number 3 edgeless2 1 (fun _ _ => 0) = .ok 2 ∧
    FoldColouring edgeless2 1 1 (fun _ => {0}) := by
  refine ⟨by decide!, ?_, ?_⟩
  · intro v _
    refine ⟨Finset.card_singleton _, ?_⟩
    intro c hc
    rw [Finset.mem_singleton] at hc
    omega
  · intro v w hv hw h
    have hn : edgeless2.n = 2 := rfl
    rw [hn] at hv hw
    have key : ∀ v, v < 2 → ∀ w, w < 2 → entry edgeless2.adj_matrix v w = false := by decide
    rw [key v hv w hw] at h
    exact Bool.noConfusion h

/-- C1, amended: for every graph `g` with a symmetric matrix and every `f ≥ 1`
with `n * (n * f)` in the range of `int` (every round has at most `n * f`
colours, so that no `int` of the source overflows in any round), whatever the
generator yields, `find_colouring_number` returns (with enough rounds, and with
any larger number of rounds) a number `k ≤ n * f` of colours with which every
vertex of `g` can be given `f` distinct colours from `{0..k-1}` so that any two
distinct vertices that are NOT adjacent get disjoint colour sets. -/
theorem find_colouring_number_sound (g : ColouringGraph) (f : Nat)
    (rand : Nat → Nat → Nat) (hsym : SymmetricMatrix g) (hf : 1 ≤ f)
    (hmax : g.n * (g.n * f) ≤ INT_MAX) :
    ∃ rounds k,
      (∀ fuel, rounds ≤ fuel → find_colouring_number fuel g f rand = .ok k) ∧
      k ≤ g.n * f ∧ ∃ A, ComplementColouring g k f A := by
  obtain ⟨fuel, k, h1, h2, s, A, hs, hA⟩ := find_colouring_number_run g f hf rand (g.n * f)
    (le_of_mul_self_le g.n f INT_MAX hmax)
    (fun s hs => initial_slack_of_le s (g.n * f) f (by rw [hs.1]))
  exact ⟨fuel, k, h2, h1, sortedCopy_colouring g s hsym hs k f A hA⟩

/-- C1, amended, at the graph with two vertices and no edge, with `f = 1`. -/
theorem find_colouring_number_sound_witness :
    SymmetricMatrix edgeless2 ∧ 1 ≤ 1 ∧ edgeless2.n * (edgeless2.n * 1) ≤ INT_MAX ∧
    ∃ rounds k,
      (∀ fuel, rounds ≤ fuel →
        find_colouring_number fuel edgeless2 1 (fun _ _ => 0) = .ok k) ∧
      k ≤ edgeless2.n * 1 ∧ ∃ A, ComplementColouring edgeless2 k 1 A :=
  ⟨by unfold SymmetricMatrix; decide, by decide, by decide,
    find_colouring_number_sound edgeless2 1 (fun _ _ => 0)
      (by unfold SymmetricMatrix; decide) (by decide) (by decide)⟩

set_option maxRecDepth 1000000 in
/-- The number returned need not be the least one either when it is the
non-adjacent vertices that must differ: on `dense10` with `f = 1`,
`find_colouring_number` returns 4, and `colours10` uses three colours. -/
theorem find_colouring_number_not_least :
    SymmetricMatrix dense10 ∧
    find_colouring_number 5 dense10 1 (fun _ _ => 0) = .ok 4 ∧
    ComplementColouring dense10 3 1 (fun v => {colours10.getD v 0}) := by
  refine ⟨by unfold SymmetricMatrix; decide!, by decide!, ?_, ?_⟩
  · intro v hv
    have hn : dense10.n = 10 := by decide!
    rw [hn] at hv
    refine ⟨Finset.card_singleton _, ?_⟩
    intro c hc
    rw [Finset.mem_singleton] at hc
    subst hc
    have : ∀ v, v < 10 → colours10.getD v 0 < 3 := by decide
    exact this v hv
  · intro v w hvw
    rw [Finset.disjoint_singleton]
    have key : ∀ v, v < 10 → ∀ w, w < 10 → v ≠ w →
        entry dense10.adj_matrix v w = false →
        colours10.getD v 0 ≠ colours10.getD w 0 := by decide!
    have hn : dense10.n = 10 := by decide!
    have h1 := hvw.1
    have h2 := hvw.2.1
    rw [hn] at h1 h2
    exact key v h1 w h2 hvw.2.2.1 hvw.2.2.2

/-! ## Complete graphs -/

set_option maxRecDepth 100000 in
/-- C5, counterexample: on the complete graph on two vertices with `f = 1`,
`find_colouring_number` returns 1, not `n * f = 2`. -/
theorem find_colouring_number_complete2 :
    find_colouring_number 2 complete2 1 (fun _ _ => 0) = .ok 1 ∧
    Complete complete2 ∧ complete2.n * 1 = 2 := by
  refine ⟨by decide!, ?_, rfl⟩
  unfold Complete
  decide

/-- C5, amended: on a complete graph (every two distinct vertices adjacent)
with `n ≥ 1` vertices and `f ≥ 1`, `n * f` in the range of `int`, whatever the
generator yields, `find_colouring_number` returns `f` (with enough rounds, and
with any larger number of rounds): no two vertices compete, so all of them take
the same `f` colours.  With `n = 0` it returns 0. -/
theorem find_colouring_number_complete (g : ColouringGraph) (f : Nat)
    (rand : Nat → Nat → Nat) (hc : Complete g) (hf : 1 ≤ f) (hmax : g.n * f ≤ INT_MAX) :
    ∃ rounds, ∀ fuel, rounds ≤ fuel →
      find_colouring_number fuel g f rand = .ok (if g.n = 0 then 0 else f) := by
  have hK : (if g.n = 0 then 0 else f) ≤ INT_MAX := by
    split
    · exact Nat.zero_le _
    · rename_i hn
      exact Nat.le_trans (Nat.le_mul_of_pos_left f (Nat.pos_of_ne_zero hn)) hmax
  obtain ⟨fuel, k, h1, h2, s, A, hs, hA⟩ := find_colouring_number_run g f hf rand
    (if g.n = 0 then 0 else f) hK (complete_slack g f hc)
  have hk : k = if g.n = 0 then 0 else f := by
    by_cases hn : g.n = 0
    · rw [if_pos hn] at h1 ⊢
      omega
    · rw [if_neg hn] at h1 ⊢
      have := colouring_needs_colours s k f A hA (by rw [hs.1]; omega)
      omega
  rw [← hk]
  exact ⟨fuel, h2⟩

/-- C5, amended, at the complete graph on two vertices with `f = 1`. -/
theorem find_colouring_number_complete_witness :
    Complete complete2 ∧ 1 ≤ 1 ∧ complete2.n * 1 ≤ INT_MAX ∧
    ∃ rounds, ∀ fuel, rounds ≤ fuel →
      find_colouring_number fuel complete2 1 (fun _ _ => 0)
        = .ok (if complete2.n = 0 then 0 else 1) :=
  ⟨by unfold Complete; decide, by decide, by decide,
    find_colouring_number_complete complete2 1 (fun _ _ => 0)
      (by unfold Complete; decide) (by decide) (by decide)⟩

/-! ## Rebuilding the neighbour lists -/

/-- C11, counterexample: on the path `0 - 1 - 2`, a second call of
`make_adjacency_lists` leaves the list of vertex 1 as `[0, 2, 0, 2]`, which is
not the ascending list `[0, 2]` of its neighbours. -/
theorem make_adjacency_lists_twice :
    (make_adjacency_lists (make_adjacency_lists path3)).adjlist.getD 1 [] = [0, 2, 0, 2] ∧
    neighbours (make_adjacency_lists (make_adjacency_lists path3)) 1 = [0, 2] := by
  decide

/-- C11, amended: `make_adjacency_lists` appends.  For every graph `g` with one
list per vertex, the call keeps `n` and the matrix, and leaves in `adjlist[v]`
what it held before followed by the strictly ascending list of the vertices `w`
with `adj_matrix[v][w]` set; so the list is exactly that ascending list when it
was empty before the call. -/
theorem make_adjacency_lists_appends (g : ColouringGraph) (hlen : g.adjlist.length = g.n) :
    (make_adjacency_lists g).n = g.n ∧
    (make_adjacency_lists g).adj_matrix = g.adj_matrix ∧
    ∀ v, v < g.n →
      (make_adjacency_lists g).adjlist.getD v []
        = g.adjlist.getD v [] ++ (List.range g.n).filter (fun w => entry g.adj_matrix v w) ∧
      ((List.range g.n).filter (fun w => entry g.adj_matrix v w)).Pairwise (· < ·) ∧
      (g.adjlist.getD v [] = [] →
        (make_adjacency_lists g).adjlist.getD v []
          = (List.range g.n).filter (fun w => entry g.adj_matrix v w)) := by
  obtain ⟨h1, h2, _, h4⟩ := make_adjacency_lists_spec g hlen
  refine ⟨h1, h2, ?_⟩
  intro v hv
  have h := h4 v hv
  unfold neighbours at h
  refine ⟨h, List.Pairwise.filter _ (List.pairwise_lt_range g.n), ?_⟩
  intro he
  rw [h, he, List.nil_append]

/-- C11, amended, at the path `0 - 1 - 2` with its lists built once. -/
theorem make_adjacency_lists_appends_witness :
    (make_adjacency_lists path3).adjlist.length = (make_adjacency_lists path3).n ∧
    (make_adjacency_lists (make_adjacency_lists path3)).n = (make_adjacency_lists path3).n :=
  ⟨by decide, (make_adjacency_lists_appends (make_adjacency_lists path3) (by decide)).1⟩

/-! ## The size of the partial assignment -/

/-- C16: `expand` restores the size of `C`.  Whatever the state, the rows and
the counts it is entered with, and on whichever path it returns (budget
exhausted, goal reached at entry, dead end before or during the unit
propagation, goal reached after it, trial loop left), `C.size` is on return
what it was at entry. -/
theorem expand_restores_size (g : ColouringGraph) (L W f fuel : Nat) (st : SearchState)
    (avail asg : List Nat) (st' : SearchState)
    (h : expand g L W f fuel st avail asg = .ok st') : st'.C.size = st.C.size := by
  cases fuel with
  | zero => exact absurd h (by simp [expand])
  | succ fuel =>
    rw [expand] at h
    simp only [] at h
    split at h
    · simp only [Except.ok.injEq] at h
      subst h
      rfl
    · split at h
      · simp only [Except.ok.injEq] at h
        subst h
        rfl
      · split at h
        · simp only [Except.ok.injEq] at h
          subst h
          rfl
        · split at h
          · exact absurd h (by simp)
          · simp only [Except.ok.injEq] at h
            subst h
            rfl
          · split at h
            · simp only [Except.ok.injEq] at h
              subst h
              rfl
            · split at h
              · exact absurd h (by simp)
              · split at h
                · exact absurd h (by simp)
                · simp only [Except.ok.injEq] at h
                  subst h
                  rfl

set_option maxRecDepth 100000 in
/-- C16, at the path `0 - 1 - 2` with two colours and `f = 1`, where `expand`
returns from its trial loop. -/
theorem expand_restores_size_witness :
    expand (make_adjacency_lists path3) 1000 1 1 5
      { C := init_Solution 3, incumbent := init_Solution 3, expand_call_count := 0 }
      [3, 3, 3] [0, 0, 0]
      = .ok { C := { size := 0, capacity := 3, vtx_colour := [0, 0, 1] },
              incumbent := { size := 3, capacity := 3, vtx_colour := [0, 0, 1] },
              expand_call_count := 3 } ∧
    (0 : Nat) = (init_Solution 3).size :=
  ⟨by decide!,
    expand_restores_size (make_adjacency_lists path3) 1000 1 1 5
      { C := init_Solution 3, incumbent := init_Solution 3, expand_call_count := 0 }
      [3, 3, 3] [0, 0, 0]
      { C := { size := 0, capacity := 3, vtx_colour := [0, 0, 1] },
        incumbent := { size := 3, capacity := 3, vtx_colour := [0, 0, 1] },
        expand_call_count := 3 } (by decide!)⟩

/-! ## The vertex order is a permutation -/

theorem nodup_of_isOrder (n : Nat) (vv : List Nat) (h : IsOrder n vv) : vv.Nodup := by
  obtain ⟨hlen, _, hinj⟩ := h
  rw [List.nodup_iff_injective_getElem]
  intro a b hab
  simp only [] at hab
  have ha : a.1 < n := by rw [← hlen]; exact a.2
  have hb : b.1 < n := by rw [← hlen]; exact b.2
  have := hinj a.1 b.1 ha hb
    (by rw [List.getD_eq_getElem _ _ a.2, List.getD_eq_getElem _ _ b.2]; exact hab)
  exact Fin.ext this

theorem mem_of_isOrder (n : Nat) (vv : List Nat) (h : IsOrder n vv) (v : Nat) :
    v ∈ vv ↔ v < n := by
  constructor
  · intro hv
    obtain ⟨j, hj, rfl⟩ := exists_getD_of_mem vv v hv
    exact h.2.1 j (by rw [← h.1]; exact hj)
  · intro hv
    obtain ⟨i, hi, rfl⟩ := isOrder_surj n vv h v hv
    exact getD_mem_of_lt vv i (by rw [h.1]; exact hi)

/-- C17: for every graph on `n` vertices and every sequence of values of the
generator, `randomised_vertex_order` returns a permutation of `0..n-1`: a list
of length `n` in which every vertex occurs exactly once (and nothing else
occurs). -/
theorem randomised_vertex_order_perm (g : ColouringGraph) (rand : Nat → Nat) :
    (randomised_vertex_order g rand).length = g.n ∧
    (∀ v, v < g.n → (randomised_vertex_order g rand).count v = 1) ∧
    (randomised_vertex_order g rand).Perm (List.range g.n) := by
  have h := isOrder_randomised g rand
  have hnd := nodup_of_isOrder g.n _ h
  refine ⟨h.1, ?_, ?_⟩
  · intro v hv
    exact List.count_eq_one_of_mem hnd ((mem_of_isOrder g.n _ h v).mpr hv)
  · rw [List.perm_ext_iff_of_nodup hnd (List.nodup_range g.n)]
    intro v
    rw [mem_of_isOrder g.n _ h v, List.mem_range]

/-! ## Soundness of a saturated incumbent, in the orientation of the search -/

/-- C18: for every graph `g` whose lists are built from its symmetric matrix,
every `k`, every `f ≥ 1` and every budget: if `solve`, entered with an empty
incumbent, leaves `incumbent.size = n * f`, then there are colour sets giving
every vertex exactly `f` distinct colours from `{0..k-1}`, disjoint for every
two distinct non-adjacent vertices, and containing the recorded colours; and
for `f = 1` the array `incumbent.vtx_colour` is such an assignment: its
entries are below `k` and differ on every two distinct non-adjacent
vertices. -/
theorem solve_sat_sound (g : ColouringGraph) (hl : ListsBuilt g) (hsym : SymmetricMatrix g)
    (k f L count : Nat) (inc : Solution) (hf : 1 ≤ f)
    (hlen : inc.vtx_colour.length = g.n) (hsz : inc.size = 0)
    (count' : Nat) (inc' : Solution)
    (hrun : solve g count L inc k f = .ok (count', inc')) (hsat : inc'.size = g.n * f) :
    (∃ A, ComplementColouring g k f A ∧ ∀ v, v < g.n → inc'.vtx_colour.getD v 0 ∈ A v) ∧
    (f = 1 →
      (∀ v, v < g.n → inc'.vtx_colour.getD v 0 < k) ∧
      ∀ v w, v < g.n → w < g.n → v ≠ w → entry g.adj_matrix v w = false →
        inc'.vtx_colour.getD v 0 ≠ inc'.vtx_colour.getD w 0) := by
  obtain ⟨A, hA, hmem⟩ := ((solve_spec g hl hsym k f L count inc hf
    (incumbentOk_of_empty g k f hf inc hlen hsz)).1 count' inc' hrun).1.2 hsat
  refine ⟨⟨A, hA, hmem⟩, ?_⟩
  intro hf1
  subst hf1
  have hsingle : ∀ v, v < g.n → A v = {inc'.vtx_colour.getD v 0} := by
    intro v hv
    obtain ⟨c, hc⟩ := Finset.card_eq_one.mp (hA.1 v hv).1
    have := hmem v hv
    rw [hc, Finset.mem_singleton] at this
    rw [hc, this]
  refine ⟨fun v hv => (hA.1 v hv).2 _ (hmem v hv), ?_⟩
  intro v w hv hw hne hadj
  have hd := hA.2 v w ⟨hv, hw, hne, hadj⟩
  rw [hsingle v hv, hsingle w hw, Finset.disjoint_singleton] at hd
  exact hd

set_option maxRecDepth 100000 in
/-- C18, at the path `0 - 1 - 2` with two colours: the ends of the path, which
are not adjacent, get the colours 0 and 1. -/
theorem solve_sat_sound_witness :
    ListsBuilt (make_adjacency_lists path3) ∧ SymmetricMatrix (make_adjacency_lists path3) ∧
    solve (make_adjacency_lists path3) 0 1000 (init_Solution 3) 2 1
      = .ok (3, { size := 3, capacity := 3, vtx_colour := [0, 0, 1] }) ∧
    ((1 : Nat) = 1 →
      (∀ v, v < (make_adjacency_lists path3).n → ([0, 0, 1] : List Nat).getD v 0 < 2) ∧
      ∀ v w, v < (make_adjacency_lists path3).n → w < (make_adjacency_lists path3).n →
        v ≠ w → entry (make_adjacency_lists path3).adj_matrix v w = false →
        ([0, 0, 1] : List Nat).getD v 0 ≠ ([0, 0, 1] : List Nat).getD w 0) :=
  ⟨listsBuilt_of_empty path3 (by decide), by unfold SymmetricMatrix; decide, by decide!,
    (solve_sat_sound (make_adjacency_lists path3) (listsBuilt_of_empty path3 (by decide))
      (by unfold SymmetricMatrix; decide) 2 1 1000 0 (init_Solution 3) (by decide) (by decide)
      (by decide) 3 { size := 3, capacity := 3, vtx_colour := [0, 0, 1] }
      (by decide!) (by decide!)).2⟩

/-! ## The sweep over the non-neighbours with repeated lists -/

theorem mem_join_replicate (m : Nat) (nb : List Nat) (x : Nat)
    (h : x ∈ (List.replicate m nb).flatten) : x ∈ nb := by
  rw [List.mem_flatten] at h
  obtain ⟨l, hl, hx⟩ := h
  rw [List.eq_of_mem_replicate hl] at hx
  exact hx

/-- Repeated calls of `make_adjacency_lists` on a graph with empty lists leave
in every list the ascending neighbours, repeated once per call. -/
theorem make_adjacency_lists_iterate (g : ColouringGraph)
    (h : g.adjlist = List.replicate g.n []) :
    ∀ m, (make_adjacency_lists^[m] g).n = g.n ∧
      (make_adjacency_lists^[m] g).adj_matrix = g.adj_matrix ∧
      (make_adjacency_lists^[m] g).adjlist.length = g.n ∧
      ∀ v, v < g.n → (make_adjacency_lists^[m] g).adjlist.getD v []
        = (List.replicate m (neighbours g v)).flatten := by
  intro m
  induction m with
  | zero =>
    refine ⟨rfl, rfl, by rw [Function.iterate_zero, id, h, List.length_replicate], ?_⟩
    intro v hv
    rw [Function.iterate_zero, id, h]
    simp [List.getD_eq_getElem?_getD, List.getElem?_replicate, hv]
  | succ m ih =>
    obtain ⟨i1, i2, i3, i4⟩ := ih
    rw [Function.iterate_succ_apply']
    obtain ⟨h1, h2, h3, h4⟩ := make_adjacency_lists_spec (make_adjacency_lists^[m] g)
      (by rw [i3, i1])
    refine ⟨by rw [h1, i1], by rw [h2, i2], by rw [h3, i1], ?_⟩
    intro v hv
    rw [h4 v (by rw [i1]; exact hv), i4 v hv, neighbours_congr g _ i1 i2 v]
    rw [List.replicate_succ', List.flatten_append, List.flatten_cons, List.flatten_nil,
      List.append_nil]

/-- C19: the sweep tolerates repeated lists.  If `adjlist[v]` is the ascending
list of the neighbours of `v` repeated `m ≥ 1` times, the vertices that reach
the body of a sweep for `v` (in the unit propagation and in the trial loop of
`expand`) are exactly the `w` with `w ≠ v` and `adj_matrix[v][w]` false, in
ascending order and each once. -/
theorem sweep_tolerates_repeated_lists (g : ColouringGraph) (v m : Nat) (hm : 1 ≤ m)
    (hlist : g.adjlist.getD v [] = (List.replicate m (neighbours g v)).flatten) :
    non_neighbours g v
      = (List.range g.n).filter (fun w => (w != v) && !entry g.adj_matrix v w) ∧
    (non_neighbours g v).Nodup ∧
    ∀ w, w ∈ non_neighbours g v ↔ w < g.n ∧ w ≠ v ∧ entry g.adj_matrix v w = false := by
  obtain ⟨m', rfl⟩ : ∃ m', m = m' + 1 := ⟨m - 1, by omega⟩
  rw [List.replicate_succ, List.flatten_cons] at hlist
  have heq : non_neighbours g v
      = (List.range g.n).filter (fun w => (w != v) && !entry g.adj_matrix v w) := by
    unfold non_neighbours
    rw [hlist, List.range_eq_range',
      swept_range' (neighbours g v) _ v (neighbours_sorted g v)
        (mem_join_replicate m' (neighbours g v)) g.n 0 0 (Nat.zero_le _)
        (fun j hj => absurd hj (Nat.not_lt_zero j)) (fun j _ _ => Nat.zero_le _)]
    apply List.filter_congr
    intro w hw
    rw [← List.range_eq_range', List.mem_range] at hw
    have hiff : w ∈ neighbours g v ↔ entry g.adj_matrix v w = true := by
      rw [mem_neighbours]
      exact ⟨fun h => h.2, fun h => ⟨hw, h⟩⟩
    cases hadj : entry g.adj_matrix v w with
    | true =>
      have : w ∈ neighbours g v := hiff.mpr hadj
      simp [this]
    | false =>
      have : w ∉ neighbours g v := fun hmem => by
        have := hiff.mp hmem
        rw [hadj] at this
        exact Bool.noConfusion this
      simp [this]
  refine ⟨heq, ?_, ?_⟩
  · rw [heq]
    exact List.Nodup.filter _ (List.nodup_range g.n)
  · intro w
    rw [heq, List.mem_filter, List.mem_range]
    simp only [Bool.and_eq_true, bne_iff_ne, ne_eq, Bool.not_eq_true']

set_option maxRecDepth 100000 in
/-- C19, at the path `0 - 1 - 2` after two calls of `make_adjacency_lists`: the
sweep for vertex 0, whose list is `[1, 1]`, reaches vertex 2 only. -/
theorem sweep_tolerates_repeated_lists_witness :
    (1 ≤ 2) ∧
    (make_adjacency_lists (make_adjacency_lists path3)).adjlist.getD 0 []
      = (List.replicate 2 (neighbours (make_adjacency_lists (make_adjacency_lists path3)) 0)).flatten
      ∧
    non_neighbours (make_adjacency_lists (make_adjacency_lists path3)) 0
      = (List.range (make_adjacency_lists (make_adjacency_lists path3)).n).filter
          (fun w => (w != 0) &&
            !entry (make_adjacency_lists (make_adjacency_lists path3)).adj_matrix 0 w) :=
  ⟨by decide, by decide,
    (sweep_tolerates_repeated_lists (make_adjacency_lists (make_adjacency_lists path3)) 0 2
      (by decide) (by decide)).1⟩

/-! ## Straight descent under slack -/

/-- With slack and a budget that allows one call for the node and one for every
colour still to be placed, a call of `expand` leaves a saturated incumbent and
makes at most that many calls: the first colour tried at every node leads to a
full assignment, and the trial loops stop as soon as the incumbent is
saturated. -/
theorem expand_direct (g : ColouringGraph) (hl : ListsBuilt g) (hsym : SymmetricMatrix g)
    (W k f L : Nat) :
    ∀ fuel st avail asg A st', SearchInv g W k f A st.C avail asg →
      IncumbentOk g k f st.incumbent → Slack g W f avail asg →
      st.expand_call_count + 1 + (g.n * f - st.C.size) < L →
      expand g L W f fuel st avail asg = .ok st' →
      st'.incumbent.size = g.n * f ∧
      st'.expand_call_count ≤ st.expand_call_count + 1 + (g.n * f - st.C.size) := by
  intro fuel
  induction fuel with
  | zero =>
    intro st avail asg A st' _ _ _ _ h
    exact absurd h (by simp [expand])
  | succ fuel ih =>
    intro st avail asg A st' hinv hinc hs hL h
    have hsz := size_le_of_inv g W k f A st.C avail asg hinv
    rw [expand] at h
    simp only [] at h
    have hbudget : ¬ (st.expand_call_count + 1 ≥ L) := by omega
    rw [if_neg hbudget] at h
    by_cases hgoal : st.C.size = g.n * f
    · rw [if_pos (beq_iff_eq.mpr hgoal)] at h
      simp only [Except.ok.injEq] at h
      subst h
      obtain ⟨_, hsat⟩ := incumbentOk_copy g W k f A st.C avail asg hinv hgoal
        st.incumbent hinc.1
      exact ⟨hsat, by simp only []; omega⟩
    · rw [if_neg (fun e => hgoal (beq_iff_eq.mp e))] at h
      obtain ⟨hscan1, hscan2⟩ := unit_scan_range g W f avail asg
      cases hscan : unit_scan avail asg W f (List.range g.n) [] with
      | none => exact absurd hscan (hscan2 (enough_of_slack g W f avail asg hs))
      | some stack =>
        rw [hscan] at h
        simp only [] at h
        obtain ⟨hen, hstack⟩ := hscan1 stack hscan
        have hfuel : total_bits W avail ≤ g.n * (BITS_PER_WORD * W) := by
          have := total_bits_le W avail
          rw [hinv.avail_len] at this
          exact this
        obtain ⟨C', r, hrun, hframe, hdead, hsome⟩ :=
          unit_propagation_spec g hl hsym W k f _ stack st.C avail asg A hinv hen hstack hfuel
        rw [hrun] at h
        cases r with
        | none => exact absurd rfl (hdead hs)
        | some p =>
          obtain ⟨avail', asg'⟩ := p
          simp only [] at h
          obtain ⟨A', hinv', hen', hmono, hsize', hslack'⟩ := hsome avail' asg' rfl
          have hsz' := size_le_of_inv g W k f A' C' avail' asg' hinv'
          by_cases hgoal' : C'.size = g.n * f
          · rw [if_pos (beq_iff_eq.mpr hgoal')] at h
            simp only [Except.ok.injEq] at h
            subst h
            obtain ⟨_, hsat⟩ := incumbentOk_copy g W k f A' C' avail' asg' hinv' hgoal'
              st.incumbent hinc.1
            exact ⟨hsat, by simp only []; omega⟩
          · rw [if_neg (fun e => hgoal' (beq_iff_eq.mp e))] at h
            obtain ⟨hch1, _⟩ := choose_branching_vertex_spec g avail' W
            cases hch : choose_branching_vertex g avail' W with
            | none =>
              rw [hch] at h
              exact absurd h (by simp)
            | some best_v =>
              rw [hch] at h
              simp only [] at h
              obtain ⟨hbv, _⟩ := hch1 best_v hch
              -- the first round of the trial loop
              have ht : BITS_PER_WORD * W + 1 = (BITS_PER_WORD * W) + 1 := rfl
              rw [trial_loop] at h
              cases hfsb : first_set_bit (copy_bitset (avail'.getD best_v 0) 0 W) W with
              | none =>
                rw [hfsb] at h
                exact absurd h (by simp)
              | some c =>
                rw [hfsb] at h
                simp only [] at h
                obtain ⟨hcbit, hcW⟩ := first_set_bit_some _ W c hfsb
                have hbit : (avail'.getD best_v 0).testBit c = true := by
                  rw [testBit_copy_bitset, if_pos hcW] at hcbit
                  exact hcbit
                have hva : best_v < asg'.length := by rw [hinv'.assigned_len]; exact hbv
                obtain ⟨avail1, hplace, p1, p2, p3, p4, p5⟩ :=
                  solution_colour_vtx_rows C' best_v c
                    (unset_rows c (non_neighbours g best_v) avail') asg' W f hva
                have hR := rowsAfter_trial g hl W f avail' asg' avail1 best_v c hbv
                  p1 p2 p3 p4 p5
                have hinv1 := rowsAfter_inv g hl hsym W k f A' C' avail' asg' hinv' best_v c
                  hbv hbit hcW _ hR
                have hslack1 := rowsAfter_slack g hl W k f A' C' avail' asg' hinv' best_v c
                  hbv hbit hcW _ hR (hslack' hs)
                unfold unset_rows at hplace
                simp only [hplace] at h
                cases hrec : expand g L W f fuel
                    { C := { size := C'.size + 1, capacity := C'.capacity,
                             vtx_colour := C'.vtx_colour.set best_v c },
                      incumbent := st.incumbent,
                      expand_call_count := st.expand_call_count + 1 }
                    avail1 (asg'.set best_v (asg'.getD best_v 0 + 1)) with
                | error e =>
                  rw [hrec] at h
                  exact absurd h (by simp)
                | ok st2 =>
                  rw [hrec] at h
                  simp only [] at h
                  obtain ⟨q1, q2⟩ := ih
                    { C := { size := C'.size + 1, capacity := C'.capacity,
                             vtx_colour := C'.vtx_colour.set best_v c },
                      incumbent := st.incumbent,
                      expand_call_count := st.expand_call_count + 1 }
                    avail1 (asg'.set best_v (asg'.getD best_v 0 + 1)) _ st2 hinv1 hinc hslack1
                    (by simp only []; omega) hrec
                  simp only [] at q2
                  have hstop : ¬ (st2.incumbent.size < g.n * f) := by omega
                  have hcond : (decide (st2.incumbent.size < g.n * f) &&
                      !test_bit (colours_in_all_domains g avail' W) c &&
                      !bitset_empty (unset_bit (copy_bitset (avail'.getD best_v 0) 0 W) c) W)
                      = false := by
                    rw [decide_eq_false hstop]
                    rfl
                  rw [if_neg (by rw [hcond]; exact Bool.false_ne_true)] at h
                  simp only [Except.ok.injEq] at h
                  subst h
                  exact ⟨q1, by simp only []; omega⟩

/-! ## Exactly saturating rows -/

/-- The first loop of the unit propagation stacks every vertex whose row is
non-empty and exactly saturating. -/
theorem unit_scan_units (W f : Nat) (avail asg : List Nat) :
    ∀ is stack0 stack, unit_scan avail asg W f is stack0 = some stack →
      (∀ x ∈ stack0, x ∈ stack) ∧
      ∀ i ∈ is, bitset_popcount (avail.getD i 0) W ≠ 0 →
        bitset_popcount (avail.getD i 0) W + asg.getD i 0 = f → i ∈ stack := by
  intro is
  induction is with
  | nil =>
    intro stack0 stack h
    simp only [unit_scan, Option.some.injEq] at h
    subst h
    exact ⟨fun x hx => hx, fun i hi => absurd hi (List.not_mem_nil i)⟩
  | cons i is ih =>
    intro stack0 stack h
    rw [unit_scan] at h
    by_cases hpush : bitset_popcount (avail.getD i 0) W ≠ 0 ∧
        bitset_popcount (avail.getD i 0) W + asg.getD i 0 = f
    · rw [if_pos ((push_cond _ _ _).mpr hpush)] at h
      obtain ⟨h1, h2⟩ := ih (i :: stack0) stack h
      refine ⟨fun x hx => h1 x (List.mem_cons_of_mem i hx), ?_⟩
      intro x hx hx1 hx2
      rcases List.mem_cons.mp hx with hx | hx
      · subst hx
        exact h1 x (List.mem_cons_self x stack0)
      · exact h2 x hx hx1 hx2
    · rw [if_neg (fun e => hpush ((push_cond _ _ _).mp e))] at h
      by_cases hdead : bitset_popcount (avail.getD i 0) W + asg.getD i 0 < f
      · rw [if_pos hdead] at h
        exact Option.noConfusion h
      · rw [if_neg hdead] at h
        obtain ⟨h1, h2⟩ := ih stack0 stack h
        refine ⟨h1, ?_⟩
        intro x hx hx1 hx2
        rcases List.mem_cons.mp hx with hx | hx
        · subst hx
          exact absurd ⟨hx1, hx2⟩ hpush
        · exact h2 x hx hx1 hx2

theorem unit_scan_stacked (g : ColouringGraph) (W f : Nat) (avail asg stack : List Nat)
    (h : unit_scan avail asg W f (List.range g.n) [] = some stack) :
    UnitsStacked g W f stack avail asg := by
  intro v hv h1 h2
  exact (unit_scan_units W f avail asg _ _ _ h).2 v (List.mem_range.mpr hv) h1 h2

/-- A sweep of the unit propagation keeps every exactly saturating vertex on
the stack. -/
theorem sweep_units (g : ColouringGraph) (W f c : Nat) (asg : List Nat) :
    ∀ ws avail stack avail' stack', (∀ w ∈ ws, w < g.n) → avail.length = g.n →
      UnitsStacked g W f stack avail asg →
      unit_sweep c asg W f ws avail stack = some (avail', stack') →
      UnitsStacked g W f stack' avail' asg := by
  intro ws
  induction ws with
  | nil =>
    intro avail stack avail' stack' _ _ hu h
    simp only [unit_sweep, Option.some.injEq, Prod.mk.injEq] at h
    rw [← h.1, ← h.2]
    exact hu
  | cons w ws ih =>
    intro avail stack avail' stack' hws hlen hu h
    have hw : w < g.n := hws w (List.mem_cons_self w ws)
    have hws' : ∀ x ∈ ws, x < g.n := fun x hx => hws x (List.mem_cons_of_mem w hx)
    rw [unit_sweep] at h
    by_cases ht : test_bit (avail.getD w 0) c = true
    · rw [if_pos ht] at h
      simp only [] at h
      have hrow : (avail.set w (unset_bit (avail.getD w 0) c)).getD w 0
          = unset_bit (avail.getD w 0) c := getD_set_same _ _ _ (by omega)
      rw [hrow] at h
      have hlen1 : (avail.set w (unset_bit (avail.getD w 0) c)).length = g.n := by
        rw [List.length_set]; exact hlen
      have hother : ∀ u, u ≠ w →
          (avail.set w (unset_bit (avail.getD w 0) c)).getD u 0 = avail.getD u 0 :=
        fun u hu => getD_set_other _ _ _ _ hu
      by_cases hpush : bitset_popcount (unset_bit (avail.getD w 0) c) W ≠ 0 ∧
          bitset_popcount (unset_bit (avail.getD w 0) c) W + asg.getD w 0 = f
      · rw [if_pos ((push_cond _ _ _).mpr hpush)] at h
        refine ih _ _ _ _ hws' hlen1 ?_ h
        intro u hu' h1 h2
        by_cases huw : u = w
        · rw [huw]; exact List.mem_cons_self w stack
        · rw [hother u huw] at h1 h2
          exact List.mem_cons_of_mem w (hu u hu' h1 h2)
      · rw [if_neg (fun e => hpush ((push_cond _ _ _).mp e))] at h
        by_cases hdead : bitset_popcount (unset_bit (avail.getD w 0) c) W + asg.getD w 0 < f
        · rw [if_pos hdead] at h
          exact Option.noConfusion h
        · rw [if_neg hdead] at h
          refine ih _ _ _ _ hws' hlen1 ?_ h
          intro u hu' h1 h2
          by_cases huw : u = w
          · rw [huw, hrow] at h1 h2
            exact absurd ⟨h1, h2⟩ hpush
          · rw [hother u huw] at h1 h2
            exact hu u hu' h1 h2
    · rw [if_neg ht] at h
      exact ih _ _ _ _ hws' hlen hu h

/-- After the unit propagation no vertex has a non-empty row that is exactly
saturating. -/
theorem unit_propagation_units (g : ColouringGraph) (hl : ListsBuilt g)
    (hsym : SymmetricMatrix g) (W k f : Nat) :
    ∀ fuel stack C avail asg A C' avail' asg',
      SearchInv g W k f A C avail asg → Enough g W f avail asg →
      StackOk g W f stack avail asg → UnitsStacked g W f stack avail asg →
      unit_propagation g W f fuel stack C avail asg = .ok (C', some (avail', asg')) →
      UnitsStacked g W f [] avail' asg' := by
  intro fuel
  induction fuel with
  | zero =>
    intro stack C avail asg A C' avail' asg' hinv hen hst hu h
    cases stack with
    | nil =>
      simp only [unit_propagation, Except.ok.injEq, Prod.mk.injEq, Option.some.injEq] at h
      obtain ⟨_, rfl, rfl⟩ := h
      exact hu
    | cons v stack =>
      exact absurd h (by simp [unit_propagation])
  | succ fuel ih =>
    intro stack C avail asg A C' avail' asg' hinv hen hst hu h
    cases stack with
    | nil =>
      simp only [unit_propagation, Except.ok.injEq, Prod.mk.injEq, Option.some.injEq] at h
      obtain ⟨_, rfl, rfl⟩ := h
      exact hu
    | cons v stack =>
      obtain ⟨hv, hpc, hsum⟩ := hst.2 v (List.mem_cons_self v stack)
      have hvs : v ∉ stack := (List.nodup_cons.mp hst.1).1
      have hnd : stack.Nodup := (List.nodup_cons.mp hst.1).2
      obtain ⟨c, hfsb⟩ := first_set_bit_of_popcount _ W hpc
      obtain ⟨hbit, hcW⟩ := first_set_bit_some _ W c hfsb
      have hva : v < asg.length := by rw [hinv.assigned_len]; exact hv
      have hval : v < avail.length := by rw [hinv.avail_len]; exact hv
      obtain ⟨avail1, hplace, p1, p2, p3, p4, p5⟩ :=
        solution_colour_vtx_rows C v c avail asg W f hva
      have hasg1v : (asg.set v (asg.getD v 0 + 1)).getD v 0 = asg.getD v 0 + 1 :=
        getD_set_same _ _ _ hva
      have hasg1 : ∀ u, u ≠ v → (asg.set v (asg.getD v 0 + 1)).getD u 0 = asg.getD u 0 :=
        fun u hu => getD_set_other _ _ _ _ hu
      have hpcv := popcount_unset_of_set (avail.getD v 0) c W hbit hcW
      have hen1 : Enough g W f avail1 (asg.set v (asg.getD v 0 + 1)) := by
        intro u hu
        by_cases huv : u = v
        · subst huv
          rw [hasg1v]
          by_cases hf : asg.getD u 0 + 1 = f
          · omega
          · rw [p4 hf]; omega
        · rw [p2 u huv, hasg1 u huv]; exact hen u hu
      have hst1 : StackOk g W f
          (if (asg.set v (asg.getD v 0 + 1)).getD v 0 != f then v :: stack else stack)
          avail1 (asg.set v (asg.getD v 0 + 1)) := by
        have hold : ∀ x ∈ stack, x < g.n ∧ bitset_popcount (avail1.getD x 0) W ≠ 0 ∧
            bitset_popcount (avail1.getD x 0) W + (asg.set v (asg.getD v 0 + 1)).getD x 0
              = f := by
          intro x hx
          have hxv : x ≠ v := fun e => hvs (e ▸ hx)
          rw [p2 x hxv, hasg1 x hxv]
          exact hst.2 x (List.mem_cons_of_mem v hx)
        rw [hasg1v]
        by_cases hf : asg.getD v 0 + 1 = f
        · rw [if_neg (fun e => (bne_iff_ne.mp e) hf)]
          exact ⟨hnd, hold⟩
        · rw [if_pos (bne_iff_ne.mpr hf)]
          refine ⟨hst.1, ?_⟩
          intro x hx
          rcases List.mem_cons.mp hx with hx | hx
          · subst hx
            rw [p4 hf, hasg1v]
            refine ⟨hv, ?_, ?_⟩ <;> omega
          · exact hold x hx
      have hu1 : UnitsStacked g W f
          (if (asg.set v (asg.getD v 0 + 1)).getD v 0 != f then v :: stack else stack)
          avail1 (asg.set v (asg.getD v 0 + 1)) := by
        intro u hun h1 h2
        by_cases huv : u = v
        · rw [huv] at h1 h2 ⊢
          rw [hasg1v]
          by_cases hf : asg.getD v 0 + 1 = f
          · exfalso
            apply h1
            rw [popcount_eq_zero_iff]
            exact p5 hf
          · rw [if_pos (bne_iff_ne.mpr hf)]
            exact List.mem_cons_self v stack
        · rw [p2 u huv] at h1 h2
          rw [hasg1 u huv] at h2
          have hmem := hu u hun h1 h2
          rcases List.mem_cons.mp hmem with e | e
          · exact absurd e huv
          · split
            · exact List.mem_cons_of_mem v e
            · exact e
      have hnn : ∀ w ∈ non_neighbours g v, w < g.n :=
        fun w hw => ((mem_non_neighbours g hl v w hv).mp hw).1
      have hR := rowsAfter_unit g hl W f avail asg avail1 v c hv p1 p2 p3 p4 p5
      have hinvR := rowsAfter_inv g hl hsym W k f A C avail asg hinv v c hv hbit hcW _ hR
      rw [unit_propagation, hfsb] at h
      simp only [hplace] at h
      cases hsw : unit_sweep c (asg.set v (asg.getD v 0 + 1)) W f (non_neighbours g v) avail1
          (if (asg.set v (asg.getD v 0 + 1)).getD v 0 != f then v :: stack else stack) with
      | none =>
        rw [hsw] at h
        simp at h
      | some r =>
        obtain ⟨avail2, stack2⟩ := r
        rw [hsw] at h
        simp only [] at h
        have hav2 := unit_sweep_avail c _ W f _ _ _ _ _ hsw
        subst hav2
        obtain ⟨hen2, hst2⟩ := sweep_total g W f c _ hcW _ _ _ _ _ hnn
          (by rw [p1]; exact hinv.avail_len) hen1 hst1 hsw
        have hu2 := sweep_units g W f c _ _ _ _ _ _ hnn
          (by rw [p1]; exact hinv.avail_len) hu1 hsw
        exact ih stack2 _ _ _ _ C' avail' asg' hinvR hen2 hst2 hu2 h

/-- After a placement on a vertex of a state in which no row is exactly
saturating, every vertex still has enough colours. -/
theorem rowsAfter_enough (g : ColouringGraph) (W f : Nat) (avail asg : List Nat)
    (hen : Enough g W f avail asg) (hu : UnitsStacked g W f [] avail asg)
    (hva : asg.length = g.n)
    (v c : Nat) (hv : v < g.n) (hc : (avail.getD v 0).testBit c = true) (hcW : c < 64 * W)
    (R : List Nat) (h : RowsAfter g W f avail asg v c R) :
    Enough g W f R (asg.set v (asg.getD v 0 + 1)) := by
  obtain ⟨_, r2, _, r4, _⟩ := h
  have hstrict : ∀ u, u < g.n → asg.getD u 0 < f →
      f < bitset_popcount (avail.getD u 0) W + asg.getD u 0 := by
    intro u hun hlt
    have h1 := hen u hun
    have hne : bitset_popcount (avail.getD u 0) W ≠ 0 := by omega
    have h2 : bitset_popcount (avail.getD u 0) W + asg.getD u 0 ≠ f := by
      intro e
      exact absurd (hu u hun hne e) (List.not_mem_nil u)
    omega
  intro u hun
  by_cases huv : u = v
  · subst huv
    rw [getD_set_same _ _ _ (by omega)]
    by_cases hf : asg.getD u 0 + 1 = f
    · omega
    · rw [r4 hf]
      have := popcount_unset_of_set (avail.getD u 0) c W hc hcW
      have := hen u hun
      omega
  · rw [getD_set_other _ _ _ _ huv, r2 u huv]
    split
    · have h1 := popcount_le_unset_succ (avail.getD u 0) c W
      have h2 := hen u hun
      by_cases hlt : asg.getD u 0 < f
      · have := hstrict u hun hlt
        omega
      · omega
    · exact hen u hun

/-! ## The search with assertions is the search -/

/-- The trial loop calls `expand` only on states that arise from its own rows
and counts by the placement of a colour of the row of the branching vertex:
two functions that agree on these states give the same loop. -/
theorem trial_loop_congr (g : ColouringGraph) (hl : ListsBuilt g) (hsym : SymmetricMatrix g)
    (W k f L : Nat)
    (run run' : SearchState → List Nat → List Nat → Except Fault SearchState) (fuel' : Nat)
    (hrec : ExpandSpec g W k f L run fuel')
    (best_v : Nat) (hbv : best_v < g.n) (uni : Nat) (avail asg : List Nat)
    (A : Nat → Finset Nat)
    (hagree : ∀ st c avail1, (avail.getD best_v 0).testBit c = true → c < 64 * W →
      RowsAfter g W f avail asg best_v c avail1 →
      SearchInv g W k f (Function.update A best_v (insert c (A best_v))) st.C avail1
        (asg.set best_v (asg.getD best_v 0 + 1)) →
      IncumbentOk g k f st.incumbent →
      run' st avail1 (asg.set best_v (asg.getD best_v 0 + 1))
        = run st avail1 (asg.set best_v (asg.getD best_v 0 + 1))) :
    ∀ t dc st, SearchInv g W k f A st.C avail asg → IncumbentOk g k f st.incumbent →
      (∀ j, dc.testBit j = true → (avail.getD best_v 0).testBit j = true) →
      trial_loop g W f run' best_v uni avail asg t dc st
        = trial_loop g W f run best_v uni avail asg t dc st := by
  intro t
  induction t with
  | zero =>
    intro dc st _ _ _
    rfl
  | succ t ih =>
    intro dc st hinv hinc hdc
    simp only [trial_loop]
    cases hfsb : first_set_bit dc W with
    | none => rfl
    | some c =>
      obtain ⟨hcbit, hcW⟩ := first_set_bit_some dc W c hfsb
      have hbit : (avail.getD best_v 0).testBit c = true := hdc c hcbit
      have hva : best_v < asg.length := by rw [hinv.assigned_len]; exact hbv
      have hlt := assigned_lt_of_bit g W k f A st.C avail asg hinv best_v c hbv hbit hcW
      obtain ⟨avail1, hplace, p1, p2, p3, p4, p5⟩ :=
        solution_colour_vtx_rows st.C best_v c
          (unset_rows c (non_neighbours g best_v) avail) asg W f hva
      have hR := rowsAfter_trial g hl W f avail asg avail1 best_v c hbv p1 p2 p3 p4 p5
      have hinv1 := rowsAfter_inv g hl hsym W k f A st.C avail asg hinv best_v c hbv hbit hcW
        _ hR
      unfold unset_rows at hplace
      simp only [hplace]
      have hag := hagree
        { st with C := { size := st.C.size + 1, capacity := st.C.capacity,
                         vtx_colour := st.C.vtx_colour.set best_v c } }
        c avail1 hbit hcW hR hinv1 hinc
      rw [hag]
      have hchild := hrec
        { st with C := { size := st.C.size + 1, capacity := st.C.capacity,
                         vtx_colour := st.C.vtx_colour.set best_v c } }
        avail1 (asg.set best_v (asg.getD best_v 0 + 1)) _ hinv1 hinc
      cases hrun : run
        { st with C := { size := st.C.size + 1, capacity := st.C.capacity,
                         vtx_colour := st.C.vtx_colour.set best_v c } }
        avail1 (asg.set best_v (asg.getD best_v 0 + 1)) with
      | error e => rfl
      | ok st2 =>
        obtain ⟨q1, q2, q3, _, _, _, _⟩ := hchild.1 st2 hrun
        simp only [] at q1 q2
        have hmono1 : ∀ u, asg.getD u 0 = f →
            (asg.set best_v (asg.getD best_v 0 + 1)).getD u 0 = f := by
          intro u hu
          have : u ≠ best_v := by intro e; subst e; omega
          rw [getD_set_other _ _ _ _ this]; exact hu
        have hframe : Framed g f asg st.C (solution_pop_vtx st2.C) :=
          framed_trans g f asg _ st.C _ st2.C (framed_place g f asg st.C best_v c hlt) q2 hmono1
        have hsize : (solution_pop_vtx st2.C).size = st.C.size := by
          show st2.C.size - 1 = st.C.size
          omega
        simp only []
        split
        · have hinv3 : SearchInv g W k f A (solution_pop_vtx st2.C) avail asg :=
            searchInv_of_framed g W k f A st.C _ avail asg hinv hframe hsize
          have hdc' : ∀ j, (unset_bit dc c).testBit j = true →
              (avail.getD best_v 0).testBit j = true := by
            intro j hj
            rw [testBit_unset_bit] at hj
            simp only [Bool.and_eq_true] at hj
            exact hdc j hj.1
          exact ih (unset_bit dc c) { st2 with C := solution_pop_vtx st2.C } hinv3 q3 hdc'
        · rfl

/-- The assertions never fail: when the test at the branching step holds of
every state the unit propagation can leave and the test at a call holds of
every state with enough colours, the search with assertions is the search. -/
theorem expand_asserting_eq (g : ColouringGraph) (hl : ListsBuilt g)
    (hsym : SymmetricMatrix g) (W k f L : Nat) (at_call at_branch : List Nat → List Nat → Bool)
    (hbranch : ∀ A C avail asg, SearchInv g W k f A C avail asg → C.size ≠ g.n * f →
      Enough g W f avail asg → UnitsStacked g W f [] avail asg → at_branch avail asg = true)
    (hcall : ∀ A C avail asg, SearchInv g W k f A C avail asg → Enough g W f avail asg →
      at_call avail asg = true) :
    ∀ fuel st avail asg A, SearchInv g W k f A st.C avail asg →
      IncumbentOk g k f st.incumbent →
      expand_asserting g L W f at_call at_branch fuel st avail asg
        = expand g L W f fuel st avail asg := by
  intro fuel
  induction fuel with
  | zero =>
    intro st avail asg A _ _
    rfl
  | succ fuel ih =>
    intro st avail asg A hinv hinc
    rw [expand, expand_asserting]
    simp only []
    by_cases hbudget : st.expand_call_count + 1 ≥ L
    · rw [if_pos hbudget, if_pos hbudget]
    · rw [if_neg hbudget, if_neg hbudget]
      by_cases hgoal : st.C.size = g.n * f
      · rw [if_pos (beq_iff_eq.mpr hgoal), if_pos (beq_iff_eq.mpr hgoal)]
      · rw [if_neg (fun e => hgoal (beq_iff_eq.mp e)), if_neg (fun e => hgoal (beq_iff_eq.mp e))]
        obtain ⟨hscan1, _⟩ := unit_scan_range g W f avail asg
        cases hscan : unit_scan avail asg W f (List.range g.n) [] with
        | none => rfl
        | some stack =>
          simp only []
          obtain ⟨hen, hstack⟩ := hscan1 stack hscan
          have hfuel : total_bits W avail ≤ g.n * (BITS_PER_WORD * W) := by
            have := total_bits_le W avail
            rw [hinv.avail_len] at this
            exact this
          obtain ⟨C', r, hrun, _, _, hsome⟩ :=
            unit_propagation_spec g hl hsym W k f _ stack st.C avail asg A hinv hen hstack hfuel
          rw [hrun]
          cases r with
          | none => rfl
          | some p =>
            obtain ⟨avail', asg'⟩ := p
            simp only []
            obtain ⟨A', hinv', hen', _, _, _⟩ := hsome avail' asg' rfl
            have hu' := unit_propagation_units g hl hsym W k f _ stack st.C avail asg A C'
              avail' asg' hinv hen hstack (unit_scan_stacked g W f avail asg stack hscan) hrun
            by_cases hgoal' : C'.size = g.n * f
            · rw [if_pos (beq_iff_eq.mpr hgoal'), if_pos (beq_iff_eq.mpr hgoal')]
            · rw [if_neg (fun e => hgoal' (beq_iff_eq.mp e)),
                if_neg (fun e => hgoal' (beq_iff_eq.mp e))]
              have hb := hbranch A' C' avail' asg' hinv' hgoal' hen' hu'
              rw [hb]
              simp only [Bool.not_true, Bool.false_eq_true, if_false]
              obtain ⟨hch1, _⟩ := choose_branching_vertex_spec g avail' W
              cases hch : choose_branching_vertex g avail' W with
              | none => rfl
              | some best_v =>
                simp only []
                obtain ⟨hbv, _⟩ := hch1 best_v hch
                have hdc : ∀ j, (copy_bitset (avail'.getD best_v 0) 0 W).testBit j = true →
                    (avail'.getD best_v 0).testBit j = true := by
                  intro j hj
                  rw [testBit_copy_bitset] at hj
                  by_cases hjW : j < 64 * W
                  · rw [if_pos hjW] at hj
                    exact hj
                  · rw [if_neg hjW, Nat.zero_testBit] at hj
                    exact absurd hj Bool.false_ne_true
                have hinvloop : SearchInv g W k f A'
                    ({ st with expand_call_count := st.expand_call_count + 1, C := C' } :
                      SearchState).C avail' asg' := hinv'
                rw [trial_loop_congr g hl hsym W k f L (expand g L W f fuel) _ fuel
                  (expand_spec g hl hsym W k f L fuel) best_v hbv _ avail' asg' A' ?_
                  _ _ _ hinvloop hinc hdc]
                intro st1 c avail1 hbit hcW hR hinv1 hinc1
                have hen1 := rowsAfter_enough g W f avail' asg' hen' hu' hinv'.assigned_len
                  best_v c hbv hbit hcW avail1 hR
                rw [hcall _ _ _ _ hinv1 hen1]
                simp only [if_true]
                exact ih st1 avail1 _ _ hinv1 hinc1

/-! ## Assertions that always hold -/

/-- With tests that always hold, the search with assertions is the search,
from every state. -/
theorem expand_asserting_trivial (g : ColouringGraph) (L W f : Nat) :
    ∀ fuel st avail asg,
      expand_asserting g L W f (fun _ _ => true) (fun _ _ => true) fuel st avail asg
        = expand g L W f fuel st avail asg := by
  intro fuel
  induction fuel with
  | zero =>
    intro st avail asg
    rfl
  | succ fuel ih =>
    intro st avail asg
    rw [expand, expand_asserting]
    simp only [Bool.not_true, Bool.false_eq_true, if_false, if_true, ih]

/-! ## The tests and the invariant -/

theorem solve_asserting_eq (g : ColouringGraph) (hl : ListsBuilt g) (hsym : SymmetricMatrix g)
    (k f L count : Nat) (inc : Solution) (hf : 1 ≤ f) (hinc : IncumbentOk g k f inc)
    (at_call at_branch : List Nat → List Nat → Bool)
    (hbranch : ∀ A C avail asg,
      SearchInv g ((k + BITS_PER_WORD - 1) / BITS_PER_WORD) k f A C avail asg →
      C.size ≠ g.n * f → Enough g ((k + BITS_PER_WORD - 1) / BITS_PER_WORD) f avail asg →
      UnitsStacked g ((k + BITS_PER_WORD - 1) / BITS_PER_WORD) f [] avail asg →
      at_branch avail asg = true)
    (hcall : ∀ A C avail asg,
      SearchInv g ((k + BITS_PER_WORD - 1) / BITS_PER_WORD) k f A C avail asg →
      Enough g ((k + BITS_PER_WORD - 1) / BITS_PER_WORD) f avail asg →
      at_call avail asg = true) :
    solve_asserting g at_call at_branch count L inc k f = solve g count L inc k f := by
  unfold solve_asserting solve
  simp only []
  rw [expand_asserting_eq g hl hsym ((k + BITS_PER_WORD - 1) / BITS_PER_WORD) k f L at_call
    at_branch hbranch hcall (L + 1)
    { C := init_Solution g.n, incumbent := inc, expand_call_count := count } _ _
    (fun _ => ∅) (initial_inv g k f hf) hinc]

theorem some_row_non_empty_of_inv (g : ColouringGraph) (W k f : Nat) (A : Nat → Finset Nat)
    (C : Solution) (avail asg : List Nat) (hinv : SearchInv g W k f A C avail asg)
    (hgoal : C.size ≠ g.n * f) (hen : Enough g W f avail asg) :
    some_row_non_empty g.n W avail asg = true := by
  have hne : asg.sum ≠ asg.length * f := by
    rw [← hinv.size, hinv.assigned_len]; exact hgoal
  obtain ⟨v, hv, hvlt⟩ := exists_lt_of_sum_ne asg f
    (fun v hv => hinv.bounded v (by rw [← hinv.assigned_len]; exact hv)) hne
  rw [hinv.assigned_len] at hv
  have hpc := hen v hv
  unfold some_row_non_empty
  rw [List.any_eq_true]
  refine ⟨v, List.mem_range.mpr hv, ?_⟩
  rw [(bitset_empty_eq_false_iff _ _).mpr (by omega)]
  rfl

theorem counts_bounded_of_inv (g : ColouringGraph) (W k f : Nat) (A : Nat → Finset Nat)
    (C : Solution) (avail asg : List Nat) (hinv : SearchInv g W k f A C avail asg) :
    counts_bounded g.n W f avail asg = true := by
  unfold counts_bounded
  rw [List.all_eq_true]
  intro v hv
  rw [List.mem_range] at hv
  rw [Bool.and_eq_true, Bool.or_eq_true]
  refine ⟨decide_eq_true (hinv.bounded v hv), ?_⟩
  by_cases hf : asg.getD v 0 = f
  · right
    rw [bitset_empty_iff]
    exact hinv.done_empty v hv hf
  · left
    exact bne_iff_ne.mpr hf

theorem rows_suffice_of_enough (g : ColouringGraph) (W f : Nat) (avail asg : List Nat)
    (hen : Enough g W f avail asg) : rows_suffice g.n W f avail asg = true := by
  unfold rows_suffice
  rw [List.all_eq_true]
  intro v hv
  rw [List.mem_range] at hv
  exact decide_eq_true (hen v hv)

theorem rows_exceed_of_units (g : ColouringGraph) (W f : Nat) (avail asg : List Nat)
    (hen : Enough g W f avail asg) (hu : UnitsStacked g W f [] avail asg) :
    rows_exceed g.n W f avail asg = true := by
  unfold rows_exceed
  rw [List.all_eq_true]
  intro v hv
  rw [List.mem_range] at hv
  rw [Bool.or_eq_true]
  by_cases hlt : f ≤ asg.getD v 0
  · left
    exact decide_eq_true hlt
  · right
    apply decide_eq_true
    have h1 := hen v hv
    have hne : bitset_popcount (avail.getD v 0) W ≠ 0 := by omega
    have h2 : bitset_popcount (avail.getD v 0) W + asg.getD v 0 ≠ f := by
      intro e
      exact absurd (hu v hv hne e) (List.not_mem_nil v)
    omega

/-- Under the invariant of the search a row has at most `k` bits, so that
with `n * k` in the range of `int` the score sums are in range. -/
theorem scores_in_range_of_inv (g : ColouringGraph) (W k f : Nat) (A : Nat → Finset Nat)
    (C : Solution) (avail asg : List Nat) (hinv : SearchInv g W k f A C avail asg)
    (hnk : g.n * k ≤ INT_MAX) : scores_in_range g.n W avail asg = true := by
  unfold scores_in_range
  rw [List.all_eq_true]
  intro v hv
  rw [List.mem_range] at hv
  apply decide_eq_true
  have h := popcount_le_of_palette (avail.getD v 0) W k (hinv.palette v hv)
  exact Nat.le_trans (Nat.mul_le_mul_left g.n h) hnk

/-! ## What holds at every call of the search -/

/-- C13: the precondition of the branching is never violated.  For every graph
whose lists are built from its symmetric matrix, `f ≥ 1` and `k` with `k`,
`n * k` and `n * f` in the range of `int` (so that no product or sum of `int`s
of the source overflows), a call of `solve` returns without ever indexing
with `-1`: neither `choose_branching_vertex` nor a `first_set_bit` call of the
trial loop or of the unit propagation yields `-1`.  Whenever a call of `expand`
reaches `choose_branching_vertex`, some vertex has a non-empty row (the
assertion of this at every branching step never fails) and `n` times the
popcount of any row is in the range of `int`, so that the `int` score sums do
not overflow (this assertion never fails either); and a vertex that
`choose_branching_vertex` returns lies in `[0, n)`. -/
theorem branching_precondition_holds (g : ColouringGraph) (hl : ListsBuilt g)
    (hsym : SymmetricMatrix g) (k f L count : Nat) (inc : Solution) (hf : 1 ≤ f)
    (hk : k ≤ INT_MAX) (hnk : g.n * k ≤ INT_MAX) (_hnf : g.n * f ≤ INT_MAX)
    (hlen : inc.vtx_colour.length = g.n) (hsz : inc.size = 0) :
    (∃ r, solve g count L inc k f = .ok r) ∧
    solve_asserting g (fun _ _ => true)
        (some_row_non_empty g.n ((k + BITS_PER_WORD - 1) / BITS_PER_WORD)) count L inc k f
      = solve g count L inc k f ∧
    solve_asserting g (fun _ _ => true)
        (scores_in_range g.n ((k + BITS_PER_WORD - 1) / BITS_PER_WORD)) count L inc k f
      = solve g count L inc k f ∧
    ∀ avail W v, choose_branching_vertex g avail W = some v → v < g.n := by
  have hinc := incumbentOk_of_empty g k f hf inc hlen hsz
  refine ⟨(solve_spec g hl hsym k f L count inc hf hinc).2 hk, ?_, ?_, ?_⟩
  · exact solve_asserting_eq g hl hsym k f L count inc hf hinc _ _
      (fun A C avail asg hinv hgoal hen _ =>
        some_row_non_empty_of_inv g _ k f A C avail asg hinv hgoal hen)
      (fun _ _ _ _ _ _ => rfl)
  · exact solve_asserting_eq g hl hsym k f L count inc hf hinc _ _
      (fun A C avail asg hinv _ _ _ =>
        scores_in_range_of_inv g _ k f A C avail asg hinv hnk)
      (fun _ _ _ _ _ _ => rfl)
  · intro avail W v hv
    exact ((choose_branching_vertex_spec g avail W).1 v hv).1

set_option maxRecDepth 100000 in
/-- C13, at the path `0 - 1 - 2` with two colours and `f = 1`. -/
theorem branching_precondition_holds_witness :
    ListsBuilt (make_adjacency_lists path3) ∧ SymmetricMatrix (make_adjacency_lists path3) ∧
    (make_adjacency_lists path3).n * 2 ≤ INT_MAX ∧
    (make_adjacency_lists path3).n * 1 ≤ INT_MAX ∧
    ∃ r, solve (make_adjacency_lists path3) 0 1000 (init_Solution 3) 2 1 = .ok r :=
  ⟨listsBuilt_of_empty path3 (by decide), by unfold SymmetricMatrix; decide, by decide,
    by decide,
    (branching_precondition_holds (make_adjacency_lists path3)
      (listsBuilt_of_empty path3 (by decide)) (by unfold SymmetricMatrix; decide)
      2 1 1000 0 (init_Solution 3) (by decide) (by decide) (by decide) (by decide)
      (by decide) (by decide)).1⟩

/-- C14: at entry to every call of `expand` reachable from `solve` with
`f ≥ 1`, and again when the call reaches its branching step, every vertex has
at most `f` colours, and an empty row when it has `f`.  The test holds of the
rows and counts `solve` starts from, and the assertion of it at every call
made by a trial loop and at every branching step never fails.  With `k`,
`n * k` and `n * f` in the range of `int` (so that no product or sum of `int`s
of the source overflows), `solve` returns. -/
theorem counts_stay_bounded (g : ColouringGraph) (hl : ListsBuilt g)
    (hsym : SymmetricMatrix g) (k f L count : Nat) (inc : Solution) (hf : 1 ≤ f)
    (hlen : inc.vtx_colour.length = g.n) (hsz : inc.size = 0) :
    counts_bounded g.n ((k + BITS_PER_WORD - 1) / BITS_PER_WORD) f
        ((List.range g.n).foldl (fun a i => a.set i (set_first_n_bits (a.getD i 0) k))
          (List.replicate g.n 0))
        (List.replicate g.n 0) = true ∧
    solve_asserting g
        (counts_bounded g.n ((k + BITS_PER_WORD - 1) / BITS_PER_WORD) f)
        (counts_bounded g.n ((k + BITS_PER_WORD - 1) / BITS_PER_WORD) f) count L inc k f
      = solve g count L inc k f ∧
    (k ≤ INT_MAX → g.n * k ≤ INT_MAX → g.n * f ≤ INT_MAX →
      ∃ r, solve g count L inc k f = .ok r) := by
  have hinc := incumbentOk_of_empty g k f hf inc hlen hsz
  refine ⟨counts_bounded_of_inv g _ k f _ _ _ _ (initial_inv g k f hf), ?_,
    fun hk _ _ => (solve_spec g hl hsym k f L count inc hf hinc).2 hk⟩
  exact solve_asserting_eq g hl hsym k f L count inc hf hinc _ _
    (fun A C avail asg hinv _ _ _ => counts_bounded_of_inv g _ k f A C avail asg hinv)
    (fun A C avail asg hinv _ => counts_bounded_of_inv g _ k f A C avail asg hinv)

set_option maxRecDepth 100000 in
/-- C14, at the path `0 - 1 - 2` with two colours and `f = 1`. -/
theorem counts_stay_bounded_witness :
    ListsBuilt (make_adjacency_lists path3) ∧ SymmetricMatrix (make_adjacency_lists path3) ∧
    solve_asserting (make_adjacency_lists path3)
        (counts_bounded (make_adjacency_lists path3).n ((2 + BITS_PER_WORD - 1) / BITS_PER_WORD)
          1)
        (counts_bounded (make_adjacency_lists path3).n ((2 + BITS_PER_WORD - 1) / BITS_PER_WORD)
          1) 0 1000 (init_Solution 3) 2 1
      = solve (make_adjacency_lists path3) 0 1000 (init_Solution 3) 2 1 :=
  ⟨listsBuilt_of_empty path3 (by decide), by unfold SymmetricMatrix; decide,
    (counts_stay_bounded (make_adjacency_lists path3)
      (listsBuilt_of_empty path3 (by decide)) (by unfold SymmetricMatrix; decide)
      2 1 1000 0 (init_Solution 3) (by decide) (by decide) (by decide)).2.1⟩

/-- C15: at entry to every call of `expand` made by a trial loop of a search
started by `solve`, every vertex has enough colours: the popcount of its row
plus its count is at least `f`.  The sweep of the trial loop never wipes out a
row, because at every branching step a vertex with fewer than `f` colours has
strictly more than `f` when the popcount of its row is added.  Neither
assertion ever fails.  With `k`, `n * k` and `n * f` in the range of `int` (so
that no product or sum of `int`s of the source overflows), `solve` returns. -/
theorem rows_suffice_below_root (g : ColouringGraph) (hl : ListsBuilt g)
    (hsym : SymmetricMatrix g) (k f L count : Nat) (inc : Solution) (hf : 1 ≤ f)
    (hlen : inc.vtx_colour.length = g.n) (hsz : inc.size = 0) :
    solve_asserting g
        (rows_suffice g.n ((k + BITS_PER_WORD - 1) / BITS_PER_WORD) f)
        (rows_exceed g.n ((k + BITS_PER_WORD - 1) / BITS_PER_WORD) f) count L inc k f
      = solve g count L inc k f ∧
    (k ≤ INT_MAX → g.n * k ≤ INT_MAX → g.n * f ≤ INT_MAX →
      ∃ r, solve g count L inc k f = .ok r) := by
  have hinc := incumbentOk_of_empty g k f hf inc hlen hsz
  refine ⟨?_, fun hk _ _ => (solve_spec g hl hsym k f L count inc hf hinc).2 hk⟩
  exact solve_asserting_eq g hl hsym k f L count inc hf hinc _ _
    (fun _ _ avail asg _ _ hen hu => rows_exceed_of_units g _ f avail asg hen hu)
    (fun _ _ avail asg _ hen => rows_suffice_of_enough g _ f avail asg hen)

set_option maxRecDepth 100000 in
/-- C15, at the path `0 - 1 - 2` with two colours and `f = 1`. -/
theorem rows_suffice_below_root_witness :
    ListsBuilt (make_adjacency_lists path3) ∧ SymmetricMatrix (make_adjacency_lists path3) ∧
    solve_asserting (make_adjacency_lists path3)
        (rows_suffice (make_adjacency_lists path3).n ((2 + BITS_PER_WORD - 1) / BITS_PER_WORD) 1)
        (rows_exceed (make_adjacency_lists path3).n ((2 + BITS_PER_WORD - 1) / BITS_PER_WORD) 1)
        0 1000 (init_Solution 3) 2 1
      = solve (make_adjacency_lists path3) 0 1000 (init_Solution 3) 2 1 :=
  ⟨listsBuilt_of_empty path3 (by decide), by unfold SymmetricMatrix; decide,
    (rows_suffice_below_root (make_adjacency_lists path3)
      (listsBuilt_of_empty path3 (by decide)) (by unfold SymmetricMatrix; decide)
      2 1 1000 0 (init_Solution 3) (by decide) (by decide) (by decide)).1⟩

/-! ## Enough colours -/

/-- C20: enough colours always succeed without backtracking.  For every graph
`g` whose lists are built from its symmetric matrix, every `f ≥ 1`, every
number of colours `k ≥ n * f` with `k` and `n * k` in the range of `int` and
every budget `L > n * f + 1`, `solve` started with the counter at 0 and an
empty incumbent returns with `incumbent.size = n * f` after at most
`n * f + 1` calls of `expand`; at every branching step `n` times the popcount
of any row is in the range of `int`, so that the `int` score sums do not
overflow; hence `find_colouring_number` never returns more than `n * f`. -/
theorem enough_colours_succeed (g : ColouringGraph) (hl : ListsBuilt g)
    (hsym : SymmetricMatrix g) (k f L : Nat) (inc : Solution) (hf : 1 ≤ f)
    (hk : g.n * f ≤ k) (hmax : k ≤ INT_MAX) (hnk : g.n * k ≤ INT_MAX)
    (hL : g.n * f + 1 < L)
    (hlen : inc.vtx_colour.length = g.n) (hsz : inc.size = 0) :
    (∃ count' inc', solve g 0 L inc k f = .ok (count', inc') ∧
      inc'.size = g.n * f ∧ count' ≤ g.n * f + 1) ∧
    solve_asserting g (fun _ _ => true)
        (scores_in_range g.n ((k + BITS_PER_WORD - 1) / BITS_PER_WORD)) 0 L inc k f
      = solve g 0 L inc k f ∧
    ∀ (rand : Nat → Nat → Nat) fuel k',
      find_colouring_number fuel g f rand = .ok k' → k' ≤ g.n * f := by
  have hinc := incumbentOk_of_empty g k f hf inc hlen hsz
  refine ⟨?_, ?_, ?_⟩
  · obtain ⟨⟨count', inc'⟩, hr⟩ := (solve_spec g hl hsym k f L 0 inc hf hinc).2 hmax
    refine ⟨count', inc', hr, ?_⟩
    unfold solve at hr
    simp only [] at hr
    cases hrun : expand g L ((k + BITS_PER_WORD - 1) / BITS_PER_WORD) f (L + 1)
        { C := init_Solution g.n, incumbent := inc, expand_call_count := 0 }
        ((List.range g.n).foldl (fun a i => a.set i (set_first_n_bits (a.getD i 0) k))
          (List.replicate g.n 0))
        (List.replicate g.n 0) with
    | error e =>
      rw [hrun] at hr
      exact absurd hr (by simp)
    | ok st' =>
      rw [hrun] at hr
      simp only [Except.ok.injEq, Prod.mk.injEq] at hr
      obtain ⟨q1, q2⟩ := expand_direct g hl hsym ((k + BITS_PER_WORD - 1) / BITS_PER_WORD) k f L
        (L + 1) { C := init_Solution g.n, incumbent := inc, expand_call_count := 0 }
        _ _ (fun _ => ∅) st' (initial_inv g k f hf) hinc (initial_slack_of_le g k f hk)
        (by simp only [init_Solution]; omega) hrun
      simp only [init_Solution, Nat.sub_zero] at q2
      rw [← hr.1, ← hr.2]
      exact ⟨q1, by omega⟩
  · exact solve_asserting_eq g hl hsym k f L 0 inc hf hinc _ _
      (fun A C avail asg hinv _ _ _ =>
        scores_in_range_of_inv g _ k f A C avail asg hinv hnk)
      (fun _ _ _ _ _ _ => rfl)
  · intro rand fuel k' hrun
    obtain ⟨fuel0, k0, hk0, hall, _⟩ := find_colouring_number_run g f hf rand (g.n * f)
      (by omega) (fun s hs => initial_slack_of_le s (g.n * f) f (by rw [hs.1]))
    have h1 := hall (max fuel fuel0) (Nat.le_max_right _ _)
    unfold find_colouring_number at hrun h1
    have h2 := colour_loop_mono_le g f rand fuel (max fuel fuel0) (Nat.le_max_left _ _)
      0 _ 1000 0 k' hrun
    rw [h1] at h2
    simp only [Except.ok.injEq] at h2
    omega

set_option maxRecDepth 100000 in
/-- C20, at the path `0 - 1 - 2` with three colours and `f = 1`. -/
theorem enough_colours_succeed_witness :
    ListsBuilt (make_adjacency_lists path3) ∧ SymmetricMatrix (make_adjacency_lists path3) ∧
    (make_adjacency_lists path3).n * 3 ≤ INT_MAX ∧
    (∃ count' inc', solve (make_adjacency_lists path3) 0 1000 (init_Solution 3) 3 1
        = .ok (count', inc') ∧
      inc'.size = (make_adjacency_lists path3).n * 1 ∧
      count' ≤ (make_adjacency_lists path3).n * 1 + 1) :=
  ⟨listsBuilt_of_empty path3 (by decide), by unfold SymmetricMatrix; decide, by decide,
    (enough_colours_succeed (make_adjacency_lists path3)
      (listsBuilt_of_empty path3 (by decide)) (by unfold SymmetricMatrix; decide)
      3 1 1000 (init_Solution 3) (by decide) (by decide) (by decide) (by decide)
      (by decide) (by decide) (by decide)).1⟩

/-! ## The candidates of the branching -/

theorem bitset_intersection_popcount_comm (a b W : Nat) :
    bitset_intersection_popcount a b W = bitset_intersection_popcount b a W := by
  unfold bitset_intersection_popcount
  congr 1
  funext count i
  rw [Nat.and_comm]

theorem filter_range_succ (p : Nat → Bool) (i : Nat) :
    (List.range (i + 1)).filter p = (List.range i).filter p ++ (if p i then [i] else []) := by
  rw [List.range_succ, List.filter_append]
  congr 1
  by_cases h : p i = true
  · rw [if_pos h, List.filter_cons_of_pos h, List.filter_nil]
  · rw [if_neg h, List.filter_cons_of_neg h, List.filter_nil]

/-- The first loop of `choose_branching_vertex` computes the least popcount of
a non-empty row and the vertices that have it, in ascending order. -/
theorem best_count_vertices_eq (avail : List Nat) (W n : Nat)
    (hb : ∀ x, x < n → bitset_popcount (avail.getD x 0) W ≤ INT_MAX) :
    (best_count_vertices avail W n).2
      = (List.range n).filter (fun v => !bitset_empty (avail.getD v 0) W &&
          bitset_popcount (avail.getD v 0) W == (best_count_vertices avail W n).1) ∧
    (∀ v, v < n → bitset_empty (avail.getD v 0) W = false →
      (best_count_vertices avail W n).1 ≤ bitset_popcount (avail.getD v 0) W) ∧
    ((∃ v, v < n ∧ bitset_empty (avail.getD v 0) W = false) →
      ∃ v, v < n ∧ bitset_empty (avail.getD v 0) W = false ∧
        bitset_popcount (avail.getD v 0) W = (best_count_vertices avail W n).1) := by
  unfold best_count_vertices
  refine @foldl_range_induction (Nat × List Nat)
    (fun i acc =>
      acc.2 = (List.range i).filter (fun v => !bitset_empty (avail.getD v 0) W &&
          bitset_popcount (avail.getD v 0) W == acc.1) ∧
      (∀ v, v < i → bitset_empty (avail.getD v 0) W = false →
        acc.1 ≤ bitset_popcount (avail.getD v 0) W) ∧
      ((∃ v, v < i ∧ bitset_empty (avail.getD v 0) W = false) →
        ∃ v, v < i ∧ bitset_empty (avail.getD v 0) W = false ∧
          bitset_popcount (avail.getD v 0) W = acc.1) ∧
      ((¬ ∃ v, v < i ∧ bitset_empty (avail.getD v 0) W = false) → acc.1 = INT_MAX))
    _ _ _ ?_ ?_ |>.imp_right (fun h => ⟨h.1, h.2.1⟩)
  · refine ⟨rfl, fun v hv => absurd hv (Nat.not_lt_zero v), ?_, fun _ => rfl⟩
    rintro ⟨v, hv, _⟩
    exact absurd hv (Nat.not_lt_zero v)
  · intro i acc hi ⟨h1, h2, h3, h4⟩
    by_cases he : bitset_empty (avail.getD i 0) W = true
    · rw [if_pos he]
      refine ⟨?_, ?_, ?_, ?_⟩
      · rw [filter_range_succ, he]
        simp only [Bool.not_true, Bool.false_and, Bool.false_eq_true, if_false,
          List.append_nil]
        exact h1
      · intro v hv hne
        rcases Nat.lt_succ_iff_lt_or_eq.mp hv with hlt | heq
        · exact h2 v hlt hne
        · rw [heq, he] at hne
          exact absurd hne (by decide)
      · rintro ⟨v, hv, hne⟩
        rcases Nat.lt_succ_iff_lt_or_eq.mp hv with hlt | heq
        · obtain ⟨w, hw, hw1, hw2⟩ := h3 ⟨v, hlt, hne⟩
          exact ⟨w, Nat.lt_succ_of_lt hw, hw1, hw2⟩
        · rw [heq, he] at hne
          exact absurd hne (by decide)
      · intro hno
        apply h4
        rintro ⟨v, hv, hne⟩
        exact hno ⟨v, Nat.lt_succ_of_lt hv, hne⟩
    · rw [if_neg he]
      have hne : bitset_empty (avail.getD i 0) W = false := by
        cases h : bitset_empty (avail.getD i 0) W with
        | true => exact absurd h he
        | false => rfl
      simp only []
      by_cases hlt : bitset_popcount (avail.getD i 0) W < acc.1
      · rw [if_pos hlt]
        simp only [beq_self_eq_true, if_true, List.nil_append]
        refine ⟨?_, ?_, ?_, fun hno => absurd ⟨i, Nat.lt_succ_self i, hne⟩ hno⟩
        · rw [filter_range_succ, hne]
          simp only [Bool.not_false, Bool.true_and, beq_self_eq_true, if_true]
          have hnil : (List.range i).filter (fun v =>
              bitset_popcount (avail.getD v 0) W == bitset_popcount (avail.getD i 0) W &&
              !bitset_empty (avail.getD v 0) W) = [] := by
            rw [List.filter_eq_nil_iff]
            intro v hv hc
            rw [List.mem_range] at hv
            rw [Bool.and_eq_true, beq_iff_eq] at hc
            have hvne : bitset_empty (avail.getD v 0) W = false := by
              cases h : bitset_empty (avail.getD v 0) W with
              | true => rw [h] at hc; exact absurd hc.2 (by decide)
              | false => rfl
            have := h2 v hv hvne
            omega
          have hnil' : (List.range i).filter (fun v => !bitset_empty (avail.getD v 0) W &&
              bitset_popcount (avail.getD v 0) W == bitset_popcount (avail.getD i 0) W) = [] := by
            rw [← hnil]
            apply List.filter_congr
            intro v _
            rw [Bool.and_comm]
          rw [hnil', List.nil_append]
        · intro v hv hvne
          rcases Nat.lt_succ_iff_lt_or_eq.mp hv with hlt' | heq
          · have := h2 v hlt' hvne
            omega
          · rw [heq]
        · intro _
          exact ⟨i, Nat.lt_succ_self i, hne, rfl⟩
      · rw [if_neg hlt]
        by_cases heq : bitset_popcount (avail.getD i 0) W = acc.1
        · rw [if_pos (beq_iff_eq.mpr heq)]
          refine ⟨?_, ?_, ?_, fun hno => absurd ⟨i, Nat.lt_succ_self i, hne⟩ hno⟩
          · rw [filter_range_succ, hne, ← h1]
            simp only [Bool.not_false, Bool.true_and]
            rw [if_pos (beq_iff_eq.mpr heq)]
          · intro v hv hvne
            rcases Nat.lt_succ_iff_lt_or_eq.mp hv with hlt' | heq'
            · exact h2 v hlt' hvne
            · rw [heq']; omega
          · intro _
            exact ⟨i, Nat.lt_succ_self i, hne, heq⟩
        · rw [if_neg (fun e => heq (beq_iff_eq.mp e))]
          refine ⟨?_, ?_, ?_, fun hno => absurd ⟨i, Nat.lt_succ_self i, hne⟩ hno⟩
          · rw [filter_range_succ, hne, ← h1]
            simp only [Bool.not_false, Bool.true_and]
            rw [if_neg (fun e => heq (beq_iff_eq.mp e)), List.append_nil]
          · intro v hv hvne
            rcases Nat.lt_succ_iff_lt_or_eq.mp hv with hlt' | heq'
            · exact h2 v hlt' hvne
            · rw [heq']; omega
          · intro _
            -- an earlier vertex has a non-empty row: the count is below `INT_MAX`
            by_cases hex : ∃ v, v < i ∧ bitset_empty (avail.getD v 0) W = false
            · obtain ⟨w, hw, hw1, hw2⟩ := h3 hex
              exact ⟨w, Nat.lt_succ_of_lt hw, hw1, hw2⟩
            · exfalso
              have := h4 hex
              have := hb i hi
              omega

/-! ## The scores of the branching -/

/-- The second loop of `choose_branching_vertex`, by indices: the score with
index `x` is the sum over the pairs `j < i` of what the pair adds to it. -/
theorem branching_scores_sum (g : ColouringGraph) (avail : List Nat) (W : Nat) (vs : List Nat)
    (c : Nat → Nat → Nat)
    (hc : ∀ i j, j < i → i < vs.length →
      c i j = if !entry g.adj_matrix (vs.getD i 0) (vs.getD j 0) then
        bitset_intersection_popcount (avail.getD (vs.getD i 0) 0) (avail.getD (vs.getD j 0) 0) W
        else 0) :
    (branching_scores g avail W vs).length = vs.length ∧
    ∀ x, x < vs.length → (branching_scores g avail W vs).getD x 0
      = ∑ i in Finset.range vs.length, ∑ j in Finset.range i,
          ((if x = i then c i j else 0) + (if x = j then c i j else 0)) := by
  unfold branching_scores
  refine @foldl_range_induction (List Nat)
    (fun n scores => scores.length = vs.length ∧
      ∀ x, x < vs.length → scores.getD x 0
        = ∑ i in Finset.range n, ∑ j in Finset.range i,
            ((if x = i then c i j else 0) + (if x = j then c i j else 0)))
    _ _ _ ?_ ?_
  · refine ⟨List.length_replicate _ _, ?_⟩
    intro x hx
    rw [Finset.sum_range_zero]
    exact getD_replicate_zero _ _
  · intro i scores hi ⟨hlen, hsum⟩
    have key := @foldl_range_induction (List Nat)
      (fun m sc => sc.length = vs.length ∧
        ∀ x, x < vs.length → sc.getD x 0
          = scores.getD x 0 + ∑ j in Finset.range m,
              ((if x = i then c i j else 0) + (if x = j then c i j else 0)))
      (fun scores j =>
        if !entry g.adj_matrix (vs.getD i 0) (vs.getD j 0) then
          let pc := bitset_intersection_popcount
            (avail.getD (vs.getD i 0) 0) (avail.getD (vs.getD j 0) 0) W
          let scores := scores.set i (scores.getD i 0 + pc)
          scores.set j (scores.getD j 0 + pc)
        else scores)
      scores i ?_ ?_
    · refine ⟨key.1, ?_⟩
      intro x hx
      rw [key.2 x hx, hsum x hx, Finset.sum_range_succ]
    · refine ⟨hlen, ?_⟩
      intro x _
      rw [Finset.sum_range_zero, Nat.add_zero]
    · intro j sc hj ⟨hl, hs⟩
      beta_reduce
      by_cases hadj : entry g.adj_matrix (vs.getD i 0) (vs.getD j 0) = true
      · have hcz : c i j = 0 := by
          rw [hc i j hj hi, hadj]
          rfl
        rw [hadj]
        simp only [Bool.not_true, Bool.false_eq_true, if_false]
        refine ⟨hl, ?_⟩
        intro x hx
        rw [hs x hx, Finset.sum_range_succ, hcz]
        simp only [ite_self, Nat.add_zero]
      · have hadj' : entry g.adj_matrix (vs.getD i 0) (vs.getD j 0) = false := by
          cases h : entry g.adj_matrix (vs.getD i 0) (vs.getD j 0) with
          | true => exact absurd h hadj
          | false => rfl
        have hcv : c i j = bitset_intersection_popcount
            (avail.getD (vs.getD i 0) 0) (avail.getD (vs.getD j 0) 0) W := by
          rw [hc i j hj hi, hadj']
          rfl
        rw [hadj']
        simp only [Bool.not_false, if_true]
        rw [← hcv]
        refine ⟨by rw [List.length_set, List.length_set]; exact hl, ?_⟩
        intro x hx
        have hij : i ≠ j := by omega
        rw [Finset.sum_range_succ, ← Nat.add_assoc, ← hs x hx]
        by_cases hxj : x = j
        · subst hxj
          rw [getD_set_same _ _ _ (by rw [List.length_set]; omega),
            getD_set_other _ _ _ _ (fun e => hij e.symm), if_neg (fun e => hij e.symm),
            if_pos rfl]
          omega
        · rw [getD_set_other _ _ _ _ hxj, if_neg hxj]
          by_cases hxi : x = i
          · subst hxi
            rw [getD_set_same _ _ _ (by omega), if_pos rfl, Nat.add_zero]
          · rw [getD_set_other _ _ _ _ hxi, if_neg hxi]
            rfl

/-- The double sum of the second loop, for a symmetric contribution: the score
with index `x` is the sum over the indices `j ≠ x`. -/
theorem pair_sum_symm (c : Nat → Nat → Nat) (hsym : ∀ i j, c i j = c j i) (x : Nat) :
    ∀ n, ∑ i in Finset.range n, ∑ j in Finset.range i,
        ((if x = i then c i j else 0) + (if x = j then c i j else 0))
      = if x < n then ∑ j in Finset.range n, (if j ≠ x then c x j else 0) else 0 := by
  intro n
  induction n with
  | zero => simp
  | succ n ih =>
    rw [Finset.sum_range_succ, ih]
    by_cases hxn : x < n
    · have hne : x ≠ n := by omega
      rw [if_pos hxn, if_pos (by omega : x < n + 1), Finset.sum_range_succ,
        if_pos (fun e => hne e.symm)]
      congr 1
      have : ∀ j, ((if x = n then c n j else 0) + (if x = j then c n j else 0))
          = if x = j then c n j else 0 := by
        intro j
        rw [if_neg hne, Nat.zero_add]
      simp only [this]
      rw [Finset.sum_ite_eq, if_pos (Finset.mem_range.mpr hxn)]
      exact hsym n x
    · rw [if_neg hxn]
      by_cases hx : x = n
      · subst hx
        rw [if_pos (Nat.lt_succ_self x), Finset.sum_range_succ, if_neg (fun h => h rfl),
          Nat.zero_add, Nat.add_zero]
        apply Finset.sum_congr rfl
        intro j hj
        rw [Finset.mem_range] at hj
        rw [if_pos rfl, if_neg (by omega : ¬ x = j), if_pos (by omega : j ≠ x), Nat.add_zero]
      · rw [if_neg (by omega : ¬ x < n + 1), Nat.zero_add]
        apply Finset.sum_eq_zero
        intro j hj
        rw [Finset.mem_range] at hj
        rw [if_neg hx, if_neg (by omega : ¬ x = j)]
        rfl

/-- A sum over the entries of a list, by indices. -/
theorem sum_map_eq_sum_range (l : List Nat) (F : Nat → Nat) :
    (l.map F).sum = ∑ j in Finset.range l.length, F (l.getD j 0) := by
  induction l with
  | nil => simp
  | cons a l ih =>
    rw [List.map_cons, List.sum_cons, List.length_cons, Finset.sum_range_succ', ih]
    simp only [List.getD_cons_succ, List.getD_cons_zero]
    omega

/-- The third loop of `choose_branching_vertex` returns the first candidate
whose score is largest. -/
theorem best_scoring_vertex_first_max (vs scores : List Nat) (hne : vs ≠ []) :
    ∃ b, b < vs.length ∧ best_scoring_vertex vs scores = some (vs.getD b 0) ∧
      (∀ j, j < vs.length → scores.getD j 0 ≤ scores.getD b 0) ∧
      (∀ j, j < b → scores.getD j 0 < scores.getD b 0) := by
  unfold best_scoring_vertex
  have key := @foldl_range_induction (Option Nat × Int)
    (fun i acc =>
      (i = 0 ∧ acc = ((none : Option Nat), (-1 : Int))) ∨
      ∃ b, b < i ∧ acc = (some (vs.getD b 0), (scores.getD b 0 : Int)) ∧
        (∀ j, j < i → scores.getD j 0 ≤ scores.getD b 0) ∧
        (∀ j, j < b → scores.getD j 0 < scores.getD b 0))
    (fun (acc : Option Nat × Int) i =>
      if (scores.getD i 0 : Int) > acc.2 then (some (vs.getD i 0), (scores.getD i 0 : Int))
      else acc)
    ((none : Option Nat), (-1 : Int)) vs.length ?_ ?_
  · rcases key with ⟨h0, _⟩ | ⟨b, hb, hacc, h1, h2⟩
    · exact absurd (List.length_eq_zero.mp h0) hne
    · exact ⟨b, hb, by rw [hacc], h1, h2⟩
  · exact Or.inl ⟨rfl, rfl⟩
  · intro i acc hi hinv
    beta_reduce
    right
    rcases hinv with ⟨h0, hacc⟩ | ⟨b, hb, hacc, h1, h2⟩
    · subst h0
      rw [hacc]
      have hpos : (scores.getD 0 0 : Int) > -1 := by
        have : (0 : Int) ≤ (scores.getD 0 0 : Int) := Int.ofNat_nonneg _
        omega
      rw [if_pos hpos]
      refine ⟨0, Nat.zero_lt_one, rfl, ?_, fun j hj => absurd hj (Nat.not_lt_zero j)⟩
      intro j hj
      have : j = 0 := by omega
      rw [this]
    · rw [hacc]
      simp only []
      by_cases hgt : (scores.getD i 0 : Int) > (scores.getD b 0 : Int)
      · rw [if_pos hgt]
        have hgt' : scores.getD b 0 < scores.getD i 0 := by omega
        refine ⟨i, Nat.lt_succ_self i, rfl, ?_, ?_⟩
        · intro j hj
          rcases Nat.lt_succ_iff_lt_or_eq.mp hj with hlt | heq
          · have := h1 j hlt
            omega
          · rw [heq]
        · intro j hj
          have := h1 j hj
          omega
      · rw [if_neg hgt]
        have hle : scores.getD i 0 ≤ scores.getD b 0 := by omega
        refine ⟨b, Nat.lt_succ_of_lt hb, rfl, ?_, h2⟩
        intro j hj
        rcases Nat.lt_succ_iff_lt_or_eq.mp hj with hlt | heq
        · exact h1 j hlt
        · rw [heq]; exact hle

theorem find?_first (l : List Nat) (p : Nat → Bool) :
    ∀ b, b < l.length → p (l.getD b 0) = true → (∀ j, j < b → p (l.getD j 0) = false) →
      l.find? p = some (l.getD b 0) := by
  induction l with
  | nil =>
    intro b hb
    exact absurd hb (Nat.not_lt_zero b)
  | cons a l ih =>
    intro b hb hp hlt
    cases b with
    | zero =>
      rw [List.getD_cons_zero] at hp ⊢
      exact List.find?_cons_of_pos l hp
    | succ b =>
      have ha := hlt 0 (Nat.succ_pos b)
      rw [List.getD_cons_zero] at ha
      rw [List.find?_cons_of_neg l (by rw [ha]; exact Bool.false_ne_true), List.getD_cons_succ]
      rw [List.getD_cons_succ] at hp
      apply ih b (by rw [List.length_cons] at hb; omega) hp
      intro j hj
      have := hlt (j + 1) (by omega)
      rw [List.getD_cons_succ] at this
      exact this

theorem sum_map_ite_eq (l : List Nat) (hnd : l.Nodup) (x : Nat) (hx : x ∈ l) (F : Nat → Nat) :
    (l.map (fun v => if v = x then F v else 0)).sum = F x := by
  induction l with
  | nil => exact absurd hx (List.not_mem_nil x)
  | cons a l ih =>
    rw [List.map_cons, List.sum_cons]
    have hnd' := (List.nodup_cons.mp hnd).2
    have hal := (List.nodup_cons.mp hnd).1
    by_cases hax : a = x
    · rw [if_pos hax, hax]
      have hzero : (l.map (fun v => if v = x then F v else 0)).sum = 0 := by
        apply List.sum_eq_zero
        intro y hy
        rw [List.mem_map] at hy
        obtain ⟨v, hv, rfl⟩ := hy
        rw [if_neg]
        intro e
        rw [e] at hv
        rw [hax] at hal
        exact hal hv
      rw [hzero, Nat.add_zero]
    · rw [if_neg hax, Nat.zero_add]
      rcases List.mem_cons.mp hx with e | e
      · exact absurd e.symm hax
      · exact ih hnd' e

/-! ## The rule of the specification against the loops -/

theorem filter_range_pairwise (n : Nat) (p : Nat → Bool) :
    ((List.range n).filter p).Pairwise (· < ·) :=
  List.Pairwise.filter _ (List.pairwise_lt_range n)

theorem filter_range_nodup (n : Nat) (p : Nat → Bool) : ((List.range n).filter p).Nodup :=
  List.Nodup.filter _ (List.nodup_range n)

/-- Step 1 and step 2 of the rule against the first loop. -/
theorem rule_candidates_eq (avail : List Nat) (W n : Nat)
    (hb : ∀ x, x < n → bitset_popcount (avail.getD x 0) W ≤ INT_MAX)
    (hne : ∃ x, x < n ∧ bitset_empty (avail.getD x 0) W = false) :
    rule_least_popcount n W avail = (best_count_vertices avail W n).1 ∧
    rule_candidates n W avail = (best_count_vertices avail W n).2 := by
  obtain ⟨h1, h2, h3⟩ := best_count_vertices_eq avail W n hb
  obtain ⟨v0, hv0, hv0ne, hv0pc⟩ := h3 hne
  have hm : rule_least_popcount n W avail = (best_count_vertices avail W n).1 := by
    unfold rule_least_popcount
    have hmin : (((List.range n).filter (fun v => !bitset_empty (avail.getD v 0) W)).map
        (fun v => bitset_popcount (avail.getD v 0) W)).min?
        = some (best_count_vertices avail W n).1 := by
      rw [List.min?_eq_some_iff']
      refine ⟨?_, ?_⟩
      · rw [List.mem_map]
        refine ⟨v0, ?_, hv0pc⟩
        rw [List.mem_filter, List.mem_range, hv0ne]
        exact ⟨hv0, rfl⟩
      · intro b hb'
        rw [List.mem_map] at hb'
        obtain ⟨v, hv, rfl⟩ := hb'
        rw [List.mem_filter, List.mem_range] at hv
        apply h2 v hv.1
        cases h : bitset_empty (avail.getD v 0) W with
        | true => rw [h] at hv; exact absurd hv.2 (by decide)
        | false => rfl
    rw [hmin]
    rfl
  refine ⟨hm, ?_⟩
  unfold rule_candidates
  rw [hm, h1]
  apply List.filter_congr
  intro v _
  cases he : bitset_empty (avail.getD v 0) W with
  | false => rfl
  | true =>
    simp only [Bool.not_true, Bool.false_and]
    rw [beq_eq_false_iff_ne]
    intro e
    have h0 : bitset_popcount (avail.getD v 0) W = 0 := by
      by_contra hc
      have := (bitset_empty_eq_false_iff _ _).mpr hc
      rw [he] at this
      exact absurd this (by decide)
    have h1' := (bitset_empty_eq_false_iff _ _).mp hv0ne
    omega

/-- The scores of the second loop are the scores with every pair counted
once. -/
theorem branching_scores_eq (g : ColouringGraph) (hsym : SymmetricMatrix g)
    (avail : List Nat) (W : Nat) (S : List Nat) (hnd : S.Nodup) (hlt : ∀ v ∈ S, v < g.n) :
    (branching_scores g avail W S).length = S.length ∧
    ∀ x, x < S.length →
      (branching_scores g avail W S).getD x 0 = pair_score g W avail S (S.getD x 0) := by
  have hinj : ∀ i j, i < S.length → j < S.length → S.getD i 0 = S.getD j 0 → i = j := by
    intro i j hi hj h
    rw [List.getD_eq_getElem _ _ hi, List.getD_eq_getElem _ _ hj] at h
    exact (List.Nodup.getElem_inj_iff hnd).mp h
  have hmem : ∀ i, i < S.length → S.getD i 0 < g.n :=
    fun i hi => hlt _ (getD_mem_of_lt S i hi)
  obtain ⟨h1, h2⟩ := branching_scores_sum g avail W S
    (fun i j => if i < S.length ∧ j < S.length then
      (if !entry g.adj_matrix (S.getD i 0) (S.getD j 0) then
        bitset_intersection_popcount (avail.getD (S.getD i 0) 0) (avail.getD (S.getD j 0) 0) W
      else 0) else 0)
    (fun i j hj hi => by
      beta_reduce
      rw [if_pos (show i < S.length ∧ j < S.length from ⟨hi, by omega⟩)])
  refine ⟨h1, ?_⟩
  intro x hx
  rw [h2 x hx, pair_sum_symm _ ?_ x S.length, if_pos hx]
  · unfold pair_score
    rw [sum_map_eq_sum_range]
    apply Finset.sum_congr rfl
    intro j hj
    rw [Finset.mem_range] at hj
    beta_reduce
    by_cases hjx : j = x
    · rw [hjx, if_neg (fun h => h rfl)]
      simp only [bne_self_eq_false, Bool.false_and, Bool.false_eq_true, if_false]
    · rw [if_pos hjx, if_pos (show x < S.length ∧ j < S.length from ⟨hx, hj⟩)]
      have hne : (S.getD x 0 != S.getD j 0) = true := by
        rw [bne_iff_ne]
        intro e
        exact hjx (hinj x j hx hj e).symm
      rw [hne, Bool.true_and]
  · intro i j
    beta_reduce
    by_cases hi : i < S.length
    · by_cases hj : j < S.length
      · rw [if_pos (show i < S.length ∧ j < S.length from ⟨hi, hj⟩),
          if_pos (show j < S.length ∧ i < S.length from ⟨hj, hi⟩),
          hsym _ (hmem i hi) _ (hmem j hj),
          bitset_intersection_popcount_comm (avail.getD (S.getD i 0) 0)]
      · rw [if_neg (fun h => hj h.2), if_neg (fun h => hj h.1)]
    · rw [if_neg (fun h => hi h.1), if_neg (fun h => hi h.2)]

/-- The score of the rule, which counts every ordered pair, is twice the score
with every pair counted once. -/
theorem rule_score_eq (g : ColouringGraph) (hsym : SymmetricMatrix g)
    (avail : List Nat) (W : Nat) (S : List Nat) (hnd : S.Nodup) (hlt : ∀ v ∈ S, v < g.n)
    (x : Nat) (hx : x ∈ S) :
    rule_score g W avail S x = 2 * pair_score g W avail S x := by
  unfold rule_score
  have hinner : ∀ v, v ∈ S →
      (S.map (fun w =>
        if v != w && !entry g.adj_matrix v w then
          (if v = x then
              bitset_intersection_popcount (avail.getD v 0) (avail.getD w 0) W else 0)
          + (if w = x then
              bitset_intersection_popcount (avail.getD v 0) (avail.getD w 0) W else 0)
        else 0)).sum
      = (if v = x then pair_score g W avail S v else 0)
        + (if v != x && !entry g.adj_matrix v x then
            bitset_intersection_popcount (avail.getD v 0) (avail.getD x 0) W else 0) := by
    intro v _
    have hsplit : ∀ w,
        (if v != w && !entry g.adj_matrix v w then
          (if v = x then
              bitset_intersection_popcount (avail.getD v 0) (avail.getD w 0) W else 0)
          + (if w = x then
              bitset_intersection_popcount (avail.getD v 0) (avail.getD w 0) W else 0)
        else 0)
        = (if v = x then
            (if v != w && !entry g.adj_matrix v w then
              bitset_intersection_popcount (avail.getD v 0) (avail.getD w 0) W else 0)
            else 0)
          + (if w = x then
              (if v != w && !entry g.adj_matrix v w then
                bitset_intersection_popcount (avail.getD v 0) (avail.getD w 0) W else 0)
              else 0) := by
      intro w
      by_cases hc : (v != w && !entry g.adj_matrix v w) = true
      · rw [if_pos hc, if_pos hc]
      · rw [if_neg hc, if_neg hc]
        simp only [ite_self, Nat.add_zero]
    simp only [hsplit]
    rw [List.sum_map_add]
    congr 1
    · by_cases hvx : v = x
      · simp only [if_pos hvx]
        rfl
      · simp only [if_neg hvx]
        exact List.sum_eq_zero (fun y hy => by
          rw [List.mem_map] at hy
          obtain ⟨_, _, rfl⟩ := hy
          rfl)
    · exact sum_map_ite_eq S hnd x hx
        (fun w => if v != w && !entry g.adj_matrix v w then
          bitset_intersection_popcount (avail.getD v 0) (avail.getD w 0) W else 0)
  rw [List.map_congr_left hinner, List.sum_map_add,
    sum_map_ite_eq S hnd x hx (fun v => pair_score g W avail S v)]
  have hsecond : (S.map (fun v =>
      if v != x && !entry g.adj_matrix v x then
        bitset_intersection_popcount (avail.getD v 0) (avail.getD x 0) W else 0)).sum
      = pair_score g W avail S x := by
    unfold pair_score
    congr 1
    apply List.map_congr_left
    intro v hv
    rw [hsym v (hlt v hv) x (hlt x hx), bitset_intersection_popcount_comm]
    have : (v != x) = (x != v) := by
      by_cases e : v = x
      · rw [e]
      · rw [bne_iff_ne.mpr e, bne_iff_ne.mpr (fun h => e h.symm)]
    rw [this]
  rw [hsecond]
  omega

/-! ## The range of the scores -/

/-- The popcount of an intersection counts the common bits below
`64 * W`. -/
theorem bitset_intersection_popcount_eq (a b W : Nat) :
    bitset_intersection_popcount a b W
      = (List.range (64 * W)).countP (fun j => a.testBit j && b.testBit j) := by
  unfold bitset_intersection_popcount
  rw [foldl_add_eq_sum, Nat.zero_add, List.map_reverse, List.sum_reverse, countP_range_mul]
  congr 1
  apply List.map_congr_left
  intro i _
  unfold popcountll
  rw [count_bits_eq, show BITS_PER_WORD = 64 from rfl]
  apply List.countP_congr
  intro j hj
  rw [Nat.testBit_and, testBit_word, testBit_word]
  simp [List.mem_range.mp hj]

/-- The popcount of an intersection is at most the popcount of the first
row. -/
theorem bitset_intersection_popcount_le (a b W : Nat) :
    bitset_intersection_popcount a b W ≤ bitset_popcount a W := by
  rw [bitset_intersection_popcount_eq, bitset_popcount_eq]
  apply List.countP_mono_left
  intro j _ h
  rw [Bool.and_eq_true] at h
  exact h.1

/-- A score with every pair counted once is at most the number of candidates
times the popcount of the row of the vertex. -/
theorem pair_score_le (g : ColouringGraph) (W : Nat) (avail S : List Nat) (x : Nat) :
    pair_score g W avail S x ≤ S.length * bitset_popcount (avail.getD x 0) W := by
  unfold pair_score
  have h := sum_le_of_bounded
    (S.map (fun w =>
      if x != w && !entry g.adj_matrix x w then
        bitset_intersection_popcount (avail.getD x 0) (avail.getD w 0) W
      else 0))
    (bitset_popcount (avail.getD x 0) W)
    (by
      intro y hy
      rw [List.mem_map] at hy
      obtain ⟨w, _, rfl⟩ := hy
      split
      · exact bitset_intersection_popcount_le _ _ W
      · exact Nat.zero_le _)
  rw [List.length_map] at h
  exact h

/-- There are at most `n` candidates. -/
theorem rule_candidates_length_le (n W : Nat) (avail : List Nat) :
    (rule_candidates n W avail).length ≤ n := by
  unfold rule_candidates
  have := List.length_filter_le
    (fun v => bitset_popcount (avail.getD v 0) W == rule_least_popcount n W avail)
    (List.range n)
  rw [List.length_range] at this
  exact this

/-! ## The branching vertex -/

/-- C12: for every graph with a symmetric matrix and every domain
state in which some vertex has a non-empty row, and in which `n` times the
number of words of a row and `n` times the popcount of any row are in the range
of `int` (so that neither a row offset, nor a popcount, nor a score sum of the
source overflows), `choose_branching_vertex` returns the
result of the four-step rule of the specification.  With `m` the least
popcount of a non-empty row and `S` the vertices whose row has popcount `m`,
it returns the vertex of `S` with the lowest index among those with the
largest score; the score of the rule, which counts every ordered pair, is
twice the sum of `|avail[v] AND avail[w]|` over the `w` in `S`, `w ≠ v`, not
adjacent to `v`, so that either score selects the same vertex; and the sums the
source accumulates are at most `INT_MAX`. -/
theorem choose_branching_vertex_rule (g : ColouringGraph) (hsym : SymmetricMatrix g)
    (avail : List Nat) (W : Nat) (_hW : g.n * W ≤ INT_MAX)
    (hsum : ∀ x, x < g.n → g.n * bitset_popcount (avail.getD x 0) W ≤ INT_MAX)
    (hne : ∃ x, x < g.n ∧ bitset_empty (avail.getD x 0) W = false) :
    choose_branching_vertex g avail W = rule_choice g W avail ∧
    (∃ v, choose_branching_vertex g avail W = some v ∧
      v ∈ rule_candidates g.n W avail ∧
      (∀ w ∈ rule_candidates g.n W avail,
        pair_score g W avail (rule_candidates g.n W avail) w
          ≤ pair_score g W avail (rule_candidates g.n W avail) v) ∧
      (∀ w ∈ rule_candidates g.n W avail, w < v →
        pair_score g W avail (rule_candidates g.n W avail) w
          < pair_score g W avail (rule_candidates g.n W avail) v) ∧
      (∀ w ∈ rule_candidates g.n W avail,
        rule_score g W avail (rule_candidates g.n W avail) w
          = 2 * pair_score g W avail (rule_candidates g.n W avail) w)) ∧
    ∀ w ∈ rule_candidates g.n W avail,
      pair_score g W avail (rule_candidates g.n W avail) w ≤ INT_MAX := by
  have hb : ∀ x, x < g.n → bitset_popcount (avail.getD x 0) W ≤ INT_MAX := by
    intro x hx
    exact Nat.le_trans (Nat.le_mul_of_pos_left _ (by omega)) (hsum x hx)
  obtain ⟨hm, hS⟩ := rule_candidates_eq avail W g.n hb hne
  obtain ⟨_, _, h3⟩ := best_count_vertices_eq avail W g.n hb
  obtain ⟨v0, hv0, _, hv0pc⟩ := h3 hne
  have hnd : (rule_candidates g.n W avail).Nodup := filter_range_nodup _ _
  have hsorted : ∀ i j, i < j → j < (rule_candidates g.n W avail).length →
      (rule_candidates g.n W avail).getD i 0 < (rule_candidates g.n W avail).getD j 0 :=
    sorted_getD_of_pairwise _ (filter_range_pairwise g.n
      (fun v => bitset_popcount (avail.getD v 0) W == rule_least_popcount g.n W avail))
  have hlt : ∀ v ∈ rule_candidates g.n W avail, v < g.n := by
    intro v hv
    unfold rule_candidates at hv
    rw [List.mem_filter, List.mem_range] at hv
    exact hv.1
  have hSne : rule_candidates g.n W avail ≠ [] := by
    intro e
    have hmem : v0 ∈ rule_candidates g.n W avail := by
      unfold rule_candidates
      rw [List.mem_filter, List.mem_range, hm, hv0pc]
      exact ⟨hv0, beq_self_eq_true _⟩
    rw [e] at hmem
    exact absurd hmem (List.not_mem_nil v0)
  obtain ⟨b, hbl, hbest, hmax, hfirst⟩ := best_scoring_vertex_first_max
    (rule_candidates g.n W avail)
    (branching_scores g avail W (rule_candidates g.n W avail)) hSne
  obtain ⟨_, hsc⟩ := branching_scores_eq g hsym avail W _ hnd hlt
  have hrs := rule_score_eq g hsym avail W _ hnd hlt
  have hchoose : choose_branching_vertex g avail W
      = some ((rule_candidates g.n W avail).getD b 0) := by
    unfold choose_branching_vertex
    simp only []
    rw [← hS]
    exact hbest
  have hmaxv : ∀ w ∈ rule_candidates g.n W avail,
      pair_score g W avail (rule_candidates g.n W avail) w
        ≤ pair_score g W avail (rule_candidates g.n W avail)
            ((rule_candidates g.n W avail).getD b 0) := by
    intro w hw
    obtain ⟨j, hj, rfl⟩ := exists_getD_of_mem _ w hw
    rw [← hsc j hj, ← hsc b hbl]
    exact hmax j hj
  have hfirstv : ∀ j, j < b →
      pair_score g W avail (rule_candidates g.n W avail)
          ((rule_candidates g.n W avail).getD j 0)
        < pair_score g W avail (rule_candidates g.n W avail)
            ((rule_candidates g.n W avail).getD b 0) := by
    intro j hj
    rw [← hsc j (by omega), ← hsc b hbl]
    exact hfirst j hj
  refine ⟨?_, ⟨_, hchoose, getD_mem_of_lt _ b hbl, hmaxv, ?_, hrs⟩, ?_⟩
  · rw [hchoose]
    unfold rule_choice
    simp only []
    symm
    apply find?_first _ _ b hbl
    · rw [List.all_eq_true]
      intro w hw
      apply decide_eq_true
      rw [hrs w hw, hrs _ (getD_mem_of_lt _ b hbl)]
      have := hmaxv w hw
      omega
    · intro j hj
      cases hall : (rule_candidates g.n W avail).all (fun w =>
          decide (rule_score g W avail (rule_candidates g.n W avail) w
            ≤ rule_score g W avail (rule_candidates g.n W avail)
                ((rule_candidates g.n W avail).getD j 0))) with
      | false => rfl
      | true =>
        exfalso
        rw [List.all_eq_true] at hall
        have h1 := of_decide_eq_true (hall _ (getD_mem_of_lt _ b hbl))
        rw [hrs _ (getD_mem_of_lt _ b hbl), hrs _ (getD_mem_of_lt _ j (by omega))] at h1
        have := hfirstv j hj
        omega
  · intro w hw hwv
    obtain ⟨j, hj, rfl⟩ := exists_getD_of_mem _ w hw
    apply hfirstv j
    by_contra hjb
    rcases Nat.lt_or_ge b j with h | h
    · have := hsorted b j h hj
      omega
    · have : j = b := by omega
      rw [this] at hwv
      omega
  · intro w hw
    have h1 := pair_score_le g W avail (rule_candidates g.n W avail) w
    have h2 := Nat.mul_le_mul_right (bitset_popcount (avail.getD w 0) W)
      (rule_candidates_length_le g.n W avail)
    exact Nat.le_trans h1 (Nat.le_trans h2 (hsum w (hlt w hw)))

set_option maxRecDepth 100000 in
/-- C12, at the path `0 - 1 - 2` with rows `{0, 1}` for every vertex: the
candidates are the three vertices, the two ends are not adjacent and share two
colours, and vertex 0 is chosen. -/
theorem choose_branching_vertex_rule_witness :
    SymmetricMatrix path3 ∧ path3.n * 1 ≤ INT_MAX ∧
    (∀ x, x < path3.n →
      path3.n * bitset_popcount (([3, 3, 3] : List Nat).getD x 0) 1 ≤ INT_MAX) ∧
    (∃ x, x < path3.n ∧ bitset_empty (([3, 3, 3] : List Nat).getD x 0) 1 = false) ∧
    choose_branching_vertex path3 [3, 3, 3] 1 = rule_choice path3 1 [3, 3, 3] :=
  ⟨by unfold SymmetricMatrix; decide, by decide, by decide, ⟨0, by decide, by decide⟩,
    (choose_branching_vertex_rule path3 (by unfold SymmetricMatrix; decide) [3, 3, 3] 1
      (by decide) (by decide) ⟨0, by decide, by decide⟩).1⟩

end GraphColour
